import Mathlib

/-!
Elliptic-curve engine of LibreSSL libcrypto (`ec_lib.c`, `ec_mult.c`,
`ec_convert.c`, `ecdsa.c`).

A shallow embedding of the group object, the point wrappers, the point
conversion wrappers, the variable-time wNAF double-scalar multiplication and the
ECDSA sign/verify drivers, followed by the theorems that settle the
specification's statements about them.

Conventions of the embedding:

* a `BIGNUM` is an `Int`; a possibly-`NULL` pointer argument is an `Option`;
* a C function returning `0`/`1` becomes an `Except ErrorReason _`: `.ok` is the
  return value `1`, `.error e` is the return value `0` with `e` the reason last
  pushed on the error queue;
* memory allocation never fails (the `MALLOC_FAILURE` branches are not modelled);
* a method table `EC_METHOD` is a record of optional function slots (`none` is
  the `NULL` slot); its identity (the address compared by the C code) is `id`;
* the random source is a tape of the values `bn_rand_interval` will hand out.
-/

namespace LibCrypto

set_option maxRecDepth 100000

/-! ## Error reasons -/

/-- The reasons the modelled functions push on the error queue.  `METHOD_FAILURE`
stands for a reason raised inside a method implementation, `NO_REASON_PUSHED` for
a return of `0` that pushes nothing, `OUT_OF_BOUNDS` marks an array read outside
its allocation (undefined behaviour in C). -/
inductive ErrorReason where
  | ERR_R_PASSED_NULL_PARAMETER
  | ERR_R_SHOULD_NOT_HAVE_BEEN_CALLED
  | ERR_R_EC_LIB
  | ERR_R_BN_LIB
  | ERR_R_ECDSA_LIB
  | EC_R_INVALID_FIELD
  | EC_R_INVALID_GROUP_ORDER
  | EC_R_UNKNOWN_COFACTOR
  | EC_R_INCOMPATIBLE_OBJECTS
  | EC_R_UNDEFINED_GENERATOR
  | EC_R_POINT_AT_INFINITY
  | EC_R_WRONG_CURVE_PARAMETERS
  | ECDSA_R_BAD_SIGNATURE
  | ECDSA_R_MISSING_PARAMETERS
  | ECDSA_R_NEED_NEW_SETUP_VALUES
  | ECDSA_R_RANDOM_NUMBER_GENERATION_FAILED
  | EVP_R_METHOD_NOT_SUPPORTED
  | METHOD_FAILURE
  | ERR_R_MALLOC_FAILURE
  | NO_REASON_PUSHED
  | OUT_OF_BOUNDS
  deriving DecidableEq, Repr

/-! ## The big-integer library (consumed interface) -/

/-- Bit length of a natural number by repeated halving; `fuel` bounds the number
of halvings. -/
def num_bits_aux : Nat → Nat → Nat
  | 0, _ => 0
  | fuel + 1, n => if n = 0 then 0 else num_bits_aux fuel (n / 2) + 1

/-- Modelled from the spec: `BN_num_bits` of the big-integer library (not in
the listed sources), the bit-length of the magnitude; `0` for zero. -/
def BN_num_bits (a : Int) : Nat := num_bits_aux a.natAbs a.natAbs

/-- Modelled from the spec: `BN_is_bit_set` of the big-integer library, the
bit test on the magnitude, as the integer `0` or `1`. -/
def BN_is_bit_set (a : Int) (i : Nat) : Nat := if a.natAbs.testBit i then 1 else 0

/-- Modelled from the spec: `BN_is_negative`. -/
def BN_is_negative (a : Int) : Bool := decide (a < 0)

/-- Modelled from the spec: `BN_is_zero`. -/
def BN_is_zero (a : Int) : Bool := decide (a = 0)

/-- Modelled from the spec: `BN_cmp`, the signed comparison, `-1`, `0` or `1`. -/
def BN_cmp (a b : Int) : Int := if a < b then -1 else if a = b then 0 else 1

/-- Modelled from the spec: `BN_value_one`. -/
def BN_value_one : Int := 1

/-- Modelled from the spec: `BN_add`. -/
def BN_add (a b : Int) : Int := a + b

/-- Modelled from the spec: `BN_add_word`. -/
def BN_add_word (a : Int) (w : Nat) : Int := a + w

/-- Modelled from the spec: `BN_rshift1` on a non-negative operand, `a / 2`
rounded towards zero on the magnitude, keeping the sign. -/
def BN_rshift1 (a : Int) : Int := a.sign * (a.natAbs / 2 : Nat)

/-- Modelled from the spec: `BN_rshift`, the magnitude shifted right by `n`
bits, keeping the sign. -/
def BN_rshift (a : Int) (n : Nat) : Int := a.sign * (a.natAbs >>> n : Nat)

/-- Modelled from the spec: `BN_div_ct` quotient, truncated division. -/
def BN_div_ct (a d : Int) : Option Int := if d = 0 then none else some (Int.tdiv a d)

/-- Modelled from the spec: `BN_nnmod`, the non-negative remainder; fails on a
zero modulus. -/
def BN_nnmod (a m : Int) : Option Int := if m = 0 then none else some (a % m)

/-- Modelled from the spec: `BN_mod_mul`, the non-negative remainder of the
product. -/
def BN_mod_mul (a b m : Int) : Option Int := BN_nnmod (a * b) m

/-- Modelled from the spec: `BN_mod_add`, the non-negative remainder of the
sum. -/
def BN_mod_add (a b m : Int) : Option Int := BN_nnmod (a + b) m

/-- Extended Euclid on the remainders `r0`, `r1` with the Bezout coefficients
`t0`, `t1` of the inverted operand; returns the last non-zero remainder and its
coefficient. -/
def mod_inverse_aux : Nat → Nat → Nat → Int → Int → Nat × Int
  | 0, r0, _, t0, _ => (r0, t0)
  | fuel + 1, r0, r1, t0, t1 =>
    if r1 = 0 then (r0, t0)
    else mod_inverse_aux fuel r1 (r0 % r1) t1 (t0 - (r0 / r1 : Nat) * t1)

/-- Modelled from the spec: `BN_mod_inverse_ct` of the big-integer library: the
inverse of `a` modulo `n` in `[0, |n|)`, or failure when `a` has no inverse. -/
def BN_mod_inverse_ct (a n : Int) : Option Int :=
  if n = 0 then none
  else
    let g := mod_inverse_aux n.natAbs n.natAbs (a % n).toNat 0 1
    if g.1 = 1 then some (g.2 % n) else none

/-- Modelled from the spec: `BN_bin2bn`, the big-endian value of an octet
string. -/
def BN_bin2bn (s : List (Fin 256)) : Int :=
  (s.foldl (fun acc b => acc * 256 + b.val) 0 : Nat)

/-- The random tape: the values the random source hands out, in order. -/
abbrev Tape := List Int

/-- Modelled from the spec: `bn_rand_interval(lower, upper)`, a random value in
`[lower, upper)`.  The next tape value is the draw; an exhausted tape or a value
outside the interval is a failure of the random source. -/
def bn_rand_interval (lower upper : Int) (tape : Tape) : Option Int × Tape :=
  match tape with
  | [] => (none, [])
  | v :: rest => if lower ≤ v ∧ v < upper then (some v, rest) else (none, rest)

/-! ## Points, method tables and groups (`ec_local.h`, `ec_lib.c`) -/

/-- `struct ec_point_st`: the address of the method table and the Jacobian
coordinates. -/
structure EC_POINT where
  meth : Nat
  X : Int
  Y : Int
  Z : Int
  Z_is_one : Int
  deriving DecidableEq, Repr

/-- The data members of `struct ec_group_st` (everything but `meth`). -/
structure EC_GROUP_DATA where
  generator : Option EC_POINT
  order : Int
  cofactor : Int
  nid : Int
  asn1_flag : Int
  asn1_form : Int
  seed : Option (List (Fin 256))
  field : Int
  a : Int
  b : Int
  deriving DecidableEq, Repr

/-- `struct ec_method_st`: the table of function slots a group dispatches
through.  Each present slot receives the group's data and the operands and
returns the new value of the output point.  `group_copy` receives the data of
the destination and of the source and returns the destination's new data;
`point_cmp` returns the C `int`; `point2oct` receives the form and the length of
the buffer (`none` for a `NULL` buffer) and returns the `size_t` result with the
octets it wrote. -/
structure EC_METHOD where
  id : Nat
  field_type : Int
  add : Option (EC_GROUP_DATA → EC_POINT → EC_POINT → EC_POINT → Except ErrorReason EC_POINT)
  dbl : Option (EC_GROUP_DATA → EC_POINT → EC_POINT → Except ErrorReason EC_POINT)
  invert : Option (EC_GROUP_DATA → EC_POINT → Except ErrorReason EC_POINT)
  points_make_affine :
    Option (EC_GROUP_DATA → List EC_POINT → Except ErrorReason (List EC_POINT))
  point_get_affine_coordinates :
    Option (EC_GROUP_DATA → EC_POINT → Except ErrorReason (Int × Int))
  mul_generator_ct : Option (EC_GROUP_DATA → EC_POINT → Int → Except ErrorReason EC_POINT)
  mul_single_ct :
    Option (EC_GROUP_DATA → EC_POINT → Int → EC_POINT → Except ErrorReason EC_POINT)
  mul_double_nonct :
    Option (EC_GROUP_DATA → EC_POINT → Int → Int → EC_POINT → Except ErrorReason EC_POINT)
  group_init : Option (EC_GROUP_DATA → Except ErrorReason EC_GROUP_DATA) := none
  group_copy : Option (EC_GROUP_DATA → EC_GROUP_DATA → Except ErrorReason EC_GROUP_DATA) :=
    none
  group_get_curve : Option (EC_GROUP_DATA → Except ErrorReason (Int × Int × Int)) := none
  point_cmp : Option (EC_GROUP_DATA → EC_POINT → EC_POINT → Int) := none
  point2oct :
    Option (EC_GROUP_DATA → EC_POINT → Int → Option Nat → Nat × List (Fin 256)) := none
  oct2point :
    Option (EC_GROUP_DATA → EC_POINT → List (Fin 256) → Except ErrorReason EC_POINT) := none

/-- `struct ec_group_st`. -/
structure EC_GROUP extends EC_GROUP_DATA where
  meth : EC_METHOD

/-- `EC_POINT_new`: a zeroed point carrying the group's method. -/
def EC_POINT_new (group : EC_GROUP) : EC_POINT :=
  { meth := group.meth.id, X := 0, Y := 0, Z := 0, Z_is_one := 0 }

/-- `EC_POINT_copy`. -/
def EC_POINT_copy (dest src : EC_POINT) : Except ErrorReason EC_POINT :=
  if dest.meth ≠ src.meth then .error .EC_R_INCOMPATIBLE_OBJECTS
  else .ok { dest with X := src.X, Y := src.Y, Z := src.Z, Z_is_one := src.Z_is_one }

/-- `EC_POINT_dup`: `none` is the `NULL` result. -/
def EC_POINT_dup (in_point : Option EC_POINT) (group : EC_GROUP) : Option EC_POINT :=
  match in_point with
  | none => none
  | some p =>
    match EC_POINT_copy (EC_POINT_new group) p with
    | .ok q => some q
    | .error _ => none

/-- `EC_POINT_set_to_infinity`. -/
def EC_POINT_set_to_infinity (group : EC_GROUP) (point : EC_POINT) :
    Except ErrorReason EC_POINT :=
  if group.meth.id ≠ point.meth then .error .EC_R_INCOMPATIBLE_OBJECTS
  else .ok { point with Z := 0, Z_is_one := 0 }

/-- `EC_POINT_is_at_infinity`: `0` also on a method mismatch. -/
def EC_POINT_is_at_infinity (group : EC_GROUP) (point : EC_POINT) : Int :=
  if group.meth.id ≠ point.meth then 0
  else if BN_is_zero point.Z then 1 else 0

/-- `EC_POINT_add`. -/
def EC_POINT_add (group : EC_GROUP) (r a b : EC_POINT) : Except ErrorReason EC_POINT :=
  match group.meth.add with
  | none => .error .ERR_R_SHOULD_NOT_HAVE_BEEN_CALLED
  | some add =>
    if group.meth.id ≠ r.meth ∨ group.meth.id ≠ a.meth ∨ group.meth.id ≠ b.meth then
      .error .EC_R_INCOMPATIBLE_OBJECTS
    else add group.toEC_GROUP_DATA r a b

/-- `EC_POINT_dbl`. -/
def EC_POINT_dbl (group : EC_GROUP) (r a : EC_POINT) : Except ErrorReason EC_POINT :=
  match group.meth.dbl with
  | none => .error .ERR_R_SHOULD_NOT_HAVE_BEEN_CALLED
  | some dbl =>
    if group.meth.id ≠ r.meth ∨ r.meth ≠ a.meth then .error .EC_R_INCOMPATIBLE_OBJECTS
    else dbl group.toEC_GROUP_DATA r a

/-- `EC_POINT_invert`. -/
def EC_POINT_invert (group : EC_GROUP) (a : EC_POINT) : Except ErrorReason EC_POINT :=
  match group.meth.invert with
  | none => .error .ERR_R_SHOULD_NOT_HAVE_BEEN_CALLED
  | some invert =>
    if group.meth.id ≠ a.meth then .error .EC_R_INCOMPATIBLE_OBJECTS
    else invert group.toEC_GROUP_DATA a

/-- `EC_POINTs_make_affine`: the points are normalised in place, so the new
values of all of them are returned. -/
def EC_POINTs_make_affine (group : EC_GROUP) (points : List EC_POINT) :
    Except ErrorReason (List EC_POINT) :=
  match group.meth.points_make_affine with
  | none => .error .ERR_R_SHOULD_NOT_HAVE_BEEN_CALLED
  | some f =>
    if points.any (fun p => decide (group.meth.id ≠ p.meth)) then
      .error .EC_R_INCOMPATIBLE_OBJECTS
    else f group.toEC_GROUP_DATA points

/-- `EC_POINT_get_affine_coordinates`. -/
def EC_POINT_get_affine_coordinates (group : EC_GROUP) (point : EC_POINT) :
    Except ErrorReason (Int × Int) :=
  if EC_POINT_is_at_infinity group point > 0 then .error .EC_R_POINT_AT_INFINITY
  else
    match group.meth.point_get_affine_coordinates with
    | none => .error .ERR_R_SHOULD_NOT_HAVE_BEEN_CALLED
    | some f =>
      if group.meth.id ≠ point.meth then .error .EC_R_INCOMPATIBLE_OBJECTS
      else f group.toEC_GROUP_DATA point

/-- Which multiplier of the method table a call of `EC_POINT_mul` entered. -/
inductive MulCall where
  | mul_generator_ct (g_scalar : Int)
  | mul_single_ct (p_scalar : Int) (point : EC_POINT)
  | mul_double_nonct (g_scalar p_scalar : Int) (point : EC_POINT)
  deriving DecidableEq, Repr

/-- `EC_POINT_mul`, returning next to the result the multiplier it called (if
any). -/
def EC_POINT_mul_traced (group : EC_GROUP) (r : EC_POINT) (g_scalar : Option Int)
    (point : Option EC_POINT) (p_scalar : Option Int) :
    Except ErrorReason EC_POINT × Option MulCall :=
  match group.meth.mul_generator_ct, group.meth.mul_single_ct,
      group.meth.mul_double_nonct with
  | some mul_generator_ct, some mul_single_ct, some mul_double_nonct =>
    match g_scalar, point, p_scalar with
    | some g, none, none =>
      (mul_generator_ct group.toEC_GROUP_DATA r g, some (.mul_generator_ct g))
    | none, some pt, some p =>
      (mul_single_ct group.toEC_GROUP_DATA r p pt, some (.mul_single_ct p pt))
    | some g, some pt, some p =>
      (mul_double_nonct group.toEC_GROUP_DATA r g p pt, some (.mul_double_nonct g p pt))
    | _, _, _ => (.error .ERR_R_EC_LIB, none)
  | _, _, _ => (.error .ERR_R_SHOULD_NOT_HAVE_BEEN_CALLED, none)

/-- `EC_POINT_mul`. -/
def EC_POINT_mul (group : EC_GROUP) (r : EC_POINT) (g_scalar : Option Int)
    (point : Option EC_POINT) (p_scalar : Option Int) : Except ErrorReason EC_POINT :=
  (EC_POINT_mul_traced group r g_scalar point p_scalar).1

/-- The label `done:` of `ec_set_cofactor`: the Hasse bound on the candidate,
then the store into the group. -/
def ec_set_cofactor_done (group : EC_GROUP) (cofactor : Int) :
    Except ErrorReason Unit × EC_GROUP :=
  if BN_num_bits cofactor > BN_num_bits group.field + 1 then
    (.error .EC_R_INVALID_GROUP_ORDER, group)
  else (.ok (), { group with cofactor := cofactor })

/-- `ec_set_cofactor`: the result and the group as the call leaves it. -/
def ec_set_cofactor (group : EC_GROUP) (in_cofactor : Option Int) :
    Except ErrorReason Unit × EC_GROUP :=
  let group : EC_GROUP := { group with cofactor := 0 }
  let infer : Except ErrorReason Unit × EC_GROUP :=
    if BN_num_bits group.order ≤ (BN_num_bits group.field + 1) / 2 + 3 then
      ec_set_cofactor_done group 0
    else
      match BN_div_ct (BN_add (BN_add_word (BN_rshift1 group.order) 1) group.field)
          group.order with
      | none => (.error .ERR_R_BN_LIB, group)
      | some cofactor => ec_set_cofactor_done group cofactor
  match in_cofactor with
  | none => infer
  | some c =>
    if ¬ BN_is_zero c then
      if BN_is_negative c then (.error .EC_R_UNKNOWN_COFACTOR, group)
      else ec_set_cofactor_done group c
    else infer

/-- `EC_GROUP_set_generator`: the result and the group as the call leaves it. -/
def EC_GROUP_set_generator (group : EC_GROUP) (generator : Option EC_POINT)
    (order : Option Int) (cofactor : Option Int) : Except ErrorReason Unit × EC_GROUP :=
  match generator with
  | none => (.error .ERR_R_PASSED_NULL_PARAMETER, group)
  | some generator =>
    if BN_is_zero group.field ∨ BN_is_negative group.field then
      (.error .EC_R_INVALID_FIELD, group)
    else
      match order with
      | none => (.error .EC_R_INVALID_GROUP_ORDER, group)
      | some order =>
        if BN_cmp order BN_value_one ≤ 0 ∨
            BN_num_bits order > BN_num_bits group.field + 1 then
          (.error .EC_R_INVALID_GROUP_ORDER, group)
        else
          let group : EC_GROUP :=
            match group.generator with
            | none => { group with generator := some (EC_POINT_new group) }
            | some _ => group
          match group.generator with
          | none => (.error .ERR_R_MALLOC_FAILURE, group)
          | some dest =>
            match EC_POINT_copy dest generator with
            | .error e => (.error e, group)
            | .ok g =>
              let group : EC_GROUP := { group with generator := some g }
              let group : EC_GROUP := { group with order := order }
              ec_set_cofactor group cofactor

/-- `EC_GROUP_get0_generator`. -/
def EC_GROUP_get0_generator (group : EC_GROUP) : Option EC_POINT := group.generator

/-- `EC_GROUP_get0_order`. -/
def EC_GROUP_get0_order (group : EC_GROUP) : Int := group.order

/-- `ec_group_simple_order_bits`, the `group_order_bits` slot of every method
table. -/
def ec_group_simple_order_bits (group : EC_GROUP) : Nat := BN_num_bits group.order

/-- `EC_GROUP_order_bits`. -/
def EC_GROUP_order_bits (group : EC_GROUP) : Nat := ec_group_simple_order_bits group

/-! ## Variable-time double-scalar multiplication (`ec_mult.c`) -/

/-- `ec_window_bits`. -/
def ec_window_bits (bn : Int) : Nat :=
  let bits := BN_num_bits bn
  if bits ≥ 2000 then 6
  else if bits ≥ 800 then 5
  else if bits ≥ 300 then 4
  else if bits ≥ 70 then 3
  else if bits ≥ 20 then 2
  else 1

/-- The value an `int` has after being stored in a `signed char`. -/
def to_signed_char (x : Int) : Int := (x + 128) % 256 - 128

/-- The first loop of `ec_compute_wNAF`: the `wbits + 1` lowest bits of `bn`
are gathered into `window`. -/
def wNAF_window_init (bn : Int) (wbits : Nat) : Nat :=
  (List.range (wbits + 1)).foldl
    (fun window i => if BN_is_bit_set bn i ≠ 0 then window ||| (1 <<< i) else window) 0

/-- The digit chosen in one round of the second loop of `ec_compute_wNAF`:
`0` for an even window, else the window or `window - next` when its bit `bit`
is set. -/
def wNAF_digit (window bit next : Nat) : Int :=
  if window &&& 1 ≠ 0 then
    if window &&& bit ≠ 0 then (window : Int) - (next : Int) else (window : Int)
  else 0

/-- The window after one round of the second loop of `ec_compute_wNAF`: the
digit is subtracted, the window slides by one bit and takes in bit
`i + wbits + 1` of `bn`. -/
def wNAF_slide (bn : Int) (wbits bit i window : Nat) (digit : Int) : Nat :=
  (((window : Int) - digit).toNat >>> 1) + bit * BN_is_bit_set bn (i + wbits + 1)

/-- The second loop of `ec_compute_wNAF`, `count` rounds from position `i`:
the digits stored in `wNAF[i ..]`. -/
def wNAF_digits (bn : Int) (wbits : Nat) (sign : Int) (bit next : Nat) :
    Nat → Nat → Nat → List Int
  | 0, _, _ => []
  | count + 1, i, window =>
    let digit := wNAF_digit window bit next
    to_signed_char (sign * digit) ::
      wNAF_digits bn wbits sign bit next count (i + 1) (wNAF_slide bn wbits bit i window digit)

/-- `ec_compute_wNAF`: the digits `wNAF`, their number `wNAF_len` and the length
`len` of the table of odd multiples. -/
def ec_compute_wNAF (bn : Int) : List Int × Nat × Nat :=
  let wNAF_len := BN_num_bits bn + 1
  let wbits := ec_window_bits bn
  let len := 1 <<< (wbits - 1)
  let sign : Int := if BN_is_negative bn then -1 else 1
  let bit := 1 <<< wbits
  let next := bit <<< 1
  let window := wNAF_window_init bn wbits
  (wNAF_digits bn wbits sign bit next wNAF_len 0 window, wNAF_len, len)

/-- The loop of `ec_compute_odd_multiples`: `count` further entries, each the
previous one plus `doubled`. -/
def odd_multiples_loop (group : EC_GROUP) (doubled : EC_POINT) :
    Nat → EC_POINT → Except ErrorReason (List EC_POINT)
  | 0, _ => .ok []
  | count + 1, prev =>
    match EC_POINT_add group (EC_POINT_new group) prev doubled with
    | .error e => .error e
    | .ok p =>
      match odd_multiples_loop group doubled count p with
      | .error e => .error e
      | .ok rest => .ok (p :: rest)

/-- `ec_compute_odd_multiples`. -/
def ec_compute_odd_multiples (group : EC_GROUP) (point : EC_POINT) (row_len : Nat) :
    Except ErrorReason (List EC_POINT) :=
  if row_len < 1 then .error .NO_REASON_PUSHED
  else
    match EC_POINT_dup (some point) group with
    | none => .error .EC_R_INCOMPATIBLE_OBJECTS
    | some row0 =>
      match EC_POINT_dbl group (EC_POINT_new group) point with
      | .error e => .error e
      | .ok doubled =>
        match odd_multiples_loop group doubled (row_len - 1) row0 with
        | .error e => .error e
        | .ok rest => .ok (row0 :: rest)

/-- `ec_compute_row`: the digits, their number, the table and its length. -/
def ec_compute_row (group : EC_GROUP) (m : Int) (point : EC_POINT) :
    Except ErrorReason (List Int × Nat × List EC_POINT × Nat) :=
  match ec_compute_wNAF m with
  | (wNAF, wNAF_len, row_len) =>
    match ec_compute_odd_multiples group point row_len with
    | .error e => .error e
    | .ok row => .ok (wNAF, wNAF_len, row, row_len)

/-- `SIZE_MAX` of the 64-bit platforms. -/
def SIZE_MAX : Nat := 2 ^ 64 - 1

/-- `ec_normalize_rows`: both tables are normalised in one batch; the points are
changed in place, so the new tables are returned. -/
def ec_normalize_rows (group : EC_GROUP) (row0 : List EC_POINT) (len0 : Nat)
    (row1 : List EC_POINT) (len1 : Nat) :
    Except ErrorReason (List EC_POINT × List EC_POINT) :=
  if len1 > SIZE_MAX - len0 then .error .NO_REASON_PUSHED
  else
    match EC_POINTs_make_affine group (row0.take len0 ++ row1.take len1) with
    | .error e => .error e
    | .ok val => .ok (val.take len0, val.drop len0)

/-- The body of the inner loop of `ec_wNAF_mul` for one base at position `k`:
the digit of that base, if any, is added into `r`, whose sign is tracked by
`r_is_inverted`. -/
def ec_wNAF_mul_digit (group : EC_GROUP) (wNAF : List Int) (wNAF_len : Nat)
    (row : List EC_POINT) (k : Nat) (r : EC_POINT) (r_is_inverted : Bool) :
    Except ErrorReason (EC_POINT × Bool) :=
  if k ≥ wNAF_len then .ok (r, r_is_inverted)
  else
    match wNAF[k]? with
    | none => .error .OUT_OF_BOUNDS
    | some digit =>
      if digit = 0 then .ok (r, r_is_inverted)
      else
        let is_neg : Bool := decide (digit < 0)
        let digit : Int := if digit < 0 then -digit else digit
        let flipped : Except ErrorReason (EC_POINT × Bool) :=
          if is_neg ≠ r_is_inverted then
            match EC_POINT_invert group r with
            | .error e => .error e
            | .ok r => .ok (r, !r_is_inverted)
          else .ok (r, r_is_inverted)
        match flipped with
        | .error e => .error e
        | .ok (r, r_is_inverted) =>
          match row[digit.toNat >>> 1]? with
          | none => .error .OUT_OF_BOUNDS
          | some p =>
            match EC_POINT_add group r r p with
            | .error e => .error e
            | .ok r => .ok (r, r_is_inverted)

/-- The main loop of `ec_wNAF_mul`, for `k` from `count - 1` down to `0`. -/
def ec_wNAF_mul_loop (group : EC_GROUP) (wNAF0 : List Int) (len0 : Nat)
    (row0 : List EC_POINT) (wNAF1 : List Int) (len1 : Nat) (row1 : List EC_POINT) :
    Nat → EC_POINT → Bool → Except ErrorReason (EC_POINT × Bool)
  | 0, r, r_is_inverted => .ok (r, r_is_inverted)
  | k + 1, r, r_is_inverted =>
    match EC_POINT_dbl group r r with
    | .error e => .error e
    | .ok r =>
      match ec_wNAF_mul_digit group wNAF0 len0 row0 k r r_is_inverted with
      | .error e => .error e
      | .ok (r, r_is_inverted) =>
        match ec_wNAF_mul_digit group wNAF1 len1 row1 k r r_is_inverted with
        | .error e => .error e
        | .ok (r, r_is_inverted) =>
          ec_wNAF_mul_loop group wNAF0 len0 row0 wNAF1 len1 row1 k r r_is_inverted

/-- `ec_wNAF_mul`: `r = generator * m + point * n` in non-constant time. -/
def ec_wNAF_mul (group : EC_GROUP) (r : EC_POINT) (m : Option Int) (point : EC_POINT)
    (n : Option Int) : Except ErrorReason EC_POINT :=
  match m, n with
  | some m, some n =>
    if group.meth.id ≠ r.meth ∨ group.meth.id ≠ point.meth then
      .error .EC_R_INCOMPATIBLE_OBJECTS
    else
      match EC_GROUP_get0_generator group with
      | none => .error .EC_R_UNDEFINED_GENERATOR
      | some generator =>
        match ec_compute_row group m generator with
        | .error e => .error e
        | .ok (wNAF0, wNAF_len0, row0, row_len0) =>
          match ec_compute_row group n point with
          | .error e => .error e
          | .ok (wNAF1, wNAF_len1, row1, row_len1) =>
            match ec_normalize_rows group row0 row_len0 row1 row_len1 with
            | .error e => .error e
            | .ok (row0, row1) =>
              let max_len := if wNAF_len1 > wNAF_len0 then wNAF_len1 else wNAF_len0
              match EC_POINT_set_to_infinity group r with
              | .error e => .error e
              | .ok r =>
                match ec_wNAF_mul_loop group wNAF0 wNAF_len0 row0 wNAF1 wNAF_len1 row1
                    max_len r false with
                | .error e => .error e
                | .ok (r, r_is_inverted) =>
                  if r_is_inverted then EC_POINT_invert group r else .ok r
  | _, _ => .error .ERR_R_PASSED_NULL_PARAMETER

/-- The assumption under which the multiplication is analysed: the `add`, `dbl`
and `invert` slots of the group's method implement the law of the commutative
group `A` on the points satisfying `V` (the valid representatives), `φ` being
the represented group element; a point with `Z = 0` represents the neutral
element; batched normalisation keeps every represented element. -/
structure GroupLaw {A : Type} [AddCommGroup A] (group : EC_GROUP) (V : EC_POINT → Prop)
    (φ : EC_POINT → A) : Prop where
  add_law : ∃ f, group.meth.add = some f ∧
    ∀ r a b, r.meth = group.meth.id → a.meth = group.meth.id → b.meth = group.meth.id →
      V a → V b →
      ∃ r', f group.toEC_GROUP_DATA r a b = .ok r' ∧ r'.meth = group.meth.id ∧ V r' ∧
        φ r' = φ a + φ b
  dbl_law : ∃ f, group.meth.dbl = some f ∧
    ∀ r a, r.meth = group.meth.id → a.meth = group.meth.id → V a →
      ∃ r', f group.toEC_GROUP_DATA r a = .ok r' ∧ r'.meth = group.meth.id ∧ V r' ∧
        φ r' = φ a + φ a
  invert_law : ∃ f, group.meth.invert = some f ∧
    ∀ a, a.meth = group.meth.id → V a →
      ∃ r', f group.toEC_GROUP_DATA a = .ok r' ∧ r'.meth = group.meth.id ∧ V r' ∧
        φ r' = - φ a
  make_affine_law : ∃ f, group.meth.points_make_affine = some f ∧
    ∀ pts : List EC_POINT, (∀ p ∈ pts, p.meth = group.meth.id ∧ V p) →
      ∃ pts', f group.toEC_GROUP_DATA pts = .ok pts' ∧
        List.Forall₂ (fun p p' => p'.meth = group.meth.id ∧ V p' ∧ φ p' = φ p) pts pts'
  infinity_law : ∀ p, p.meth = group.meth.id → p.Z = 0 → V p ∧ φ p = 0

/-- A table of odd multiples of the element `B`: entry `i` is a valid point of
the group's method representing `(2 i + 1) B`. -/
def RowOK {A : Type} [AddCommGroup A] (group : EC_GROUP) (V : EC_POINT → Prop)
    (φ : EC_POINT → A) (B : A) (row : List EC_POINT) : Prop :=
  ∀ i p, row[i]? = some p → p.meth = group.meth.id ∧ V p ∧ φ p = (2 * i + 1) • B

/-- The element the accumulator of `ec_wNAF_mul` stands for: the represented
element, negated while `r_is_inverted` is set. -/
def signed_value {A : Type} [AddCommGroup A] (φ : EC_POINT → A) (r : EC_POINT)
    (r_is_inverted : Bool) : A :=
  if r_is_inverted then - φ r else φ r

/-- The integer a list of digits stands for, `Σ dᵢ 2ⁱ`. -/
def digits_value : List Int → Int
  | [] => 0
  | d :: ds => d + 2 * digits_value ds

/-! ## ECDSA (`ecdsa.c`) -/

/-- `struct ecdsa_sig_st`. -/
structure ECDSA_SIG where
  r : Int
  s : Int
  deriving DecidableEq, Repr

/-- The data members of `struct ec_key_st`. -/
structure EC_KEY_DATA where
  group : Option EC_GROUP
  pub_key : Option EC_POINT
  priv_key : Option Int

/-- The slots of `struct ec_key_method_st` that `ecdsa_sign_sig` and
`ECDSA_do_verify` dispatch through.  A present `sign_setup` receives the key's
data and the random tape and returns `(kinv, r)` and the rest of the tape; a
present `verify_sig` receives the digest, the signature and the key's data and
returns the C `int`. -/
structure EC_KEY_METHOD where
  sign_setup : Option (EC_KEY_DATA → Tape → Except ErrorReason (Int × Int) × Tape)
  verify_sig : Option (List (Fin 256) → Option ECDSA_SIG → EC_KEY_DATA → Int) := none

/-- `struct ec_key_st`. -/
structure EC_KEY extends EC_KEY_DATA where
  meth : EC_KEY_METHOD

/-- `ecdsa_prepare_digest`: `none` is the return value `0`. -/
def ecdsa_prepare_digest (digest : List (Fin 256)) (key : EC_KEY_DATA) : Option Int :=
  let e := BN_bin2bn digest
  match key.group with
  | none => none
  | some group =>
    let order_bits := EC_GROUP_order_bits group
    let digest_bits := 8 * digest.length
    if digest_bits ≤ order_bits then some e
    else some (BN_rshift e (digest_bits - order_bits))

/-- The `do ... while (BN_is_zero(r))` loop of `ecdsa_sign_setup`: returns the
masked nonce `k` and `r`.  Every round draws one value from the tape, so the
tape left by `bn_rand_interval` is the tail `rest`. -/
def ecdsa_sign_setup_loop (group : EC_GROUP) (order : Int) (order_bits : Nat) :
    EC_POINT → Tape → Except ErrorReason (Int × Int) × Tape
  | _, [] => (.error .ECDSA_R_RANDOM_NUMBER_GENERATION_FAILED, [])
  | point, v :: rest =>
    match (bn_rand_interval BN_value_one order (v :: rest)).1 with
    | none => (.error .ECDSA_R_RANDOM_NUMBER_GENERATION_FAILED, rest)
    | some k =>
      let r := BN_add k order
      let x := BN_add r order
      let k := if BN_num_bits r > order_bits then r else x
      match EC_POINT_mul group point (some k) none none with
      | .error _ => (.error .ERR_R_EC_LIB, rest)
      | .ok point =>
        match EC_POINT_get_affine_coordinates group point with
        | .error _ => (.error .ERR_R_EC_LIB, rest)
        | .ok (x, _) =>
          match BN_nnmod x order with
          | none => (.error .ERR_R_BN_LIB, rest)
          | some r =>
            if BN_is_zero r then ecdsa_sign_setup_loop group order order_bits point rest
            else (.ok (k, r), rest)

/-- `ecdsa_sign_setup`: `(kinv, r)` and the rest of the tape. -/
def ecdsa_sign_setup (key : EC_KEY_DATA) (tape : Tape) :
    Except ErrorReason (Int × Int) × Tape :=
  match key.group with
  | none => (.error .ERR_R_PASSED_NULL_PARAMETER, tape)
  | some group =>
    let point := EC_POINT_new group
    let order := EC_GROUP_get0_order group
    if BN_cmp order BN_value_one ≤ 0 then (.error .EC_R_INVALID_GROUP_ORDER, tape)
    else
      let order_bits := BN_num_bits order
      if order_bits < 80 then (.error .EC_R_INVALID_GROUP_ORDER, tape)
      else
        match ecdsa_sign_setup_loop group order order_bits point tape with
        | (.error e, tape) => (.error e, tape)
        | (.ok (k, r), tape) =>
          match BN_mod_inverse_ct k order with
          | none => (.error .ERR_R_BN_LIB, tape)
          | some kinv => (.ok (kinv, r), tape)

/-- `ecdsa_compute_s`: on success `some s`, or `none` when `s = 0` (the output
`*out_s` stays `NULL`). -/
def ecdsa_compute_s (e kinv r : Int) (key : EC_KEY_DATA) (tape : Tape) :
    Except ErrorReason (Option Int) × Tape :=
  match key.group with
  | none => (.error .ERR_R_PASSED_NULL_PARAMETER, tape)
  | some group =>
    let order := EC_GROUP_get0_order group
    match key.priv_key with
    | none => (.error .ERR_R_PASSED_NULL_PARAMETER, tape)
    | some priv_key =>
      if BN_cmp r BN_value_one < 0 ∨ BN_cmp r order ≥ 0 then
        (.error .ECDSA_R_BAD_SIGNATURE, tape)
      else
        match bn_rand_interval BN_value_one order tape with
        | (none, tape) => (.error .ERR_R_BN_LIB, tape)
        | (some b, tape) =>
          match BN_mod_inverse_ct b order with
          | none => (.error .ERR_R_BN_LIB, tape)
          | some binv =>
            let s : Option Int := do
              let bxr ← BN_mod_mul b priv_key order
              let bxr ← BN_mod_mul bxr r order
              let be ← BN_mod_mul b e order
              let s ← BN_mod_add be bxr order
              let s ← BN_mod_mul s kinv order
              BN_mod_mul s binv order
            match s with
            | none => (.error .ERR_R_BN_LIB, tape)
            | some s => if ¬ BN_is_zero s then (.ok (some s), tape) else (.ok none, tape)

/-- `ECDSA_MAX_SIGN_ITERATIONS`. -/
def ECDSA_MAX_SIGN_ITERATIONS : Nat := 32

/-- `ECDSA_sign_setup`: the dispatch through the key's method. -/
def ECDSA_sign_setup (key : EC_KEY) (tape : Tape) : Except ErrorReason (Int × Int) × Tape :=
  match key.meth.sign_setup with
  | none => (.error .EVP_R_METHOD_NOT_SUPPORTED, tape)
  | some sign_setup => sign_setup key.toEC_KEY_DATA tape

/-- The `do ... while (1)` loop of `ecdsa_sign_sig`.  `supplied` holds the
caller's `(kinv, r)` when `caller_supplied_values` is set; `attempts` is the
counter of the C code; `fuel` only bounds the recursion and is never exhausted
when it starts above `ECDSA_MAX_SIGN_ITERATIONS`. -/
def ecdsa_sign_sig_loop (key : EC_KEY) (e : Int) (supplied : Option (Int × Int)) :
    Nat → Nat → Tape → Except ErrorReason ECDSA_SIG × Tape
  | 0, _, tape => (.error .EC_R_WRONG_CURVE_PARAMETERS, tape)
  | fuel + 1, attempts, tape =>
    let setup : Except ErrorReason (Int × Int) × Tape :=
      match supplied with
      | some kr => (.ok kr, tape)
      | none =>
        match ECDSA_sign_setup key tape with
        | (.error _, tape) => (.error .ERR_R_ECDSA_LIB, tape)
        | (.ok kr, tape) => (.ok kr, tape)
    match setup with
    | (.error err, tape) => (.error err, tape)
    | (.ok (kinv, r), tape) =>
      match ecdsa_compute_s e kinv r key.toEC_KEY_DATA tape with
      | (.error err, tape) => (.error err, tape)
      | (.ok (some s), tape) => (.ok { r := r, s := s }, tape)
      | (.ok none, tape) =>
        if supplied.isSome then (.error .ECDSA_R_NEED_NEW_SETUP_VALUES, tape)
        else if attempts + 1 > ECDSA_MAX_SIGN_ITERATIONS then
          (.error .EC_R_WRONG_CURVE_PARAMETERS, tape)
        else ecdsa_sign_sig_loop key e supplied fuel (attempts + 1) tape

/-- `ecdsa_sign_sig`: the signature and the rest of the tape. -/
def ecdsa_sign_sig (digest : List (Fin 256)) (in_kinv in_r : Option Int) (key : EC_KEY)
    (tape : Tape) : Except ErrorReason ECDSA_SIG × Tape :=
  match ecdsa_prepare_digest digest key.toEC_KEY_DATA with
  | none => (.error .NO_REASON_PUSHED, tape)
  | some e =>
    let supplied : Option (Int × Int) :=
      match in_kinv, in_r with
      | some kinv, some r => some (kinv, r)
      | _, _ => none
    ecdsa_sign_sig_loop key e supplied (ECDSA_MAX_SIGN_ITERATIONS + 1) 0 tape

/-- `ecdsa_verify_sig`: `1` accept, `0` reject, `-1` error. -/
def ecdsa_verify_sig (digest : List (Fin 256)) (sig : Option ECDSA_SIG)
    (key : Option EC_KEY) : Int :=
  match key, sig with
  | some key, some sig =>
    match key.group with
    | none => -1
    | some group =>
      match key.pub_key with
      | none => -1
      | some pub_key =>
        let order := EC_GROUP_get0_order group
        if BN_cmp sig.r BN_value_one < 0 ∨ BN_cmp sig.r order ≥ 0 then 0
        else if BN_cmp sig.s BN_value_one < 0 ∨ BN_cmp sig.s order ≥ 0 then 0
        else
          match ecdsa_prepare_digest digest key.toEC_KEY_DATA with
          | none => -1
          | some e =>
            match BN_mod_inverse_ct sig.s order with
            | none => -1
            | some sinv =>
              match BN_mod_mul e sinv order, BN_mod_mul sig.r sinv order with
              | some u, some v =>
                match EC_POINT_mul group (EC_POINT_new group) (some u) (some pub_key)
                    (some v) with
                | .error _ => -1
                | .ok point =>
                  match EC_POINT_get_affine_coordinates group point with
                  | .error _ => -1
                  | .ok (x, _) =>
                    match BN_nnmod x order with
                    | none => -1
                    | some x => if BN_cmp x sig.r = 0 then 1 else 0
              | _, _ => -1
  | _, _ => -1

/-- The assumption under which sign-then-verify is analysed: the multipliers of
the group's method compute the group-law results on the represented elements
(`φ`) of the valid points (`V`), a valid point is at infinity exactly when it
represents the neutral element, and the affine `x` of a valid point is a
function `xof` of the represented element. -/
structure ScalarMulLaw {A : Type} [AddCommGroup A] (group : EC_GROUP) (G : EC_POINT)
    (V : EC_POINT → Prop) (φ : EC_POINT → A) (xof : A → Int) : Prop where
  generator : group.generator = some G
  mul_generator_law : ∃ f, group.meth.mul_generator_ct = some f ∧
    ∀ r k, r.meth = group.meth.id →
      ∃ r', f group.toEC_GROUP_DATA r k = .ok r' ∧ r'.meth = group.meth.id ∧ V r' ∧
        φ r' = k • φ G
  mul_single_present : group.meth.mul_single_ct ≠ none
  mul_double_law : ∃ f, group.meth.mul_double_nonct = some f ∧
    ∀ r u v P, r.meth = group.meth.id → P.meth = group.meth.id → V P →
      ∃ r', f group.toEC_GROUP_DATA r u v P = .ok r' ∧ r'.meth = group.meth.id ∧ V r' ∧
        φ r' = u • φ G + v • φ P
  infinity_law : ∀ p, p.meth = group.meth.id → V p → (p.Z = 0 ↔ φ p = 0)
  affine_law : ∃ f, group.meth.point_get_affine_coordinates = some f ∧
    ∀ p, p.meth = group.meth.id → V p → p.Z ≠ 0 →
      ∃ y, f group.toEC_GROUP_DATA p = .ok (xof (φ p), y)

/-- The method address a generator must carry for `EC_POINT_copy` into the
group's generator slot to be compatible: that of the point already stored there,
or of the fresh `EC_POINT_new (group)`. -/
def generator_slot_meth (group : EC_GROUP) : Nat :=
  match group.generator with
  | none => group.meth.id
  | some d => d.meth

/-- The cofactor the specification prescribes when none is supplied: `0`
("unknown") when the order is short, else `(p + 1 + n/2) / n` rounded down. -/
def spec_inferred_cofactor (p n : Int) : Int :=
  if BN_num_bits n ≤ (BN_num_bits p + 1) / 2 + 3 then 0 else (p + 1 + n / 2) / n

/-! ## Concrete inputs -/

/-- A method table with every slot `NULL`. -/
def bare_method (id : Nat) : EC_METHOD :=
  { id := id, field_type := 406, add := none, dbl := none, invert := none,
    points_make_affine := none, point_get_affine_coordinates := none,
    mul_generator_ct := none, mul_single_ct := none, mul_double_nonct := none }

/-- The curve `y² = x³ + x + 6` over `GF(7)`, which has 11 points, before its
generator is set. -/
def curve_p7 : EC_GROUP :=
  { generator := none, order := 0, cofactor := 0, nid := 0, asn1_flag := 1, asn1_form := 4,
    seed := none, field := 7, a := 1, b := 6, meth := bare_method 1 }

/-- The affine point `(1, 1)` of `curve_p7`. -/
def point_p7 : EC_POINT := { meth := 1, X := 1, Y := 1, Z := 1, Z_is_one := 1 }

/-- A method table whose three multipliers are present and return the output
point unchanged; every other slot is `NULL`. -/
def mul_only_method (id : Nat) : EC_METHOD :=
  { bare_method id with
    mul_generator_ct := some (fun _ r _ => .ok r)
    mul_single_ct := some (fun _ r _ _ => .ok r)
    mul_double_nonct := some (fun _ r _ _ _ => .ok r) }

/-! ### A concrete method table: the integers modulo `q`

The cyclic group of order `q` stands in for a curve group: a point with `Z ≠ 0`
represents the residue of its `X`, a point with `Z = 0` the neutral element, and
the affine `x` of a point is the least non-negative residue. -/

/-- The integer a point of the modular method stands for (modulo `q`). -/
def zmod_value (p : EC_POINT) : Int := if p.Z = 0 then 0 else p.X

/-- The point of the modular method standing for `x`, written over `r`. -/
def zmod_point (q : Nat) (r : EC_POINT) (x : Int) : EC_POINT :=
  { r with X := x % q, Y := 0, Z := if x % q = 0 then 0 else 1, Z_is_one := 1 }

/-- The method table of the integers modulo `q`. -/
def zmod_method (id q : Nat) : EC_METHOD :=
  { id := id
    field_type := 406
    add := some (fun _ r a b => .ok (zmod_point q r (zmod_value a + zmod_value b)))
    dbl := some (fun _ r a => .ok (zmod_point q r (zmod_value a + zmod_value a)))
    invert := some (fun _ a => .ok (zmod_point q a (- zmod_value a)))
    points_make_affine := some (fun _ pts => .ok pts)
    point_get_affine_coordinates := some (fun _ p => .ok (zmod_value p % q, 0))
    mul_generator_ct := some (fun g r k =>
      match g.generator with
      | none => .error .EC_R_UNDEFINED_GENERATOR
      | some G => .ok (zmod_point q r (k * zmod_value G)))
    mul_single_ct := some (fun _ r k p => .ok (zmod_point q r (k * zmod_value p)))
    mul_double_nonct := some (fun g r k1 k2 p =>
      match g.generator with
      | none => .error .EC_R_UNDEFINED_GENERATOR
      | some G => .ok (zmod_point q r (k1 * zmod_value G + k2 * zmod_value p))) }

/-- The generator of the modular groups: the point standing for `1`. -/
def zmod_generator (id : Nat) : EC_POINT := { meth := id, X := 1, Y := 0, Z := 1, Z_is_one := 1 }

/-- The group of the integers modulo `q` with generator `1` and order `q`. -/
def zmod_group (id q : Nat) : EC_GROUP :=
  { generator := some (zmod_generator id), order := q, cofactor := 1, nid := 0, asn1_flag := 1,
    asn1_form := 4, seed := none, field := q, a := 0, b := 0, meth := zmod_method id q }

/-- The element of `ZMod q` a point of the modular method represents. -/
def zmod_repr (q : Nat) (p : EC_POINT) : ZMod q := ((zmod_value p : Int) : ZMod q)

/-- The valid points of the modular method: a point not at infinity stands for
a non-zero residue. -/
def zmod_valid (q : Nat) (p : EC_POINT) : Prop := p.Z ≠ 0 → p.X % (q : Int) ≠ 0

/-- The Mersenne prime `2^89 - 1`, an order of 89 bits. -/
def q89 : Nat := 618970019642690137449562111

/-- A key on the group of the integers modulo `2^89 - 1`: private key `12345`,
public key the point standing for `12345 · 1`, default `sign_setup`. -/
def key89 : EC_KEY :=
  { group := some (zmod_group 1 q89)
    pub_key := some (zmod_point q89 (zmod_generator 1) 12345)
    priv_key := some 12345
    meth := { sign_setup := some ecdsa_sign_setup } }

/-- A digest of 32 octets. -/
def digest32 : List (Fin 256) := 1 :: List.replicate 31 0

/-! ## Group comparison and copying (`ec_lib.c`) -/

/-- `EC_POINT_cmp`: the `int` it returns. -/
def EC_POINT_cmp (group : EC_GROUP) (a b : EC_POINT) : Int :=
  match group.meth.point_cmp with
  | none => -1
  | some point_cmp =>
    if group.meth.id ≠ a.meth ∨ a.meth ≠ b.meth then -1
    else point_cmp group.toEC_GROUP_DATA a b

/-- The reason `EC_POINT_cmp` itself pushes on the error queue, if any. -/
def EC_POINT_cmp_error (group : EC_GROUP) (a b : EC_POINT) : Option ErrorReason :=
  match group.meth.point_cmp with
  | none => some .ERR_R_SHOULD_NOT_HAVE_BEEN_CALLED
  | some _ =>
    if group.meth.id ≠ a.meth ∨ a.meth ≠ b.meth then some .EC_R_INCOMPATIBLE_OBJECTS
    else none

/-- A method table that reads the modulus from the group: the integers modulo
`group.field` with their addition, the curve getter and copier that read and
write `(field, a, b)`, and the comparison of the residues two points stand
for.  Two groups of different moduli share this one table. -/
def field_method (id : Nat) : EC_METHOD :=
  { bare_method id with
    add := some (fun g r a b => .ok (zmod_point g.field.toNat r (zmod_value a + zmod_value b)))
    dbl := some (fun g r a => .ok (zmod_point g.field.toNat r (zmod_value a + zmod_value a)))
    group_init := some (fun g => .ok g)
    group_copy := some (fun d s => .ok { d with field := s.field, a := s.a, b := s.b })
    group_get_curve := some (fun g => .ok (g.field, g.a, g.b))
    point_cmp := some (fun g a b =>
      if (zmod_value a - zmod_value b) % g.field = 0 then 0 else 1) }

/-- The integers modulo `11` on `field_method 1`, generator `1`, cofactor `1`. -/
def field_group_11 : EC_GROUP :=
  { generator := some (zmod_generator 1), order := 11, cofactor := 1, nid := 0, asn1_flag := 1,
    asn1_form := 4, seed := none, field := 11, a := 0, b := 0, meth := field_method 1 }

/-- The integers modulo `13` on the same method table `field_method 1`. -/
def field_group_13 : EC_GROUP :=
  { generator := some (zmod_generator 1), order := 13, cofactor := 1, nid := 0, asn1_flag := 1,
    asn1_form := 4, seed := none, field := 13, a := 0, b := 0, meth := field_method 1 }

/-- A point created for `field_group_11`, standing for `5`. -/
def point_of_11 : EC_POINT := { EC_POINT_new field_group_11 with X := 5, Z := 1, Z_is_one := 1 }

/-- A point created for `field_group_13`, standing for `7`. -/
def point_of_13 : EC_POINT := { EC_POINT_new field_group_13 with X := 7, Z := 1, Z_is_one := 1 }

/-! ## Instrumented signing and DER verification (`ecdsa.c`) -/

/-- What one call of `ecdsa_sign_sig` did: the number of calls of
`ECDSA_sign_setup`, the number of calls of `ecdsa_compute_s`, and how many of
the latter came back with `s = 0`. -/
structure SignTrace where
  setups : Nat
  computes : Nat
  zeros : Nat
  deriving DecidableEq, Repr

/-- The loop of `ecdsa_sign_sig` as in `ecdsa_sign_sig_loop`, counting in a
`SignTrace` the calls it makes. -/
def ecdsa_sign_sig_loop_traced (key : EC_KEY) (e : Int) (supplied : Option (Int × Int)) :
    Nat → Nat → Tape → SignTrace → (Except ErrorReason ECDSA_SIG × Tape) × SignTrace
  | 0, _, tape, tr => ((.error .EC_R_WRONG_CURVE_PARAMETERS, tape), tr)
  | fuel + 1, attempts, tape, tr =>
    let setup : (Except ErrorReason (Int × Int) × Tape) × SignTrace :=
      match supplied with
      | some kr => ((.ok kr, tape), tr)
      | none =>
        match ECDSA_sign_setup key tape with
        | (.error _, tape) => ((.error .ERR_R_ECDSA_LIB, tape), { tr with setups := tr.setups + 1 })
        | (.ok kr, tape) => ((.ok kr, tape), { tr with setups := tr.setups + 1 })
    match setup with
    | ((.error err, tape), tr) => ((.error err, tape), tr)
    | ((.ok (kinv, r), tape), tr) =>
      let tr : SignTrace := { tr with computes := tr.computes + 1 }
      match ecdsa_compute_s e kinv r key.toEC_KEY_DATA tape with
      | (.error err, tape) => ((.error err, tape), tr)
      | (.ok (some s), tape) => ((.ok { r := r, s := s }, tape), tr)
      | (.ok none, tape) =>
        let tr : SignTrace := { tr with zeros := tr.zeros + 1 }
        if supplied.isSome then ((.error .ECDSA_R_NEED_NEW_SETUP_VALUES, tape), tr)
        else if attempts + 1 > ECDSA_MAX_SIGN_ITERATIONS then
          ((.error .EC_R_WRONG_CURVE_PARAMETERS, tape), tr)
        else ecdsa_sign_sig_loop_traced key e supplied fuel (attempts + 1) tape tr

/-- `ecdsa_sign_sig` with the trace of the calls it made. -/
def ecdsa_sign_sig_traced (digest : List (Fin 256)) (in_kinv in_r : Option Int) (key : EC_KEY)
    (tape : Tape) : (Except ErrorReason ECDSA_SIG × Tape) × SignTrace :=
  match ecdsa_prepare_digest digest key.toEC_KEY_DATA with
  | none => ((.error .NO_REASON_PUSHED, tape), { setups := 0, computes := 0, zeros := 0 })
  | some e =>
    let supplied : Option (Int × Int) :=
      match in_kinv, in_r with
      | some kinv, some r => some (kinv, r)
      | _, _ => none
    ecdsa_sign_sig_loop_traced key e supplied (ECDSA_MAX_SIGN_ITERATIONS + 1) 0 tape
      { setups := 0, computes := 0, zeros := 0 }

/-- `ECDSA_do_verify`: the dispatch through the key's method. -/
def ECDSA_do_verify (digest : List (Fin 256)) (sig : Option ECDSA_SIG) (key : EC_KEY) : Int :=
  match key.meth.verify_sig with
  | none => 0
  | some verify_sig => verify_sig digest sig key.toEC_KEY_DATA

/-- Modelled from the spec: the byte-for-byte comparison `timingsafe_memcmp` of
the first `n` octets, zero exactly when they agree; `ecdsa_verify` only uses
whether it is zero. -/
def timingsafe_memcmp (b1 b2 : List (Fin 256)) (n : Nat) : Int :=
  if b1.take n = b2.take n then 0 else 1

/-- `ecdsa_verify`, returning next to the result the signature the check ran on
(`none` when `ECDSA_do_verify` was not called).  The ASN.1 codec is a parameter:
`d2i` is `d2i_ECDSA_SIG` on the whole input (`none` is the `NULL` result), `i2d`
is `i2d_ECDSA_SIG`, giving the length it returns and the octets it wrote. -/
def ecdsa_verify_traced (d2i : List (Fin 256) → Option ECDSA_SIG)
    (i2d : ECDSA_SIG → Int × List (Fin 256)) (digest sigbuf : List (Fin 256)) (key : EC_KEY) :
    Int × Option ECDSA_SIG :=
  let sig_len : Int := sigbuf.length
  match d2i sigbuf with
  | none => (-1, none)
  | some s =>
    let der_len := (i2d s).1
    let der := (i2d s).2
    if der_len ≠ sig_len then (-1, none)
    else if timingsafe_memcmp sigbuf der der_len.toNat ≠ 0 then (-1, none)
    else (ECDSA_do_verify digest (some s) key, some s)

/-- `ecdsa_verify`. -/
def ecdsa_verify (d2i : List (Fin 256) → Option ECDSA_SIG)
    (i2d : ECDSA_SIG → Int × List (Fin 256)) (digest sigbuf : List (Fin 256)) (key : EC_KEY) :
    Int :=
  (ecdsa_verify_traced d2i i2d digest sigbuf key).1

/-- A codec for signatures with `r, s < 256`, in the manner of DER: the octets
`[0x30, 2, r, s]` (tag, length, contents).  The decoder reads the length octet
and ignores what follows the contents. -/
def toy_d2i (buf : List (Fin 256)) : Option ECDSA_SIG :=
  match buf with
  | 0x30 :: 2 :: r :: s :: _ => some { r := r.val, s := s.val }
  | _ => none

/-- The encoder of the codec `toy_d2i` decodes. -/
def toy_i2d (sig : ECDSA_SIG) : Int × List (Fin 256) :=
  (4, [0x30, 2, Fin.ofNat sig.r.toNat, Fin.ofNat sig.s.toNat])

/-- A key on the group of the integers modulo 11 (an order of 4 bits): private
key `3`, default `sign_setup`, `ecdsa_verify_sig` as `verify_sig`. -/
def key11 : EC_KEY :=
  { group := some (zmod_group 1 11)
    pub_key := some (zmod_point 11 (zmod_generator 1) 3)
    priv_key := some 3
    meth := { sign_setup := some ecdsa_sign_setup
              verify_sig := some (fun digest sig key =>
                ecdsa_verify_sig digest sig
                  (some { toEC_KEY_DATA := key, meth := { sign_setup := none } })) } }

/-- A group over the field of size `2^89 - 1` with an order of 88 bits, before
its cofactor is set. -/
def group_88 : EC_GROUP :=
  { curve_p7 with field := 618970019642690137449562111, order := 206323339880896712483187370 }

/-- `EC_POINT_point2oct`: the `size_t` result and the octets written to the
buffer; `len` is `none` for a `NULL` buffer. -/
def EC_POINT_point2oct (group : EC_GROUP) (point : EC_POINT) (form : Int) (len : Option Nat) :
    Nat × List (Fin 256) :=
  match group.meth.point2oct with
  | none => (0, [])
  | some point2oct =>
    if group.meth.id ≠ point.meth then (0, [])
    else point2oct group.toEC_GROUP_DATA point form len

/-- `EC_POINT_oct2point`. -/
def EC_POINT_oct2point (group : EC_GROUP) (point : EC_POINT) (buf : List (Fin 256)) :
    Except ErrorReason EC_POINT :=
  match group.meth.oct2point with
  | none => .error .ERR_R_SHOULD_NOT_HAVE_BEEN_CALLED
  | some oct2point =>
    if group.meth.id ≠ point.meth then .error .EC_R_INCOMPATIBLE_OBJECTS
    else oct2point group.toEC_GROUP_DATA point buf

/-- Modelled from the spec: the number of octets of a field element,
`⌈log₂ p / 8⌉`, the bit length of `p` rounded up to whole octets. -/
def spec_field_len (p : Int) : Nat := (BN_num_bits p + 7) / 8

/-- Modelled from the spec: the big-endian octets of `x`, padded to `len`
octets. -/
def spec_bn2binpad (x : Nat) : Nat → List (Fin 256)
  | 0 => []
  | len + 1 => spec_bn2binpad (x / 256) len ++ [⟨x % 256, Nat.mod_lt _ (by decide)⟩]

/-- Modelled from the spec: `is_on_curve` for affine coordinates, whether
`y² = x³ + a x + b` holds modulo `p`. -/
def spec_on_curve (g : EC_GROUP_DATA) (x y : Int) : Bool :=
  decide ((y * y - (x * x * x + g.a * x + g.b)) % g.field = 0)

/-- Modelled from the spec: `get_affine`, which fails for the identity and gives
`(X / Z², Y / Z³)` modulo `p` otherwise. -/
def spec_get_affine (g : EC_GROUP_DATA) (P : EC_POINT) : Except ErrorReason (Int × Int) :=
  if P.Z = 0 then .error .EC_R_POINT_AT_INFINITY
  else
    match BN_mod_inverse_ct P.Z g.field with
    | none => .error .ERR_R_BN_LIB
    | some zi => .ok (P.X * (zi * zi) % g.field, P.Y * (zi * zi * zi) % g.field)

/-- Modelled from the spec: `set_affine`, which stores `(x, y, 1)` and rejects a
pair that is not on the curve. -/
def spec_set_affine (g : EC_GROUP_DATA) (P : EC_POINT) (x y : Int) :
    Except ErrorReason EC_POINT :=
  if spec_on_curve g x y then .ok { P with X := x, Y := y, Z := 1, Z_is_one := 1 }
  else .error .METHOD_FAILURE

/-- Modelled from the spec: `set_compressed`, which recovers `y` as the square
root of `x³ + a x + b` modulo `p` whose least significant bit is `y_bit`, and
fails if there is none. -/
def spec_set_compressed (g : EC_GROUP_DATA) (P : EC_POINT) (x : Int) (y_bit : Nat) :
    Except ErrorReason EC_POINT :=
  match (List.range g.field.toNat).find?
      (fun y : Nat => spec_on_curve g x (y : Int) && decide (y % 2 = y_bit)) with
  | none => .error .METHOD_FAILURE
  | some y => .ok { P with X := x, Y := (y : Int), Z := 1, Z_is_one := 1 }

/-- Modelled from the spec: the encoder.  The caller selects one of the forms
compressed (2), uncompressed (4) and hybrid (6), any other requested form fails;
the identity encodes to the single octet `0x00`; another point encodes to the
lead octet (the form, plus the least significant bit of `y` for the compressed
and hybrid forms) followed by `x`, and by `y` unless compressed, each padded to
the length of a field element.  With a `NULL` buffer only the length is
returned; a buffer that is too short fails. -/
def spec_point2oct (g : EC_GROUP_DATA) (P : EC_POINT) (form : Int) (len : Option Nat) :
    Nat × List (Fin 256) :=
  if form ≠ 2 ∧ form ≠ 4 ∧ form ≠ 6 then (0, [])
  else if P.Z = 0 then
    match len with
    | none => (1, [])
    | some len => if len < 1 then (0, []) else (1, [0])
  else
    let field_len := spec_field_len g.field
    let ret := if form = 2 then 1 + field_len else 1 + 2 * field_len
    match len with
    | none => (ret, [])
    | some len =>
      if len < ret then (0, [])
      else
        match spec_get_affine g P with
        | .error _ => (0, [])
        | .ok (x, y) =>
          let y_bit : Nat := if form = 4 then 0 else (y % 2).toNat
          let lead : Fin 256 := ⟨(form.toNat + y_bit) % 256, Nat.mod_lt _ (by decide)⟩
          if form = 2 then (ret, lead :: spec_bn2binpad x.toNat field_len)
          else
            (ret, lead :: (spec_bn2binpad x.toNat field_len ++
              spec_bn2binpad y.toNat field_len))

/-- Modelled from the spec: the decoder.  The lead octet `0x00` with length 1 is
the identity; `0x02` and `0x03` are compressed (`x` only, the `y` bit is the
low bit of the lead octet); `0x04` is uncompressed and `0x06`, `0x07` hybrid
(`x` and `y`, for hybrid the low bit of the lead octet must be the least
significant bit of `y`); the length must match the form exactly; any other lead
octet fails; a decoded point is on the curve. -/
def spec_oct2point (g : EC_GROUP_DATA) (P : EC_POINT) (buf : List (Fin 256)) :
    Except ErrorReason EC_POINT :=
  match buf with
  | [] => .error .METHOD_FAILURE
  | lead :: rest =>
    let field_len := spec_field_len g.field
    if lead.val = 0 then
      if rest.length = 0 then .ok { P with Z := 0, Z_is_one := 0 } else .error .METHOD_FAILURE
    else if lead.val = 2 ∨ lead.val = 3 then
      if rest.length ≠ field_len then .error .METHOD_FAILURE
      else spec_set_compressed g P (BN_bin2bn rest) (lead.val % 2)
    else if lead.val = 4 ∨ lead.val = 6 ∨ lead.val = 7 then
      if rest.length ≠ 2 * field_len then .error .METHOD_FAILURE
      else
        let x := BN_bin2bn (rest.take field_len)
        let y := BN_bin2bn (rest.drop field_len)
        if lead.val ≠ 4 ∧ (y % 2).toNat ≠ lead.val % 2 then .error .METHOD_FAILURE
        else spec_set_affine g P x y
    else .error .METHOD_FAILURE

/-- The prime-field method as far as point conversion goes: the modelled
encoder, decoder and affine getter; every other slot is `NULL`. -/
def spec_oct_method (id : Nat) : EC_METHOD :=
  { bare_method id with
    point_get_affine_coordinates := some spec_get_affine
    point2oct := some spec_point2oct
    oct2point := some spec_oct2point }

/-- The curve `y² = x³ + x + 6` over `GF(7)` (`curve_p7`) with the point
conversion method. -/
def curve_p7_oct : EC_GROUP := { curve_p7 with meth := spec_oct_method 1 }

/-! ## Theorems -/

/-! ### Bit lengths -/

theorem num_bits_aux_le_iff (fuel : Nat) : ∀ (n k : Nat), n ≤ fuel →
    (num_bits_aux fuel n ≤ k ↔ n < 2 ^ k) := by
  induction fuel with
  | zero =>
    intro n k h
    have : n = 0 := by omega
    subst this
    simp [num_bits_aux]
  | succ f ih =>
    intro n k h
    unfold num_bits_aux
    by_cases hn : n = 0
    · subst hn; simp
    · simp only [hn, if_false]
      cases k with
      | zero =>
        simp only [pow_zero, Nat.lt_one_iff]
        constructor
        · intro h'; omega
        · intro h'; exact absurd h' hn
      | succ k =>
        have h2 : n / 2 ≤ f := by omega
        rw [Nat.add_le_add_iff_right, ih (n / 2) k h2, pow_succ]
        omega

theorem BN_num_bits_le_iff (a : Int) (k : Nat) : BN_num_bits a ≤ k ↔ a.natAbs < 2 ^ k :=
  num_bits_aux_le_iff a.natAbs a.natAbs k (le_refl _)

theorem BN_num_bits_lt_iff (a : Int) (k : Nat) : k < BN_num_bits a ↔ 2 ^ k ≤ a.natAbs := by
  rw [← not_le, BN_num_bits_le_iff, not_lt]

theorem lt_two_pow_BN_num_bits (a : Int) : a.natAbs < 2 ^ BN_num_bits a :=
  (BN_num_bits_le_iff a _).1 (le_refl _)

theorem BN_num_bits_zero : BN_num_bits 0 = 0 := by
  simp [BN_num_bits, num_bits_aux]

/-! ### The cofactor and the generator (`ec_set_cofactor`, `EC_GROUP_set_generator`) -/

theorem ec_set_cofactor_done_ok (group g' : EC_GROUP) (c : Int)
    (h : ec_set_cofactor_done group c = (.ok (), g')) :
    g' = { group with cofactor := c } ∧ BN_num_bits c ≤ BN_num_bits group.field + 1 := by
  unfold ec_set_cofactor_done at h
  split at h
  · simp at h
  · rename_i hb
    simp only [Prod.mk.injEq, true_and] at h
    exact ⟨h.symm, by omega⟩

theorem BN_rshift1_of_pos (n : Int) (hn : 0 < n) : BN_rshift1 n = n / 2 := by
  unfold BN_rshift1
  rw [Int.sign_eq_one_of_pos hn, one_mul]
  omega

/-- The value `ec_set_cofactor` computes when it infers the cofactor. -/
theorem inferred_cofactor_eq (p n : Int) (hp : 0 ≤ p) (hn : 0 < n) :
    BN_div_ct (BN_add (BN_add_word (BN_rshift1 n) 1) p) n = some ((p + 1 + n / 2) / n) := by
  unfold BN_div_ct BN_add BN_add_word
  rw [BN_rshift1_of_pos n hn, if_neg (by omega)]
  have h0 : (0 : Int) ≤ n / 2 + ((1 : Nat) : Int) + p := by
    have : 0 ≤ n / 2 := Int.ediv_nonneg (by omega) (by norm_num)
    push_cast; omega
  rw [Int.tdiv_eq_ediv h0 (by omega)]
  congr 2
  push_cast; ring

theorem inferred_cofactor_nonneg (p n : Int) (hp : 0 ≤ p) (hn : 0 < n) :
    0 ≤ (p + 1 + n / 2) / n := by
  have : 0 ≤ n / 2 := Int.ediv_nonneg (by omega) (by norm_num)
  exact Int.ediv_nonneg (by omega) (by omega)

/-- In the inferring branch the Hasse bound on the computed value always holds. -/
theorem inferred_cofactor_bits (p n : Int) (hp : 1 ≤ p) (hn : 1 < n)
    (hb : BN_num_bits n ≤ BN_num_bits p + 1) :
    BN_num_bits ((p + 1 + n / 2) / n) ≤ BN_num_bits p + 1 := by
  rw [BN_num_bits_le_iff]
  have h1 := lt_two_pow_BN_num_bits p
  have h2 := (BN_num_bits_le_iff n _).1 hb
  have hh := inferred_cofactor_nonneg p n (by omega) (by omega)
  set h := (p + 1 + n / 2) / n with hdef
  have h3 : h * n ≤ p + 1 + n / 2 := Int.ediv_mul_le _ (by omega)
  have h4 : 2 * h ≤ h * n := by nlinarith
  rw [pow_succ] at h2 ⊢
  zify at h1 h2 ⊢
  rw [abs_of_nonneg (by omega : (0 : Int) ≤ p)] at h1
  rw [abs_of_nonneg (by omega : (0 : Int) ≤ n)] at h2
  rw [abs_of_nonneg hh]
  omega

/-- The cofactor `ec_set_cofactor` stores when none is supplied. -/
theorem ec_set_cofactor_infer (group : EC_GROUP) (c : Option Int)
    (hc : c = none ∨ c = some 0) (hp : 1 ≤ group.field) (hn : 1 < group.order)
    (hb : BN_num_bits group.order ≤ BN_num_bits group.field + 1) :
    ec_set_cofactor group c =
      (.ok (), { group with cofactor := spec_inferred_cofactor group.field group.order }) := by
  have key : (if BN_num_bits group.order ≤ (BN_num_bits group.field + 1) / 2 + 3 then
        ec_set_cofactor_done { group with cofactor := 0 } 0
      else
        match BN_div_ct (BN_add (BN_add_word (BN_rshift1 group.order) 1) group.field)
          group.order with
        | none => (.error .ERR_R_BN_LIB, { group with cofactor := 0 })
        | some cofactor => ec_set_cofactor_done { group with cofactor := 0 } cofactor) =
      (.ok (), { group with cofactor := spec_inferred_cofactor group.field group.order }) := by
    unfold spec_inferred_cofactor
    by_cases hs : BN_num_bits group.order ≤ (BN_num_bits group.field + 1) / 2 + 3
    · simp only [hs, if_true]
      unfold ec_set_cofactor_done
      simp [BN_num_bits_zero]
    · simp only [hs, if_false]
      rw [inferred_cofactor_eq group.field group.order (by omega) (by omega)]
      simp only
      unfold ec_set_cofactor_done
      have := inferred_cofactor_bits group.field group.order hp hn hb
      rw [if_neg (by simpa using this)]
  unfold ec_set_cofactor
  rcases hc with hc | hc
  · subst hc
    exact key
  · subst hc
    simp only [BN_is_zero, decide_True, not_true_eq_false, if_false]
    exact key

/-- The outcome of `ec_set_cofactor` on a supplied non-zero cofactor. -/
theorem ec_set_cofactor_supplied (group : EC_GROUP) (h : Int) (hh : h ≠ 0) :
    ec_set_cofactor group (some h) =
      if h < 0 then (.error .EC_R_UNKNOWN_COFACTOR, { group with cofactor := 0 })
      else if BN_num_bits h > BN_num_bits group.field + 1 then
        (.error .EC_R_INVALID_GROUP_ORDER, { group with cofactor := 0 })
      else (.ok (), { group with cofactor := h }) := by
  unfold ec_set_cofactor
  simp only [BN_is_zero, hh, decide_False, Bool.false_eq_true, not_false_eq_true, if_true,
    BN_is_negative, decide_eq_true_eq]
  by_cases hneg : h < 0
  · simp [hneg]
  · simp only [hneg, if_false]
    unfold ec_set_cofactor_done
    by_cases hb : BN_num_bits h > BN_num_bits group.field + 1
    · simp [hb]
    · simp [hb]

/-- Past its argument checks `EC_GROUP_set_generator` stores the generator and
the order and hands over to `ec_set_cofactor`. -/
theorem EC_GROUP_set_generator_valid (group : EC_GROUP) (G : EC_POINT) (n : Int)
    (c : Option Int) (hG : G.meth = generator_slot_meth group) (hp : 1 ≤ group.field)
    (hn : 1 < n) (hb : BN_num_bits n ≤ BN_num_bits group.field + 1) :
    EC_GROUP_set_generator group (some G) (some n) c =
      ec_set_cofactor { group with generator := some G, order := n } c := by
  unfold EC_GROUP_set_generator
  have h1 : ¬ (BN_is_zero group.field = true ∨ BN_is_negative group.field = true) := by
    simp only [BN_is_zero, BN_is_negative, decide_eq_true_eq]; omega
  have h2 : ¬ (BN_cmp n BN_value_one ≤ 0 ∨ BN_num_bits n > BN_num_bits group.field + 1) := by
    unfold BN_cmp BN_value_one
    rw [if_neg (by omega), if_neg (by omega)]
    omega
  simp only [h1, h2, if_false]
  unfold generator_slot_meth at hG
  cases hg : group.generator with
  | none =>
    rw [hg] at hG
    simp only at hG
    have e : (EC_POINT.mk (group.meth.id) G.X G.Y G.Z G.Z_is_one) = G := by
      cases G; simp_all
    simp only [EC_POINT_copy, EC_POINT_new, hG, ne_eq, not_true_eq_false, if_false, e]
  | some d =>
    rw [hg] at hG
    simp only at hG
    have e : (EC_POINT.mk d.meth G.X G.Y G.Z G.Z_is_one) = G := by
      cases G; simp_all
    simp only [hg, EC_POINT_copy, hG, ne_eq, not_true_eq_false, if_false, e]

theorem EC_GROUP_set_generator_incompatible (group : EC_GROUP) (G : EC_POINT)
    (order c : Option Int) (hG : G.meth ≠ generator_slot_meth group) :
    ∃ e g', EC_GROUP_set_generator group (some G) order c = (.error e, g') := by
  unfold EC_GROUP_set_generator
  simp only
  split
  · exact ⟨_, _, rfl⟩
  · cases order with
    | none => exact ⟨_, _, rfl⟩
    | some n =>
      simp only
      split
      · exact ⟨_, _, rfl⟩
      · unfold generator_slot_meth at hG
        cases hg : group.generator with
        | none =>
          rw [hg] at hG
          simp only at hG
          have : ¬ (EC_POINT_new group).meth = G.meth := fun h => hG h.symm
          simp only [EC_POINT_copy, ne_eq, this, not_false_eq_true, if_true]
          exact ⟨_, _, rfl⟩
        | some d =>
          rw [hg] at hG
          simp only at hG
          have : ¬ d.meth = G.meth := fun h => hG h.symm
          simp only [hg, EC_POINT_copy, ne_eq, this, not_false_eq_true, if_true]
          exact ⟨_, _, rfl⟩

/-- Squares of orders above the bit-length threshold exceed `16 p`. -/
theorem sq_gt_of_num_bits_gt (p n : Int) (hp : 0 ≤ p) (hn : 0 ≤ n)
    (hs : (BN_num_bits p + 1) / 2 + 3 < BN_num_bits n) : 16 * p < n ^ 2 := by
  have h1 := lt_two_pow_BN_num_bits p
  have h2 := (BN_num_bits_lt_iff n _).1 hs
  zify at h1 h2
  rw [abs_of_nonneg hp] at h1
  rw [abs_of_nonneg hn] at h2
  have h3 : (2 : Int) ^ BN_num_bits p * 64 ≤ (2 ^ ((BN_num_bits p + 1) / 2 + 3)) ^ 2 := by
    rw [← pow_mul]
    have : (64 : Int) = 2 ^ 6 := by norm_num
    rw [this, ← pow_add]
    exact pow_le_pow_right₀ (by norm_num) (by omega)
  have h4 : (2 ^ ((BN_num_bits p + 1) / 2 + 3) : Int) ^ 2 ≤ n ^ 2 :=
    pow_le_pow_left₀ (by positivity) h2 2
  nlinarith

/-- Above `4 sqrt p` the Hasse interval holds one multiple of `n`, the rounded
quotient. -/
theorem hasse_unique (p n h : Int) (hn : 0 < n) (hs : 16 * p < n ^ 2)
    (hh : (h * n - (p + 1)) ^ 2 ≤ 4 * p) : h = (p + 1 + n / 2) / n := by
  have hd : (2 * (h * n - (p + 1))) ^ 2 < n ^ 2 := by nlinarith
  have habs := abs_lt_of_sq_lt_sq hd (le_of_lt hn)
  rw [abs_lt] at habs
  obtain ⟨hlo, hhi⟩ := habs
  generalize hX : h * n = X at hlo hhi
  apply le_antisymm
  · rw [Int.le_ediv_iff_mul_le hn, hX]
    omega
  · have : (p + 1 + n / 2) / n < h + 1 := by
      rw [Int.ediv_lt_iff_lt_mul hn, add_mul, hX]
      omega
    omega

/-- C8 fails as stated: on the curve over `GF(7)` the positive cofactor 32 is
supplied with the valid order 11 and the call is rejected, because 32 has more
than `bits 7 + 1 = 4` bits. -/
theorem EC_GROUP_set_generator_positive_cofactor_rejected :
    (0 : Int) < 32 ∧ 1 ≤ curve_p7.field ∧ (1 : Int) < 11 ∧
      BN_num_bits 11 ≤ BN_num_bits curve_p7.field + 1 ∧
      (EC_GROUP_set_generator curve_p7 (some point_p7) (some 11) (some 32)).1 =
        .error .EC_R_INVALID_GROUP_ORDER :=
  ⟨by decide, by decide, by decide, by decide, rfl⟩

/-- C8, amended. For a group with a valid field, a valid order `n` and a
compatible generator, when a non-zero cofactor `h` is supplied: if `h` is positive
and `bits h ≤ bits p + 1` the call is accepted and the stored cofactor equals `h`;
if `h` is positive with more bits the call is rejected with `INVALID_GROUP_ORDER`;
if `h` is negative the call is rejected with `UNKNOWN_COFACTOR`. -/
theorem EC_GROUP_set_generator_supplied_cofactor (group : EC_GROUP) (G : EC_POINT)
    (n h : Int) (hG : G.meth = generator_slot_meth group) (hp : 1 ≤ group.field)
    (hn : 1 < n) (hb : BN_num_bits n ≤ BN_num_bits group.field + 1) (hh : h ≠ 0) :
    (0 < h → BN_num_bits h ≤ BN_num_bits group.field + 1 →
      ∃ g', EC_GROUP_set_generator group (some G) (some n) (some h) = (.ok (), g') ∧
        g'.cofactor = h) ∧
    (0 < h → BN_num_bits group.field + 1 < BN_num_bits h →
      (EC_GROUP_set_generator group (some G) (some n) (some h)).1 =
        .error .EC_R_INVALID_GROUP_ORDER) ∧
    (h < 0 →
      (EC_GROUP_set_generator group (some G) (some n) (some h)).1 =
        .error .EC_R_UNKNOWN_COFACTOR) := by
  rw [EC_GROUP_set_generator_valid group G n (some h) hG hp hn hb,
    ec_set_cofactor_supplied _ h hh]
  refine ⟨?_, ?_, ?_⟩
  · intro hpos hbits
    have h2 : ¬ BN_num_bits h > BN_num_bits group.field + 1 := by omega
    rw [if_neg (by omega), if_neg h2]
    exact ⟨_, rfl, rfl⟩
  · intro hpos hbits
    have h2 : BN_num_bits h > BN_num_bits group.field + 1 := by omega
    rw [if_neg (by omega), if_pos h2]
  · intro hneg
    rw [if_pos hneg]

/-- C8, amended, on the curve over `GF(7)`: the cofactor 1 is accepted and
stored, the cofactor 32 and the cofactor -1 are rejected. -/
theorem EC_GROUP_set_generator_supplied_cofactor_witness :
    (∃ g', EC_GROUP_set_generator curve_p7 (some point_p7) (some 11) (some 1) = (.ok (), g') ∧
      g'.cofactor = 1) ∧
    (EC_GROUP_set_generator curve_p7 (some point_p7) (some 11) (some 32)).1 =
      .error .EC_R_INVALID_GROUP_ORDER ∧
    (EC_GROUP_set_generator curve_p7 (some point_p7) (some 11) (some (-1))).1 =
      .error .EC_R_UNKNOWN_COFACTOR :=
  ⟨(EC_GROUP_set_generator_supplied_cofactor curve_p7 point_p7 11 1 rfl (by decide) (by decide)
      (by decide) (by decide)).1 (by decide) (by decide),
    (EC_GROUP_set_generator_supplied_cofactor curve_p7 point_p7 11 32 rfl (by decide)
      (by decide) (by decide) (by decide)).2.1 (by decide) (by decide),
    (EC_GROUP_set_generator_supplied_cofactor curve_p7 point_p7 11 (-1) rfl (by decide)
      (by decide) (by decide) (by decide)).2.2 (by decide)⟩

/-- C9. When `EC_GROUP_set_generator` is called with a valid field `p` and order
`n` and the cofactor argument is null or zero, the stored cofactor is `0` if
`bits n ≤ (bits p + 1) / 2 + 3` and otherwise exactly `(p + 1 + n / 2) / n`
(`spec_inferred_cofactor`): every successful call stores that value, and the
call is successful for every generator compatible with the group. -/
theorem EC_GROUP_set_generator_inferred_cofactor (group : EC_GROUP)
    (generator : Option EC_POINT) (n : Int) (c : Option Int) (hp : 1 ≤ group.field)
    (hn : 1 < n) (hb : BN_num_bits n ≤ BN_num_bits group.field + 1)
    (hc : c = none ∨ c = some 0) :
    (∀ g', EC_GROUP_set_generator group generator (some n) c = (.ok (), g') →
      g'.cofactor = spec_inferred_cofactor group.field n) ∧
    (∀ G, generator = some G → G.meth = generator_slot_meth group →
      ∃ g', EC_GROUP_set_generator group generator (some n) c = (.ok (), g') ∧
        g'.cofactor = spec_inferred_cofactor group.field n) := by
  have hi : ∀ G : EC_POINT, ec_set_cofactor { group with generator := some G, order := n } c =
      (.ok (), { group with generator := some G, order := n,
                            cofactor := spec_inferred_cofactor group.field n }) :=
    fun G => ec_set_cofactor_infer { group with generator := some G, order := n } c hc hp hn hb
  refine ⟨?_, ?_⟩
  · intro g' hok
    cases generator with
    | none => simp [EC_GROUP_set_generator] at hok
    | some G =>
      by_cases hG : G.meth = generator_slot_meth group
      · rw [EC_GROUP_set_generator_valid group G n c hG hp hn hb, hi G] at hok
        simp only [Prod.mk.injEq, true_and] at hok
        rw [← hok]
      · obtain ⟨e, g'', he⟩ := EC_GROUP_set_generator_incompatible group G (some n) c hG
        rw [he] at hok
        simp at hok
  · intro G hgen hG
    subst hgen
    rw [EC_GROUP_set_generator_valid group G n c hG hp hn hb, hi G]
    exact ⟨_, rfl, rfl⟩

/-- C9 on concrete curves: over `GF(7)` with order 11 the stored cofactor is 0
(short order); over the field of size `2^89 - 1` with an order of 88 bits the
stored cofactor is the rounded quotient 3. -/
theorem EC_GROUP_set_generator_inferred_cofactor_witness :
    (∃ g', EC_GROUP_set_generator curve_p7 (some point_p7) (some 11) none = (.ok (), g') ∧
      g'.cofactor = spec_inferred_cofactor 7 11) ∧ spec_inferred_cofactor 7 11 = 0 ∧
    (∃ g', EC_GROUP_set_generator { curve_p7 with field := 618970019642690137449562111 }
        (some point_p7) (some 206323339880896712483187370) (some 0) = (.ok (), g') ∧
      g'.cofactor = spec_inferred_cofactor 618970019642690137449562111
        206323339880896712483187370) ∧
    spec_inferred_cofactor 618970019642690137449562111 206323339880896712483187370 = 3 :=
  ⟨(EC_GROUP_set_generator_inferred_cofactor curve_p7 (some point_p7) 11 none (by decide)
      (by decide) (by decide) (Or.inl rfl)).2 point_p7 rfl rfl,
    by decide,
    (EC_GROUP_set_generator_inferred_cofactor
      { curve_p7 with field := 618970019642690137449562111 } (some point_p7)
      206323339880896712483187370 (some 0) (by decide) (by decide) (by decide)
      (Or.inr rfl)).2 point_p7 rfl rfl,
    by decide⟩

/-- C5. `EC_POINT_mul` dispatches on which arguments are null.  With the three
multiplier slots of the method table present: only `g_scalar` given enters the
constant-time generator multiplication; `point` and `p_scalar` given with
`g_scalar` null enters the constant-time single-point multiplication; all three
given enters the non-constant-time double multiplication (the result is the
multiplier's).  For every other combination of null and non-null arguments the
call fails and no multiplier is called. -/
theorem EC_POINT_mul_dispatch (group : EC_GROUP) (r : EC_POINT)
    (f1 : EC_GROUP_DATA → EC_POINT → Int → Except ErrorReason EC_POINT)
    (f2 : EC_GROUP_DATA → EC_POINT → Int → EC_POINT → Except ErrorReason EC_POINT)
    (f3 : EC_GROUP_DATA → EC_POINT → Int → Int → EC_POINT → Except ErrorReason EC_POINT)
    (h1 : group.meth.mul_generator_ct = some f1) (h2 : group.meth.mul_single_ct = some f2)
    (h3 : group.meth.mul_double_nonct = some f3) :
    (∀ g, EC_POINT_mul_traced group r (some g) none none =
      (f1 group.toEC_GROUP_DATA r g, some (.mul_generator_ct g))) ∧
    (∀ p pt, EC_POINT_mul_traced group r none (some pt) (some p) =
      (f2 group.toEC_GROUP_DATA r p pt, some (.mul_single_ct p pt))) ∧
    (∀ g p pt, EC_POINT_mul_traced group r (some g) (some pt) (some p) =
      (f3 group.toEC_GROUP_DATA r g p pt, some (.mul_double_nonct g p pt))) ∧
    (∀ g_scalar point p_scalar,
      ¬ (g_scalar ≠ none ∧ point = none ∧ p_scalar = none) →
      ¬ (g_scalar = none ∧ point ≠ none ∧ p_scalar ≠ none) →
      ¬ (g_scalar ≠ none ∧ point ≠ none ∧ p_scalar ≠ none) →
      EC_POINT_mul_traced group r g_scalar point p_scalar = (.error .ERR_R_EC_LIB, none)) := by
  unfold EC_POINT_mul_traced
  rw [h1, h2, h3]
  refine ⟨fun _ => rfl, fun _ _ => rfl, fun _ _ _ => rfl, ?_⟩
  intro g_scalar point p_scalar n1 n2 n3
  cases g_scalar <;> cases point <;> cases p_scalar <;> simp_all

/-- C5 on a concrete method table: the three accepted combinations reach their
multiplier, and `p_scalar` alone is an error that reaches none. -/
theorem EC_POINT_mul_dispatch_witness :
    (∀ g, EC_POINT_mul_traced { curve_p7 with meth := mul_only_method 1 } point_p7 (some g)
      none none = (.ok point_p7, some (.mul_generator_ct g))) ∧
    (∀ p pt, EC_POINT_mul_traced { curve_p7 with meth := mul_only_method 1 } point_p7 none
      (some pt) (some p) = (.ok point_p7, some (.mul_single_ct p pt))) ∧
    (∀ g p pt, EC_POINT_mul_traced { curve_p7 with meth := mul_only_method 1 } point_p7
      (some g) (some pt) (some p) = (.ok point_p7, some (.mul_double_nonct g p pt))) ∧
    EC_POINT_mul_traced { curve_p7 with meth := mul_only_method 1 } point_p7 none none
      (some 5) = (.error .ERR_R_EC_LIB, none) :=
  have h := EC_POINT_mul_dispatch { curve_p7 with meth := mul_only_method 1 } point_p7
    _ _ _ rfl rfl rfl
  ⟨h.1, h.2.1, h.2.2.1, h.2.2.2 none none (some 5) (by simp) (by simp) (by simp)⟩

/-! ### The wNAF digits (`ec_compute_wNAF`) -/

theorem BN_is_bit_set_eq (bn : Int) (j : Nat) :
    BN_is_bit_set bn j = bn.natAbs / 2 ^ j % 2 := by
  unfold BN_is_bit_set
  rw [Nat.testBit_to_div_mod]
  by_cases h : bn.natAbs / 2 ^ j % 2 = 1
  · simp [h]
  · have : bn.natAbs / 2 ^ j % 2 = 0 := by omega
    simp [this]

theorem wNAF_window_init_eq (bn : Int) (wbits : Nat) :
    wNAF_window_init bn wbits = bn.natAbs % 2 ^ (wbits + 1) := by
  unfold wNAF_window_init
  generalize wbits + 1 = k
  induction k with
  | zero => simp [Nat.mod_one]
  | succ k ih =>
    rw [List.range_succ, List.foldl_append, ih]
    simp only [List.foldl_cons, List.foldl_nil]
    rw [BN_is_bit_set_eq, Nat.mod_pow_succ, Nat.one_shiftLeft]
    have hlt : bn.natAbs % 2 ^ k < 2 ^ k := Nat.mod_lt _ (by positivity)
    by_cases h : bn.natAbs / 2 ^ k % 2 = 0
    · simp [h]
    · have h1 : bn.natAbs / 2 ^ k % 2 = 1 := by omega
      rw [h1, if_pos (by simp), Nat.or_comm]
      have := Nat.mul_add_lt_is_or hlt 1
      rw [mul_one] at this
      rw [← this]
      ring

theorem and_two_pow_ne_zero_iff (w window : Nat) (h : window < 2 ^ (w + 1)) :
    window &&& 2 ^ w ≠ 0 ↔ 2 ^ w ≤ window := by
  rw [Nat.and_two_pow, Nat.testBit_to_div_mod]
  have hpos : 0 < 2 ^ w := by positivity
  have hlt : window / 2 ^ w < 2 := by
    rw [Nat.div_lt_iff_lt_mul hpos]
    rw [pow_succ] at h
    omega
  constructor
  · intro hne
    by_contra hcon
    have : window / 2 ^ w = 0 := Nat.div_eq_of_lt (by omega)
    simp [this] at hne
  · intro hle
    have : 1 ≤ window / 2 ^ w := by
      rw [Nat.le_div_iff_mul_le hpos]
      omega
    have h1 : window / 2 ^ w % 2 = 1 := by omega
    simp [h1]

/-- The three cases of the digit choice. -/
theorem wNAF_digit_cases (w window : Nat) (h : window ≤ 2 ^ (w + 1)) :
    (window % 2 = 0 ∧ wNAF_digit window (2 ^ w) (2 ^ (w + 1)) = 0) ∨
    (window % 2 = 1 ∧ window < 2 ^ w ∧
      wNAF_digit window (2 ^ w) (2 ^ (w + 1)) = (window : Int)) ∨
    (window % 2 = 1 ∧ 2 ^ w ≤ window ∧ window < 2 ^ (w + 1) ∧
      wNAF_digit window (2 ^ w) (2 ^ (w + 1)) = (window : Int) - ((2 ^ (w + 1) : Nat) : Int)) := by
  unfold wNAF_digit
  rw [Nat.and_one_is_mod]
  by_cases hodd : window % 2 = 0
  · left
    simp [hodd]
  · right
    have h1 : window % 2 = 1 := by omega
    have hlt : window < 2 ^ (w + 1) := by
      rcases Nat.lt_or_ge window (2 ^ (w + 1)) with h2 | h2
      · exact h2
      · have : window = 2 ^ (w + 1) := by omega
        rw [this, pow_succ] at h1
        omega
    rw [if_pos (by omega)]
    by_cases hb : 2 ^ w ≤ window
    · right
      rw [if_pos ((and_two_pow_ne_zero_iff w window hlt).2 hb)]
      exact ⟨h1, hb, hlt, rfl⟩
    · left
      rw [if_neg (fun hne => hb ((and_two_pow_ne_zero_iff w window hlt).1 hne))]
      exact ⟨h1, by omega, rfl⟩

theorem pow_carry_bound (w c x a : Nat) (hx : 2 ^ w < x) (h : x + 2 ^ (w + 1) * a ≤ 2 ^ c) :
    2 ^ (w + 1) * (a + 1) ≤ 2 ^ c := by
  have hc : w + 1 ≤ c := by
    by_contra hcon
    have : 2 ^ c ≤ 2 ^ w := Nat.pow_le_pow_right (by norm_num) (by omega)
    have : 0 ≤ 2 ^ (w + 1) * a := Nat.zero_le _
    omega
  obtain ⟨k, rfl⟩ := Nat.exists_eq_add_of_le hc
  have e : 2 ^ (w + 1 + k) = 2 ^ (w + 1) * 2 ^ k := pow_add 2 (w + 1) k
  rw [e] at h ⊢
  have hx0 : 0 < x := Nat.zero_lt_of_lt hx
  have hlt : 2 ^ (w + 1) * a < 2 ^ (w + 1) * 2 ^ k := by omega
  have : a < 2 ^ k := Nat.lt_of_mul_lt_mul_left hlt
  exact Nat.mul_le_mul_left _ (by omega)

/-- One round of the digit loop: the window stays within `next`, the digit is
zero or odd and below `bit`, the represented remainder is split as
`digit + 2 * remainder'`, and the bound on the remainder is passed on. -/
theorem wNAF_step (bn : Int) (w i window : Nat) (hw : 1 ≤ w) (hwin : window ≤ 2 ^ (w + 1)) :
    wNAF_slide bn w (2 ^ w) i window (wNAF_digit window (2 ^ w) (2 ^ (w + 1))) ≤ 2 ^ (w + 1) ∧
    (wNAF_digit window (2 ^ w) (2 ^ (w + 1)) = 0 ∨
      ((wNAF_digit window (2 ^ w) (2 ^ (w + 1))).natAbs % 2 = 1 ∧
        (wNAF_digit window (2 ^ w) (2 ^ (w + 1))).natAbs < 2 ^ w)) ∧
    wNAF_digit window (2 ^ w) (2 ^ (w + 1)) +
        2 * ((wNAF_slide bn w (2 ^ w) i window (wNAF_digit window (2 ^ w) (2 ^ (w + 1))) +
          2 ^ (w + 1) * (bn.natAbs / 2 ^ (i + 1 + w + 1)) : Nat) : Int) =
      ((window + 2 ^ (w + 1) * (bn.natAbs / 2 ^ (i + w + 1)) : Nat) : Int) ∧
    ∀ c, window + 2 ^ (w + 1) * (bn.natAbs / 2 ^ (i + w + 1)) ≤ 2 ^ c →
      2 * (wNAF_slide bn w (2 ^ w) i window (wNAF_digit window (2 ^ w) (2 ^ (w + 1))) +
        2 ^ (w + 1) * (bn.natAbs / 2 ^ (i + 1 + w + 1))) ≤ 2 ^ c := by
  have hB : 2 ^ (w + 1) = 2 * 2 ^ w := by rw [pow_succ]; ring
  have hBeven : 2 ^ w % 2 = 0 := by
    obtain ⟨v, rfl⟩ := Nat.exists_eq_add_of_le hw
    rw [show 1 + v = v + 1 by omega, pow_succ]
    omega
  have hH' : bn.natAbs / 2 ^ (i + 1 + w + 1) = bn.natAbs / 2 ^ (i + w + 1) / 2 := by
    rw [Nat.div_div_eq_div_mul, show i + 1 + w + 1 = (i + w + 1) + 1 by omega, pow_succ]
  have hcarry : ∀ c, 2 ^ w < window →
      window + 2 ^ (w + 1) * (bn.natAbs / 2 ^ (i + w + 1)) ≤ 2 ^ c →
      2 ^ (w + 1) * (bn.natAbs / 2 ^ (i + w + 1) + 1) ≤ 2 ^ c :=
    fun c h1 h2 => pow_carry_bound w c window _ h1 h2
  unfold wNAF_slide
  rw [hH', BN_is_bit_set_eq, Nat.shiftRight_eq_div_pow, pow_one]
  rw [hB] at hwin hcarry ⊢
  generalize bn.natAbs / 2 ^ (i + w + 1) = H at *
  have hHd := Nat.div_add_mod H 2
  have hb := Nat.mod_lt H (by norm_num : 2 > 0)
  generalize H / 2 = H' at *
  generalize H % 2 = b at *
  subst hHd
  have hcases := wNAF_digit_cases w window (by rw [hB]; exact hwin)
  rw [hB] at hcases
  generalize wNAF_digit window (2 ^ w) (2 * 2 ^ w) = d at *
  generalize 2 ^ w = B at *
  have hb01 : b = 0 ∨ b = 1 := by omega
  have e1 : 2 * B * (2 * H' + b) = 4 * (B * H') + 2 * (B * b) := by ring
  have e2 : 2 * B * (2 * H' + b + 1) = 4 * (B * H') + 2 * (B * b) + 2 * B := by ring
  have e3 : 2 * B * H' = 2 * (B * H') := by ring
  rw [e1, e3]
  rw [e1, e2] at hcarry
  have hBb : B * b = 0 ∨ B * b = B := by
    rcases hb01 with rfl | rfl
    · left; simp
    · right; simp
  generalize B * H' = Y at *
  generalize B * b = Bb at *
  rcases hcases with ⟨hpar, rfl⟩ | ⟨hpar, hlt, rfl⟩ | ⟨hpar, hge, hlt, rfl⟩
  · have ht : ((window : Int) - 0).toNat = window := by simp
    rw [ht]
    refine ⟨by omega, Or.inl rfl, ?_, ?_⟩
    · push_cast
      omega
    · intro c hc
      omega
  · have ht : ((window : Int) - (window : Int)).toNat = 0 := by simp
    rw [ht]
    refine ⟨by omega, Or.inr ⟨?_, ?_⟩, ?_, ?_⟩
    · simpa using hpar
    · simpa using hlt
    · push_cast
      omega
    · intro c hc
      omega
  · have ht : ((window : Int) - ((window : Int) - ((2 * B : Nat) : Int))).toNat = 2 * B := by
      rw [sub_sub_cancel]
      exact Int.toNat_natCast _
    rw [ht]
    have hne : window ≠ B := fun h => by rw [h] at hpar; omega
    have hna : ((window : Int) - ((2 * B : Nat) : Int)).natAbs = 2 * B - window := by
      omega
    refine ⟨by omega, Or.inr ⟨?_, ?_⟩, ?_, ?_⟩
    · rw [hna]; omega
    · rw [hna]; omega
    · push_cast
      omega
    · intro c hc
      have := hcarry c (by omega) hc
      omega

theorem to_signed_char_eq (x : Int) (h : x.natAbs < 128) : to_signed_char x = x := by
  unfold to_signed_char
  omega

theorem wNAF_digits_length (bn : Int) (w : Nat) (sign : Int) (bit next : Nat) :
    ∀ count i window, (wNAF_digits bn w sign bit next count i window).length = count := by
  intro count
  induction count with
  | zero => intro i window; rfl
  | succ c ih =>
    intro i window
    simp [wNAF_digits, ih]

/-- Every digit is zero or odd and below `2 ^ w` in absolute value. -/
theorem wNAF_digits_small (bn : Int) (w : Nat) (hw : 1 ≤ w) (hw6 : w ≤ 6) (sign : Int)
    (hsign : sign = 1 ∨ sign = -1) :
    ∀ count i window, window ≤ 2 ^ (w + 1) →
      ∀ d ∈ wNAF_digits bn w sign (2 ^ w) (2 ^ (w + 1)) count i window,
        d = 0 ∨ (d.natAbs % 2 = 1 ∧ d.natAbs < 2 ^ w) := by
  have h64 : 2 ^ w ≤ 64 := by
    have : (2 : Nat) ^ w ≤ 2 ^ 6 := Nat.pow_le_pow_right (by norm_num) hw6
    simpa using this
  intro count
  induction count with
  | zero => intro i window _ d hd; simp [wNAF_digits] at hd
  | succ c ih =>
    intro i window hwin d hd
    obtain ⟨h1, h2, -, -⟩ := wNAF_step bn w i window hw hwin
    simp only [wNAF_digits, List.mem_cons] at hd
    rcases hd with hd | hd
    · subst hd
      have habs : (sign * wNAF_digit window (2 ^ w) (2 ^ (w + 1))).natAbs =
          (wNAF_digit window (2 ^ w) (2 ^ (w + 1))).natAbs := by
        rcases hsign with rfl | rfl <;> simp
      rcases h2 with h2 | ⟨h2, h3⟩
      · left
        rw [h2]
        simp [to_signed_char]
      · right
        rw [to_signed_char_eq _ (by rw [habs]; omega), habs]
        exact ⟨h2, h3⟩
    · exact ih (i + 1) _ h1 d hd

/-- The digits stand for `sign` times the remainder the window represents. -/
theorem wNAF_digits_value (bn : Int) (w : Nat) (hw : 1 ≤ w) (hw6 : w ≤ 6) (sign : Int)
    (hsign : sign = 1 ∨ sign = -1) :
    ∀ count i window, window ≤ 2 ^ (w + 1) →
      2 * (window + 2 ^ (w + 1) * (bn.natAbs / 2 ^ (i + w + 1))) ≤ 2 ^ count →
      digits_value (wNAF_digits bn w sign (2 ^ w) (2 ^ (w + 1)) count i window) =
        sign * ((window + 2 ^ (w + 1) * (bn.natAbs / 2 ^ (i + w + 1)) : Nat) : Int) := by
  have h64 : 2 ^ w ≤ 64 := by
    have : (2 : Nat) ^ w ≤ 2 ^ 6 := Nat.pow_le_pow_right (by norm_num) hw6
    simpa using this
  intro count
  induction count with
  | zero =>
    intro i window _ hb
    have : window + 2 ^ (w + 1) * (bn.natAbs / 2 ^ (i + w + 1)) = 0 := by
      simp only [pow_zero] at hb
      omega
    rw [this]
    simp [wNAF_digits, digits_value]
  | succ c ih =>
    intro i window hwin hb
    obtain ⟨h1, h2, h3, h4⟩ := wNAF_step bn w i window hw hwin
    have hb' : window + 2 ^ (w + 1) * (bn.natAbs / 2 ^ (i + w + 1)) ≤ 2 ^ c := by
      have e : 2 ^ (c + 1) = 2 * 2 ^ c := by rw [pow_succ]; ring
      rw [e] at hb
      omega
    have ih' := ih (i + 1) _ h1 (h4 c hb')
    simp only [wNAF_digits, digits_value]
    rw [ih', ← h3]
    have habs : (sign * wNAF_digit window (2 ^ w) (2 ^ (w + 1))).natAbs =
        (wNAF_digit window (2 ^ w) (2 ^ (w + 1))).natAbs := by
      rcases hsign with rfl | rfl <;> simp
    have hsmall : (sign * wNAF_digit window (2 ^ w) (2 ^ (w + 1))).natAbs < 128 := by
      rw [habs]
      rcases h2 with h2 | ⟨-, h2⟩
      · rw [h2]; simp
      · omega
    rw [to_signed_char_eq _ hsmall]
    ring

theorem ec_window_bits_range (bn : Int) : 1 ≤ ec_window_bits bn ∧ ec_window_bits bn ≤ 6 := by
  unfold ec_window_bits
  simp only
  split_ifs <;> omega

/-- What `ec_compute_wNAF` returns: `bits + 1` digits standing for the scalar, each
zero or odd and indexing within a table of `len = 2 ^ (w - 1)` odd multiples. -/
theorem ec_compute_wNAF_spec (bn : Int) :
    (ec_compute_wNAF bn).1.length = (ec_compute_wNAF bn).2.1 ∧
    (ec_compute_wNAF bn).2.1 = BN_num_bits bn + 1 ∧
    (ec_compute_wNAF bn).2.2 = 2 ^ (ec_window_bits bn - 1) ∧
    1 ≤ (ec_compute_wNAF bn).2.2 ∧ (ec_compute_wNAF bn).2.2 ≤ 32 ∧
    digits_value (ec_compute_wNAF bn).1 = bn ∧
    ∀ d ∈ (ec_compute_wNAF bn).1,
      d = 0 ∨ (d.natAbs % 2 = 1 ∧ d.natAbs / 2 < (ec_compute_wNAF bn).2.2) := by
  obtain ⟨hw1, hw6⟩ := ec_window_bits_range bn
  have hsign : (if BN_is_negative bn = true then (-1 : Int) else 1) = 1 ∨
      (if BN_is_negative bn = true then (-1 : Int) else 1) = -1 := by
    split_ifs
    · right; rfl
    · left; rfl
  have hsignv : (if BN_is_negative bn = true then (-1 : Int) else 1) * (bn.natAbs : Int) = bn := by
    unfold BN_is_negative
    by_cases h : bn < 0
    · simp only [h, decide_True, if_true]; omega
    · simp only [h, decide_False, Bool.false_eq_true, if_false]; omega
  have hlen : (1 : Nat) <<< (ec_window_bits bn - 1) = 2 ^ (ec_window_bits bn - 1) :=
    Nat.one_shiftLeft _
  have hbit : (1 : Nat) <<< ec_window_bits bn = 2 ^ ec_window_bits bn := Nat.one_shiftLeft _
  have hnext : ((2 : Nat) ^ ec_window_bits bn) <<< 1 = 2 ^ (ec_window_bits bn + 1) := by
    rw [Nat.shiftLeft_eq]; ring
  have hwin : wNAF_window_init bn (ec_window_bits bn) ≤ 2 ^ (ec_window_bits bn + 1) := by
    rw [wNAF_window_init_eq]
    exact le_of_lt (Nat.mod_lt _ (by positivity))
  have hpow : 2 ^ (ec_window_bits bn - 1) ≤ 32 := by
    have : (2 : Nat) ^ (ec_window_bits bn - 1) ≤ 2 ^ 5 :=
      Nat.pow_le_pow_right (by norm_num) (by omega)
    simpa using this
  have hpow2 : 2 ^ ec_window_bits bn = 2 * 2 ^ (ec_window_bits bn - 1) := by
    obtain ⟨v, hv⟩ := Nat.exists_eq_add_of_le hw1
    rw [hv, show 1 + v - 1 = v by omega, show 1 + v = v + 1 by omega, pow_succ]
    ring
  unfold ec_compute_wNAF
  simp only [hlen, hbit, hnext]
  refine ⟨wNAF_digits_length _ _ _ _ _ _ _ _, ?_, ?_, Nat.one_le_two_pow, hpow, ?_, ?_⟩
  · trivial
  · trivial
  · rw [wNAF_digits_value bn _ hw1 hw6 _ hsign _ 0 _ hwin]
    · rw [wNAF_window_init_eq, zero_add, Nat.mod_add_div]
      exact hsignv
    · rw [wNAF_window_init_eq, zero_add, Nat.mod_add_div]
      have := lt_two_pow_BN_num_bits bn
      have e : 2 ^ (BN_num_bits bn + 1) = 2 * 2 ^ BN_num_bits bn := by rw [pow_succ]; ring
      rw [e]
      omega
  · intro d hd
    rcases wNAF_digits_small bn _ hw1 hw6 _ hsign _ 0 _ hwin d hd with h | ⟨h1, h2⟩
    · exact Or.inl h
    · right
      refine ⟨h1, ?_⟩
      rw [hpow2] at h2
      omega

/-! ### Point operations under the group law -/

section Law

variable {A : Type} [AddCommGroup A] {group : EC_GROUP} {V : EC_POINT → Prop}
  {φ : EC_POINT → A}

theorem EC_POINT_add_law (law : GroupLaw group V φ) (r a b : EC_POINT)
    (hr : r.meth = group.meth.id) (ha : a.meth = group.meth.id) (hb : b.meth = group.meth.id)
    (Va : V a) (Vb : V b) :
    ∃ r', EC_POINT_add group r a b = .ok r' ∧ r'.meth = group.meth.id ∧ V r' ∧
      φ r' = φ a + φ b := by
  obtain ⟨f, hf, h⟩ := law.add_law
  unfold EC_POINT_add
  rw [hf]
  simp only [hr, ha, hb, ne_eq, not_true_eq_false, or_self, if_false]
  exact h r a b hr ha hb Va Vb

theorem EC_POINT_dbl_law (law : GroupLaw group V φ) (r a : EC_POINT)
    (hr : r.meth = group.meth.id) (ha : a.meth = group.meth.id) (Va : V a) :
    ∃ r', EC_POINT_dbl group r a = .ok r' ∧ r'.meth = group.meth.id ∧ V r' ∧
      φ r' = φ a + φ a := by
  obtain ⟨f, hf, h⟩ := law.dbl_law
  unfold EC_POINT_dbl
  rw [hf]
  simp only [hr, ha, ne_eq, not_true_eq_false, or_self, if_false]
  exact h r a hr ha Va

theorem EC_POINT_invert_law (law : GroupLaw group V φ) (a : EC_POINT)
    (ha : a.meth = group.meth.id) (Va : V a) :
    ∃ r', EC_POINT_invert group a = .ok r' ∧ r'.meth = group.meth.id ∧ V r' ∧
      φ r' = - φ a := by
  obtain ⟨f, hf, h⟩ := law.invert_law
  unfold EC_POINT_invert
  rw [hf]
  simp only [ha, ne_eq, not_true_eq_false, if_false]
  exact h a ha Va

theorem EC_POINT_set_to_infinity_law (law : GroupLaw group V φ) (r : EC_POINT)
    (hr : r.meth = group.meth.id) :
    ∃ r', EC_POINT_set_to_infinity group r = .ok r' ∧ r'.meth = group.meth.id ∧ V r' ∧
      φ r' = 0 := by
  unfold EC_POINT_set_to_infinity
  simp only [hr, ne_eq, not_true_eq_false, if_false]
  refine ⟨_, rfl, rfl, ?_⟩
  exact law.infinity_law _ rfl rfl

theorem EC_POINT_dup_same_meth (group : EC_GROUP) (p : EC_POINT)
    (hp : p.meth = group.meth.id) : EC_POINT_dup (some p) group = some p := by
  unfold EC_POINT_dup EC_POINT_copy EC_POINT_new
  simp only [hp, ne_eq, not_true_eq_false, if_false]
  cases p
  simp_all

end Law

section Mul

variable {A : Type} [AddCommGroup A] {group : EC_GROUP} {V : EC_POINT → Prop}
  {φ : EC_POINT → A}

theorem odd_multiples_loop_law (law : GroupLaw group V φ) (B : A) (doubled : EC_POINT)
    (hdm : doubled.meth = group.meth.id) (hdV : V doubled) (hd : φ doubled = B + B) :
    ∀ count prev j, prev.meth = group.meth.id → V prev → φ prev = (2 * j + 1) • B →
      ∃ rest, odd_multiples_loop group doubled count prev = .ok rest ∧ rest.length = count ∧
        ∀ i p, rest[i]? = some p →
          p.meth = group.meth.id ∧ V p ∧ φ p = (2 * (j + 1 + i) + 1) • B := by
  intro count
  induction count with
  | zero =>
    intro prev j _ _ _
    exact ⟨[], rfl, rfl, by simp⟩
  | succ c ih =>
    intro prev j hpm hpV hp
    obtain ⟨p, hadd, hm, hV, hφ⟩ :=
      EC_POINT_add_law law (EC_POINT_new group) prev doubled rfl hpm hdm hpV hdV
    have hφ' : φ p = (2 * (j + 1) + 1) • B := by
      rw [hφ, hp, hd, show 2 * (j + 1) + 1 = (2 * j + 1) + 2 by ring,
        add_nsmul B (2 * j + 1) 2, two_nsmul]
    obtain ⟨rest, hrest, hlen, hall⟩ := ih p (j + 1) hm hV hφ'
    refine ⟨p :: rest, ?_, by simp [hlen], ?_⟩
    · simp only [odd_multiples_loop, hadd, hrest]
    · intro i q hq
      cases i with
      | zero =>
        simp only [List.getElem?_cons_zero, Option.some.injEq] at hq
        subst hq
        exact ⟨hm, hV, by simpa using hφ'⟩
      | succ i =>
        simp only [List.getElem?_cons_succ] at hq
        have := hall i q hq
        rw [show j + 1 + (i + 1) = j + 1 + 1 + i by ring]
        exact this

theorem ec_compute_odd_multiples_law (law : GroupLaw group V φ) (point : EC_POINT)
    (hpm : point.meth = group.meth.id) (hpV : V point) (row_len : Nat) (hlen : 1 ≤ row_len) :
    ∃ row, ec_compute_odd_multiples group point row_len = .ok row ∧ row.length = row_len ∧
      RowOK group V φ (φ point) row := by
  obtain ⟨doubled, hdbl, hdm, hdV, hd⟩ :=
    EC_POINT_dbl_law law (EC_POINT_new group) point rfl hpm hpV
  obtain ⟨rest, hrest, hl, hall⟩ :=
    odd_multiples_loop_law law (φ point) doubled hdm hdV hd (row_len - 1) point 0 hpm hpV
      (by simp)
  refine ⟨point :: rest, ?_, by simp [hl]; omega, ?_⟩
  · unfold ec_compute_odd_multiples
    rw [if_neg (by omega), EC_POINT_dup_same_meth group point hpm]
    simp only [hdbl, hrest]
  · intro i q hq
    cases i with
    | zero =>
      simp only [List.getElem?_cons_zero, Option.some.injEq] at hq
      subst hq
      exact ⟨hpm, hpV, by simp⟩
    | succ i =>
      simp only [List.getElem?_cons_succ] at hq
      have := hall i q hq
      rw [show 0 + 1 + i = i + 1 by ring] at this
      exact this

theorem ec_compute_row_law (law : GroupLaw group V φ) (m : Int) (point : EC_POINT)
    (hpm : point.meth = group.meth.id) (hpV : V point) :
    ∃ row, ec_compute_row group m point =
        .ok ((ec_compute_wNAF m).1, (ec_compute_wNAF m).2.1, row, (ec_compute_wNAF m).2.2) ∧
      row.length = (ec_compute_wNAF m).2.2 ∧ RowOK group V φ (φ point) row := by
  obtain ⟨-, -, -, h1, -, -, -⟩ := ec_compute_wNAF_spec m
  obtain ⟨row, hrow, hl, hok⟩ := ec_compute_odd_multiples_law law point hpm hpV _ h1
  refine ⟨row, ?_, hl, hok⟩
  unfold ec_compute_row
  simp only [hrow]

theorem RowOK_of_forall₂ (B : A) (row row' : List EC_POINT)
    (h : List.Forall₂ (fun p p' => p'.meth = group.meth.id ∧ V p' ∧ φ p' = φ p) row row')
    (hrow : RowOK group V φ B row) : RowOK group V φ B row' := by
  rw [List.forall₂_iff_get] at h
  obtain ⟨hlen, hget⟩ := h
  intro i p' hp'
  obtain ⟨hi, rfl⟩ := List.getElem?_eq_some.1 hp'
  have hi' : i < row.length := by omega
  obtain ⟨h1, h2, h3⟩ := hget i hi' hi
  have hr := hrow i (row.get ⟨i, hi'⟩) (by simp)
  refine ⟨h1, h2, ?_⟩
  simp only [List.get_eq_getElem] at h3 hr
  rw [h3]
  exact hr.2.2

theorem ec_normalize_rows_law (law : GroupLaw group V φ) (B0 B1 : A)
    (row0 row1 : List EC_POINT) (h0 : RowOK group V φ B0 row0) (h1 : RowOK group V φ B1 row1)
    (hl0 : row0.length ≤ 32) (hl1 : row1.length ≤ 32) :
    ∃ row0' row1', ec_normalize_rows group row0 row0.length row1 row1.length =
        .ok (row0', row1') ∧ row0'.length = row0.length ∧ row1'.length = row1.length ∧
      RowOK group V φ B0 row0' ∧ RowOK group V φ B1 row1' := by
  obtain ⟨f, hf, hlaw⟩ := law.make_affine_law
  have hall : ∀ p ∈ row0 ++ row1, p.meth = group.meth.id ∧ V p := by
    intro p hp
    rw [List.mem_append] at hp
    rcases hp with hp | hp
    · obtain ⟨i, hi, rfl⟩ := List.getElem_of_mem hp
      have := h0 i row0[i] (by simp [hi])
      exact ⟨this.1, this.2.1⟩
    · obtain ⟨i, hi, rfl⟩ := List.getElem_of_mem hp
      have := h1 i row1[i] (by simp [hi])
      exact ⟨this.1, this.2.1⟩
  obtain ⟨val, hval, hR⟩ := hlaw (row0 ++ row1) hall
  have hany : (row0 ++ row1).any (fun p => decide (group.meth.id ≠ p.meth)) = false := by
    rw [List.any_eq_false]
    intro p hp
    have := (hall p hp).1
    simp [this]
  have hmk : EC_POINTs_make_affine group (row0 ++ row1) = .ok val := by
    unfold EC_POINTs_make_affine
    rw [hf]
    simp only [hany, Bool.false_eq_true, if_false]
    exact hval
  have ht := List.forall₂_take row0.length hR
  have hd := List.forall₂_drop row0.length hR
  rw [List.take_left] at ht
  rw [List.drop_left] at hd
  refine ⟨val.take row0.length, val.drop row0.length, ?_, ?_, ?_, ?_, ?_⟩
  · unfold ec_normalize_rows
    have : ¬ row1.length > SIZE_MAX - row0.length := by
      unfold SIZE_MAX
      omega
    rw [if_neg this, List.take_length, List.take_length, hmk]
  · exact ht.length_eq.symm
  · exact hd.length_eq.symm
  · exact RowOK_of_forall₂ B0 _ _ ht h0
  · exact RowOK_of_forall₂ B1 _ _ hd h1

end Mul

theorem digits_value_take_succ (ds : List Int) :
    ∀ c, digits_value (ds.take (c + 1)) = digits_value (ds.take c) + ds.getD c 0 * 2 ^ c := by
  induction ds with
  | nil => intro c; simp [digits_value]
  | cons d t ih =>
    intro c
    cases c with
    | zero => simp [digits_value]
    | succ c =>
      simp only [List.take_succ_cons, digits_value, List.getD_cons_succ]
      rw [ih c]
      ring

section Loop

variable {A : Type} [AddCommGroup A] {group : EC_GROUP} {V : EC_POINT → Prop}
  {φ : EC_POINT → A}

theorem ec_wNAF_mul_digit_law (law : GroupLaw group V φ) (B : A) (wNAF : List Int)
    (row : List EC_POINT) (hrow : RowOK group V φ B row)
    (hdig : ∀ d ∈ wNAF, d = 0 ∨ (d.natAbs % 2 = 1 ∧ d.natAbs / 2 < row.length))
    (k : Nat) (r : EC_POINT) (inv : Bool) (hrm : r.meth = group.meth.id) (hrV : V r) :
    ∃ r' inv', ec_wNAF_mul_digit group wNAF wNAF.length row k r inv = .ok (r', inv') ∧
      r'.meth = group.meth.id ∧ V r' ∧
      signed_value φ r' inv' = signed_value φ r inv + (wNAF.getD k 0) • B := by
  unfold ec_wNAF_mul_digit
  by_cases hk : k ≥ wNAF.length
  · rw [if_pos hk]
    refine ⟨r, inv, rfl, hrm, hrV, ?_⟩
    rw [List.getD_eq_default _ _ hk, zero_smul, add_zero]
  · rw [if_neg hk]
    have hk' : k < wNAF.length := by omega
    have hget : wNAF[k]? = some wNAF[k] := List.getElem?_eq_getElem hk'
    have hgetD : wNAF.getD k 0 = wNAF[k] := by
      rw [List.getD_eq_getElem?_getD, hget]; rfl
    rw [hget, hgetD]
    simp only
    generalize hd : wNAF[k] = d
    have hmem : d ∈ wNAF := by rw [← hd]; exact List.getElem_mem hk'
    by_cases hd0 : d = 0
    · rw [if_pos hd0]
      refine ⟨r, inv, rfl, hrm, hrV, ?_⟩
      rw [hd0, zero_smul, add_zero]
    · rw [if_neg hd0]
      obtain ⟨hodd, hidx⟩ := (hdig d hmem).resolve_left hd0
      have habs : (if d < 0 then -d else d) = ((d.natAbs : Nat) : Int) := by
        split_ifs <;> omega
      have hix : (if d < 0 then -d else d).toNat >>> 1 = d.natAbs / 2 := by
        rw [habs, Int.toNat_natCast, Nat.shiftRight_eq_div_pow, pow_one]
      rw [hix]
      have hp : row[d.natAbs / 2]? = some row[d.natAbs / 2] := List.getElem?_eq_getElem hidx
      obtain ⟨hpm, hpV, hpφ⟩ := hrow _ _ hp
      have hpφ' : φ row[d.natAbs / 2] = (d.natAbs : Int) • B := by
        rw [hpφ, show 2 * (d.natAbs / 2) + 1 = d.natAbs by omega, natCast_zsmul]
      rw [hp]
      simp only
      -- the lazy sign flip
      have hflip : ∃ r1, (if decide (d < 0) ≠ inv then
            match EC_POINT_invert group r with
            | .error e => (.error e : Except ErrorReason (EC_POINT × Bool))
            | .ok r => .ok (r, !inv)
          else .ok (r, inv)) = .ok (r1, decide (d < 0)) ∧ r1.meth = group.meth.id ∧ V r1 ∧
          signed_value φ r1 (decide (d < 0)) = signed_value φ r inv := by
        by_cases hne : decide (d < 0) ≠ inv
        · rw [if_pos hne]
          obtain ⟨r1, hinv, h1m, h1V, h1φ⟩ := EC_POINT_invert_law law r hrm hrV
          refine ⟨r1, ?_, h1m, h1V, ?_⟩
          · rw [hinv]
            simp only
            congr 2
            cases inv <;> cases hdec : decide (d < 0) <;> simp_all
          · unfold signed_value
            rw [h1φ]
            cases inv <;> cases hdec : decide (d < 0) <;> simp_all
        · rw [if_neg hne]
          have : decide (d < 0) = inv := by
            by_contra h; exact hne h
          exact ⟨r, by rw [this], hrm, hrV, by rw [this]⟩
      obtain ⟨r1, hfl, h1m, h1V, h1φ⟩ := hflip
      rw [hfl]
      simp only
      obtain ⟨r2, hadd, h2m, h2V, h2φ⟩ :=
        EC_POINT_add_law law r1 r1 row[d.natAbs / 2] h1m h1m hpm h1V hpV
      rw [hadd]
      refine ⟨r2, decide (d < 0), rfl, h2m, h2V, ?_⟩
      rw [← h1φ]
      unfold signed_value
      rw [h2φ, hpφ']
      by_cases hneg : d < 0
      · simp only [hneg, decide_True, if_true]
        have : d = -((d.natAbs : Nat) : Int) := by omega
        rw [this, neg_smul]
        simp only [Int.natAbs_neg, Int.natAbs_ofNat]
        abel
      · simp only [hneg, decide_False, Bool.false_eq_true, if_false]
        have : d = ((d.natAbs : Nat) : Int) := by omega
        rw [this]
        simp only [Int.natAbs_ofNat]

theorem ec_wNAF_mul_loop_law (law : GroupLaw group V φ) (B0 B1 : A) (wNAF0 wNAF1 : List Int)
    (row0 row1 : List EC_POINT) (hrow0 : RowOK group V φ B0 row0)
    (hrow1 : RowOK group V φ B1 row1)
    (hdig0 : ∀ d ∈ wNAF0, d = 0 ∨ (d.natAbs % 2 = 1 ∧ d.natAbs / 2 < row0.length))
    (hdig1 : ∀ d ∈ wNAF1, d = 0 ∨ (d.natAbs % 2 = 1 ∧ d.natAbs / 2 < row1.length)) :
    ∀ count r inv, r.meth = group.meth.id → V r →
      ∃ r' inv', ec_wNAF_mul_loop group wNAF0 wNAF0.length row0 wNAF1 wNAF1.length row1
          count r inv = .ok (r', inv') ∧ r'.meth = group.meth.id ∧ V r' ∧
        signed_value φ r' inv' = ((2 : Int) ^ count) • signed_value φ r inv +
          digits_value (wNAF0.take count) • B0 + digits_value (wNAF1.take count) • B1 := by
  intro count
  induction count with
  | zero =>
    intro r inv hrm hrV
    refine ⟨r, inv, rfl, hrm, hrV, ?_⟩
    simp [digits_value]
  | succ c ih =>
    intro r inv hrm hrV
    obtain ⟨r1, hdbl, h1m, h1V, h1φ⟩ := EC_POINT_dbl_law law r r hrm hrm hrV
    have h1s : signed_value φ r1 inv = (2 : Int) • signed_value φ r inv := by
      unfold signed_value
      rw [h1φ]
      cases inv <;> simp [two_smul]
    obtain ⟨r2, inv2, hd0, h2m, h2V, h2φ⟩ :=
      ec_wNAF_mul_digit_law law B0 wNAF0 row0 hrow0 hdig0 c r1 inv h1m h1V
    obtain ⟨r3, inv3, hd1, h3m, h3V, h3φ⟩ :=
      ec_wNAF_mul_digit_law law B1 wNAF1 row1 hrow1 hdig1 c r2 inv2 h2m h2V
    obtain ⟨r4, inv4, hloop, h4m, h4V, h4φ⟩ := ih r3 inv3 h3m h3V
    refine ⟨r4, inv4, ?_, h4m, h4V, ?_⟩
    · simp only [ec_wNAF_mul_loop, hdbl, hd0, hd1, hloop]
    · rw [h4φ, h3φ, h2φ, h1s, digits_value_take_succ, digits_value_take_succ]
      module

/-- The variable-time double multiplication computes `m G + n P`. -/
theorem ec_wNAF_mul_law (law : GroupLaw group V φ) (G : EC_POINT)
    (hG : group.generator = some G) (hGm : G.meth = group.meth.id) (hGV : V G)
    (r point : EC_POINT) (hr : r.meth = group.meth.id) (hpm : point.meth = group.meth.id)
    (hpV : V point) (m n : Int) :
    ∃ r', ec_wNAF_mul group r (some m) point (some n) = .ok r' ∧ r'.meth = group.meth.id ∧
      V r' ∧ φ r' = m • φ G + n • φ point := by
  obtain ⟨hl0, -, -, -, h032, hv0, hs0⟩ := ec_compute_wNAF_spec m
  obtain ⟨hl1, -, -, -, h132, hv1, hs1⟩ := ec_compute_wNAF_spec n
  obtain ⟨row0, hrow0, hrl0, hok0⟩ := ec_compute_row_law law m G hGm hGV
  obtain ⟨row1, hrow1, hrl1, hok1⟩ := ec_compute_row_law law n point hpm hpV
  obtain ⟨row0', row1', hnorm, hl0', hl1', hok0', hok1'⟩ :=
    ec_normalize_rows_law law (φ G) (φ point) row0 row1 hok0 hok1 (by omega) (by omega)
  obtain ⟨r0, hinf, h0m, h0V, h0φ⟩ := EC_POINT_set_to_infinity_law law r hr
  have hdig0 : ∀ d ∈ (ec_compute_wNAF m).1,
      d = 0 ∨ (d.natAbs % 2 = 1 ∧ d.natAbs / 2 < row0'.length) := by
    intro d hd
    rw [hl0', hrl0]
    exact hs0 d hd
  have hdig1 : ∀ d ∈ (ec_compute_wNAF n).1,
      d = 0 ∨ (d.natAbs % 2 = 1 ∧ d.natAbs / 2 < row1'.length) := by
    intro d hd
    rw [hl1', hrl1]
    exact hs1 d hd
  obtain ⟨r1, inv1, hloop, h1m, h1V, h1φ⟩ :=
    ec_wNAF_mul_loop_law law (φ G) (φ point) _ _ row0' row1' hok0' hok1' hdig0 hdig1
      (if (ec_compute_wNAF n).2.1 > (ec_compute_wNAF m).2.1 then (ec_compute_wNAF n).2.1
        else (ec_compute_wNAF m).2.1) r0 false h0m h0V
  have ht0 : (ec_compute_wNAF m).1.take
      (if (ec_compute_wNAF n).2.1 > (ec_compute_wNAF m).2.1 then (ec_compute_wNAF n).2.1
        else (ec_compute_wNAF m).2.1) = (ec_compute_wNAF m).1 := by
    apply List.take_of_length_le
    split_ifs <;> omega
  have ht1 : (ec_compute_wNAF n).1.take
      (if (ec_compute_wNAF n).2.1 > (ec_compute_wNAF m).2.1 then (ec_compute_wNAF n).2.1
        else (ec_compute_wNAF m).2.1) = (ec_compute_wNAF n).1 := by
    apply List.take_of_length_le
    split_ifs <;> omega
  rw [ht0, ht1, hv0, hv1] at h1φ
  have h1φ' : signed_value φ r1 inv1 = m • φ G + n • φ point := by
    rw [h1φ]
    unfold signed_value
    simp [h0φ]
  have hfinal : ∃ r', (if inv1 = true then EC_POINT_invert group r1 else .ok r1) = .ok r' ∧
      r'.meth = group.meth.id ∧ V r' ∧ φ r' = m • φ G + n • φ point := by
    cases inv1 with
    | false =>
      refine ⟨r1, by simp, h1m, h1V, ?_⟩
      simpa [signed_value] using h1φ'
    | true =>
      obtain ⟨r2, hinv, h2m, h2V, h2φ⟩ := EC_POINT_invert_law law r1 h1m h1V
      refine ⟨r2, by simp [hinv], h2m, h2V, ?_⟩
      rw [h2φ]
      simpa [signed_value] using h1φ'
  obtain ⟨r', hr', hm', hV', hφ'⟩ := hfinal
  refine ⟨r', ?_, hm', hV', hφ'⟩
  unfold ec_wNAF_mul
  simp only [hr, hpm, ne_eq, not_true_eq_false, or_self, if_false, EC_GROUP_get0_generator, hG,
    hrow0, hrow1]
  rw [← hrl0, ← hrl1, hnorm]
  simp only [hinf]
  rw [← hl0, ← hl1] at hloop ⊢
  rw [hloop]
  exact hr'

end Loop

/-! ### The modular method obeys the group law -/

theorem zmod_repr_point (q : Nat) (r : EC_POINT) (x : Int) :
    zmod_repr q (zmod_point q r x) = (x : ZMod q) := by
  unfold zmod_repr zmod_value zmod_point
  simp only
  by_cases h : x % (q : Int) = 0
  · simp only [h, if_true, Int.cast_zero]
    have : ((x % (q : Int) : Int) : ZMod q) = (x : ZMod q) := ZMod.intCast_mod x q
    rw [h] at this
    simpa using this
  · simp only [h, if_false, one_ne_zero]
    exact ZMod.intCast_mod x q

theorem zmod_law (id q : Nat) :
    GroupLaw (zmod_group id q) (fun _ => True) (zmod_repr q) where
  add_law := ⟨_, rfl, fun r a b hr _ _ _ _ =>
    ⟨_, rfl, hr, trivial, by rw [zmod_repr_point]; simp [zmod_repr]⟩⟩
  dbl_law := ⟨_, rfl, fun r a hr _ _ =>
    ⟨_, rfl, hr, trivial, by rw [zmod_repr_point]; simp [zmod_repr]⟩⟩
  invert_law := ⟨_, rfl, fun a ha _ =>
    ⟨_, rfl, ha, trivial, by rw [zmod_repr_point]; simp [zmod_repr]⟩⟩
  make_affine_law := ⟨_, rfl, fun pts hpts => ⟨pts, rfl, by
    rw [List.forall₂_same]
    intro p hp
    exact ⟨(hpts p hp).1, trivial, rfl⟩⟩⟩
  infinity_law := fun p _ hZ => ⟨trivial, by simp [zmod_repr, zmod_value, hZ]⟩

/-! ### The variable-time double multiplication (`ec_wNAF_mul`) -/

/-- C2. For every group with generator `G`, every point `P` of that group and all
integers `m` and `n` (zero and negative values included), `ec_wNAF_mul` succeeds
and leaves `r` equal to `m G + n P`, assuming `EC_POINT_add`, `EC_POINT_dbl` and
`EC_POINT_invert` implement the group law and batched normalisation does not
change the represented points (`GroupLaw`).  In particular `(m, n, P) = (0, 1, G)`
gives `G`, `(1, 1, G)` gives `2 G` and, when the order annihilates `G`,
`(order - 1, 1, G)` gives the neutral element. -/
theorem ec_wNAF_mul_correct {A : Type} [AddCommGroup A] (group : EC_GROUP)
    (V : EC_POINT → Prop) (φ : EC_POINT → A) (law : GroupLaw group V φ) (G : EC_POINT)
    (hG : group.generator = some G) (hGm : G.meth = group.meth.id) (hGV : V G)
    (r : EC_POINT) (hr : r.meth = group.meth.id) :
    (∀ (point : EC_POINT) (m n : Int), point.meth = group.meth.id → V point →
      ∃ r', ec_wNAF_mul group r (some m) point (some n) = .ok r' ∧
        r'.meth = group.meth.id ∧ V r' ∧ φ r' = m • φ G + n • φ point) ∧
    (∃ r', ec_wNAF_mul group r (some 0) G (some 1) = .ok r' ∧ φ r' = φ G) ∧
    (∃ r', ec_wNAF_mul group r (some 1) G (some 1) = .ok r' ∧ φ r' = φ G + φ G) ∧
    (group.order • φ G = 0 →
      ∃ r', ec_wNAF_mul group r (some (group.order - 1)) G (some 1) = .ok r' ∧ φ r' = 0) := by
  have main := fun point m n hpm hpV =>
    ec_wNAF_mul_law law G hG hGm hGV r point hr hpm hpV m n
  refine ⟨main, ?_, ?_, ?_⟩
  · obtain ⟨r', h, -, -, hφ⟩ := main G 0 1 hGm hGV
    exact ⟨r', h, by simpa using hφ⟩
  · obtain ⟨r', h, -, -, hφ⟩ := main G 1 1 hGm hGV
    exact ⟨r', h, by simpa using hφ⟩
  · intro hord
    obtain ⟨r', h, -, -, hφ⟩ := main G (group.order - 1) 1 hGm hGV
    refine ⟨r', h, ?_⟩
    rw [hφ, sub_smul, hord]
    simp

/-- C2 on the group of the integers modulo 11 with generator 1: the three
scenarios return the points standing for 1, 2 and the neutral element, and
`-3 G + 5 (4 G)` is the point standing for `17 mod 11 = 6`. -/
theorem ec_wNAF_mul_correct_witness :
    ((∀ (point : EC_POINT) (m n : Int), point.meth = (zmod_group 1 11).meth.id → True →
      ∃ r', ec_wNAF_mul (zmod_group 1 11) (zmod_generator 1) (some m) point (some n) = .ok r' ∧
        r'.meth = (zmod_group 1 11).meth.id ∧ True ∧
        zmod_repr 11 r' = m • zmod_repr 11 (zmod_generator 1) + n • zmod_repr 11 point) ∧
    (∃ r', ec_wNAF_mul (zmod_group 1 11) (zmod_generator 1) (some 0) (zmod_generator 1)
        (some 1) = .ok r' ∧ zmod_repr 11 r' = zmod_repr 11 (zmod_generator 1)) ∧
    (∃ r', ec_wNAF_mul (zmod_group 1 11) (zmod_generator 1) (some 1) (zmod_generator 1)
        (some 1) = .ok r' ∧
      zmod_repr 11 r' = zmod_repr 11 (zmod_generator 1) + zmod_repr 11 (zmod_generator 1)) ∧
    ((zmod_group 1 11).order • zmod_repr 11 (zmod_generator 1) = 0 →
      ∃ r', ec_wNAF_mul (zmod_group 1 11) (zmod_generator 1)
        (some ((zmod_group 1 11).order - 1)) (zmod_generator 1) (some 1) = .ok r' ∧
        zmod_repr 11 r' = 0)) ∧
    ec_wNAF_mul (zmod_group 1 11) (zmod_generator 1) (some 0) (zmod_generator 1) (some 1) =
      .ok { meth := 1, X := 1, Y := 0, Z := 1, Z_is_one := 1 } ∧
    ec_wNAF_mul (zmod_group 1 11) (zmod_generator 1) (some 1) (zmod_generator 1) (some 1) =
      .ok { meth := 1, X := 2, Y := 0, Z := 1, Z_is_one := 1 } ∧
    ec_wNAF_mul (zmod_group 1 11) (zmod_generator 1) (some 10) (zmod_generator 1) (some 1) =
      .ok { meth := 1, X := 0, Y := 0, Z := 0, Z_is_one := 1 } ∧
    ec_wNAF_mul (zmod_group 1 11) (zmod_generator 1) (some (-3))
        { meth := 1, X := 4, Y := 0, Z := 1, Z_is_one := 1 } (some 5) =
      .ok { meth := 1, X := 6, Y := 0, Z := 1, Z_is_one := 1 } :=
  ⟨ec_wNAF_mul_correct (zmod_group 1 11) (fun _ => True) (zmod_repr 11) (zmod_law 1 11)
      (zmod_generator 1) rfl rfl trivial (zmod_generator 1) rfl,
    rfl, rfl, rfl, rfl⟩

/-- C6 fails as stated: a null scalar is not accepted by `ec_wNAF_mul`; with `m`
null, or with `n` null, the call fails with `PASSED_NULL_PARAMETER` instead of
returning `n P`, respectively `m G`. -/
theorem ec_wNAF_mul_null_scalar_rejected :
    ec_wNAF_mul (zmod_group 1 11) (zmod_generator 1) none (zmod_generator 1) (some 1) =
      .error .ERR_R_PASSED_NULL_PARAMETER ∧
    ec_wNAF_mul (zmod_group 1 11) (zmod_generator 1) (some 1) (zmod_generator 1) none =
      .error .ERR_R_PASSED_NULL_PARAMETER :=
  ⟨rfl, rfl⟩

/-- C6, amended. `ec_wNAF_mul` rejects a null scalar for either term with
`PASSED_NULL_PARAMETER`; a term is omitted by passing the scalar zero: under the
group law, with `m = 0` the result is `n P` and with `n = 0` the result is `m G`. -/
theorem ec_wNAF_mul_omitted_term {A : Type} [AddCommGroup A] (group : EC_GROUP)
    (V : EC_POINT → Prop) (φ : EC_POINT → A) (law : GroupLaw group V φ) (G : EC_POINT)
    (hG : group.generator = some G) (hGm : G.meth = group.meth.id) (hGV : V G)
    (r point : EC_POINT) (hr : r.meth = group.meth.id) (hpm : point.meth = group.meth.id)
    (hpV : V point) :
    (∀ n, ec_wNAF_mul group r none point n = .error .ERR_R_PASSED_NULL_PARAMETER) ∧
    (∀ m, ec_wNAF_mul group r m point none = .error .ERR_R_PASSED_NULL_PARAMETER) ∧
    (∀ n : Int, ∃ r', ec_wNAF_mul group r (some 0) point (some n) = .ok r' ∧
      φ r' = n • φ point) ∧
    (∀ m : Int, ∃ r', ec_wNAF_mul group r (some m) point (some 0) = .ok r' ∧
      φ r' = m • φ G) := by
  refine ⟨?_, ?_, ?_, ?_⟩
  · intro n
    cases n <;> rfl
  · intro m
    cases m <;> rfl
  · intro n
    obtain ⟨r', h, -, -, hφ⟩ := ec_wNAF_mul_law law G hG hGm hGV r point hr hpm hpV 0 n
    exact ⟨r', h, by simpa using hφ⟩
  · intro m
    obtain ⟨r', h, -, -, hφ⟩ := ec_wNAF_mul_law law G hG hGm hGV r point hr hpm hpV m 0
    exact ⟨r', h, by simpa using hφ⟩

/-- C6, amended, on the group of the integers modulo 11 with `P = 4 G`: null
scalars are rejected, `0 G + 5 P` is the point standing for `20 mod 11 = 9` and
`7 G + 0 P` the point standing for 7. -/
theorem ec_wNAF_mul_omitted_term_witness :
    ((∀ n, ec_wNAF_mul (zmod_group 1 11) (zmod_generator 1) none
        { meth := 1, X := 4, Y := 0, Z := 1, Z_is_one := 1 } n =
        .error .ERR_R_PASSED_NULL_PARAMETER) ∧
    (∀ m, ec_wNAF_mul (zmod_group 1 11) (zmod_generator 1) m
        { meth := 1, X := 4, Y := 0, Z := 1, Z_is_one := 1 } none =
        .error .ERR_R_PASSED_NULL_PARAMETER) ∧
    (∀ n : Int, ∃ r', ec_wNAF_mul (zmod_group 1 11) (zmod_generator 1) (some 0)
        { meth := 1, X := 4, Y := 0, Z := 1, Z_is_one := 1 } (some n) = .ok r' ∧
      zmod_repr 11 r' = n • zmod_repr 11 { meth := 1, X := 4, Y := 0, Z := 1, Z_is_one := 1 }) ∧
    (∀ m : Int, ∃ r', ec_wNAF_mul (zmod_group 1 11) (zmod_generator 1) (some m)
        { meth := 1, X := 4, Y := 0, Z := 1, Z_is_one := 1 } (some 0) = .ok r' ∧
      zmod_repr 11 r' = m • zmod_repr 11 (zmod_generator 1))) ∧
    ec_wNAF_mul (zmod_group 1 11) (zmod_generator 1) (some 0)
        { meth := 1, X := 4, Y := 0, Z := 1, Z_is_one := 1 } (some 5) =
      .ok { meth := 1, X := 9, Y := 0, Z := 1, Z_is_one := 1 } ∧
    ec_wNAF_mul (zmod_group 1 11) (zmod_generator 1) (some 7)
        { meth := 1, X := 4, Y := 0, Z := 1, Z_is_one := 1 } (some 0) =
      .ok { meth := 1, X := 7, Y := 0, Z := 1, Z_is_one := 1 } :=
  ⟨ec_wNAF_mul_omitted_term (zmod_group 1 11) (fun _ => True) (zmod_repr 11) (zmod_law 1 11)
      (zmod_generator 1) rfl rfl trivial (zmod_generator 1)
      { meth := 1, X := 4, Y := 0, Z := 1, Z_is_one := 1 } rfl rfl trivial,
    rfl, rfl⟩

/-! ### The modular inverse -/

theorem mod_inverse_aux_spec (a n : Int) :
    ∀ (fuel r0 r1 : Nat) (t0 t1 : Int), (r1 < fuel ∨ r1 = 0) → n ∣ t0 * a - r0 →
      n ∣ t1 * a - r1 →
      (mod_inverse_aux fuel r0 r1 t0 t1).1 = Nat.gcd r0 r1 ∧
      n ∣ (mod_inverse_aux fuel r0 r1 t0 t1).2 * a - (mod_inverse_aux fuel r0 r1 t0 t1).1 := by
  intro fuel
  induction fuel with
  | zero =>
    intro r0 r1 t0 t1 hf h0 h1
    have : r1 = 0 := by omega
    subst this
    simp only [mod_inverse_aux, Nat.gcd_zero_right]
    exact ⟨trivial, h0⟩
  | succ f ih =>
    intro r0 r1 t0 t1 hf h0 h1
    unfold mod_inverse_aux
    by_cases hr : r1 = 0
    · subst hr
      simp only [if_true, Nat.gcd_zero_right]
      exact ⟨trivial, h0⟩
    · simp only [hr, if_false]
      have hlt : r0 % r1 < r1 := Nat.mod_lt _ (by omega)
      have hdiv : n ∣ (t0 - ((r0 / r1 : Nat) : Int) * t1) * a - ((r0 % r1 : Nat) : Int) := by
        have e : (t0 - ((r0 / r1 : Nat) : Int) * t1) * a - ((r0 % r1 : Nat) : Int) =
            (t0 * a - r0) - ((r0 / r1 : Nat) : Int) * (t1 * a - r1) := by
          have := Nat.div_add_mod r0 r1
          have hz : ((r0 : Nat) : Int) = r1 * (r0 / r1 : Nat) + (r0 % r1 : Nat) := by
            exact_mod_cast this.symm
          rw [hz]
          ring
        rw [e]
        exact dvd_sub h0 (Dvd.dvd.mul_left h1 _)
      obtain ⟨g1, g2⟩ := ih r1 (r0 % r1) t1 (t0 - ((r0 / r1 : Nat) : Int) * t1)
        (Or.inl (by omega)) h1 hdiv
      refine ⟨?_, g2⟩
      rw [g1, Nat.gcd_comm r0 r1, Nat.gcd_rec r1 r0, Nat.gcd_comm]

/-- `BN_mod_inverse_ct` returns the inverse in `[0, n)` exactly when the operand
is coprime to the modulus `n > 1`. -/
theorem BN_mod_inverse_ct_spec (a n : Int) (hn : 1 < n) :
    (∀ i, BN_mod_inverse_ct a n = some i → 0 ≤ i ∧ i < n ∧ (a * i) % n = 1) ∧
    (Nat.gcd n.natAbs (a % n).toNat = 1 → ∃ i, BN_mod_inverse_ct a n = some i) := by
  have hmod0 : 0 ≤ a % n := Int.emod_nonneg _ (by omega)
  have hmodlt : a % n < n := Int.emod_lt_of_pos _ (by omega)
  have h0 : n ∣ (0 : Int) * a - ((n.natAbs : Nat) : Int) := by
    rw [zero_mul, zero_sub, dvd_neg]
    exact Int.dvd_natAbs.2 (dvd_refl n)
  have h1 : n ∣ (1 : Int) * a - (((a % n).toNat : Nat) : Int) := by
    rw [Int.toNat_of_nonneg hmod0, one_mul]
    exact Int.dvd_sub_of_emod_eq rfl
  have hfuel : (a % n).toNat < n.natAbs ∨ (a % n).toNat = 0 := by
    left; omega
  obtain ⟨g1, g2⟩ := mod_inverse_aux_spec a n n.natAbs n.natAbs (a % n).toNat 0 1 hfuel h0 h1
  unfold BN_mod_inverse_ct
  rw [if_neg (by omega)]
  simp only
  constructor
  · intro i hi
    split at hi
    · rename_i hg
      simp only [Option.some.injEq] at hi
      subst hi
      rw [hg] at g2
      refine ⟨Int.emod_nonneg _ (by omega), Int.emod_lt_of_pos _ (by omega), ?_⟩
      rw [Int.mul_emod, Int.emod_emod, ← Int.mul_emod, mul_comm]
      have : (mod_inverse_aux n.natAbs n.natAbs (a % n).toNat 0 1).2 * a % n = 1 % n := by
        apply Int.emod_eq_emod_iff_emod_sub_eq_zero.2
        exact Int.emod_eq_zero_of_dvd (by simpa using g2)
      rw [this]
      exact Int.emod_eq_of_lt (by norm_num) hn
    · simp at hi
  · intro hg
    rw [← g1] at hg
    rw [if_pos hg]
    exact ⟨_, rfl⟩

theorem BN_mod_inverse_ct_prime (s n : Int) (hp : Nat.Prime n.natAbs) (hn : 0 < n)
    (hs1 : 1 ≤ s) (hs2 : s < n) : ∃ i, BN_mod_inverse_ct s n = some i := by
  have hn1 : 1 < n := by omega
  apply (BN_mod_inverse_ct_spec s n hn1).2
  rw [Int.emod_eq_of_lt (by omega) hs2]
  have hlt : s.toNat < n.natAbs := by omega
  have hpos : 0 < s.toNat := by omega
  exact Nat.coprime_of_lt_prime hpos hlt hp

/-! ### ECDSA signing (`ecdsa_compute_s`, `ecdsa_sign_sig`) -/

theorem BN_cmp_lt_zero_iff (a b : Int) : BN_cmp a b < 0 ↔ a < b := by
  unfold BN_cmp
  by_cases h1 : a < b
  · simp [h1]
  · by_cases h2 : a = b
    · simp [h2]
    · simp [h1, h2]

theorem BN_cmp_ge_zero_iff (a b : Int) : BN_cmp a b ≥ 0 ↔ b ≤ a := by
  unfold BN_cmp
  by_cases h1 : a < b
  · simp [h1]
  · by_cases h2 : a = b
    · simp [h2]
    · simp only [h1, h2, if_false]
      constructor
      · intro _; omega
      · intro _; decide

theorem BN_cmp_eq_zero_iff (a b : Int) : BN_cmp a b = 0 ↔ a = b := by
  unfold BN_cmp
  by_cases h1 : a < b
  · simp only [h1, if_true]
    constructor
    · intro h; exact absurd h (by decide)
    · intro h; omega
  · by_cases h2 : a = b
    · simp [h2]
    · simp [h1, h2]

theorem bn_rand_interval_some (lower upper : Int) (tape tape' : Tape) (v : Int)
    (h : bn_rand_interval lower upper tape = (some v, tape')) : lower ≤ v ∧ v < upper := by
  unfold bn_rand_interval at h
  cases tape with
  | nil => simp at h
  | cons w rest =>
    simp only at h
    split at h
    · rename_i hr
      simp only [Prod.mk.injEq, Option.some.injEq] at h
      rw [← h.1]
      exact hr
    · simp at h

/-- What a successful `ecdsa_compute_s` with an output `s` has computed. -/
theorem ecdsa_compute_s_ok (e kinv r : Int) (key : EC_KEY_DATA) (tape tape' : Tape) (s : Int)
    (h : ecdsa_compute_s e kinv r key tape = (.ok (some s), tape')) :
    ∃ group x b binv, key.group = some group ∧ key.priv_key = some x ∧
      1 ≤ r ∧ r < group.order ∧ 1 ≤ b ∧ b < group.order ∧
      BN_mod_inverse_ct b group.order = some binv ∧
      s = ((b * e % group.order + b * x % group.order * r % group.order) % group.order *
        kinv % group.order) * binv % group.order ∧ s ≠ 0 := by
  unfold ecdsa_compute_s at h
  cases hg : key.group with
  | none => rw [hg] at h; simp at h
  | some group =>
    rw [hg] at h
    simp only at h
    cases hx : key.priv_key with
    | none => rw [hx] at h; simp at h
    | some x =>
      rw [hx] at h
      simp only at h
      split at h
      · simp at h
      · rename_i hr
        rw [not_or, BN_cmp_lt_zero_iff, BN_cmp_ge_zero_iff] at hr
        simp only [BN_value_one, EC_GROUP_get0_order, not_lt, not_le] at hr h
        cases hb : bn_rand_interval 1 group.order tape with
        | mk ob t1 =>
          rw [hb] at h
          cases ob with
          | none => simp at h
          | some b =>
            have hbr := bn_rand_interval_some _ _ _ _ _ hb
            simp only at h
            cases hbi : BN_mod_inverse_ct b group.order with
            | none => rw [hbi] at h; simp at h
            | some binv =>
              rw [hbi] at h
              have hn0 : group.order ≠ 0 := by omega
              simp only [BN_mod_mul, BN_mod_add, BN_nnmod, hn0, if_false, Option.bind_eq_bind,
                Option.some_bind, bind, Option.bind] at h
              split at h
              · rename_i hs
                simp only [Prod.mk.injEq, Except.ok.injEq, Option.some.injEq] at h
                refine ⟨group, x, b, binv, rfl, rfl, hr.1, hr.2, hbr.1, hbr.2, hbi, h.1.symm, ?_⟩
                rw [← h.1]
                simpa [BN_is_zero] using hs
              · simp at h

/-- A signature returned by the signing loop comes from one successful
`ecdsa_compute_s` on the `(kinv, r)` in use. -/
theorem ecdsa_sign_sig_loop_ok (key : EC_KEY) (e : Int) (supplied : Option (Int × Int)) :
    ∀ fuel attempts tape sig tape',
      ecdsa_sign_sig_loop key e supplied fuel attempts tape = (.ok sig, tape') →
      ∃ kinv t1 t2,
        (supplied = some (kinv, sig.r) ∨
          (supplied = none ∧ ECDSA_sign_setup key t1 = (.ok (kinv, sig.r), t2))) ∧
        ecdsa_compute_s e kinv sig.r key.toEC_KEY_DATA t2 = (.ok (some sig.s), tape') := by
  intro fuel
  induction fuel with
  | zero =>
    intro attempts tape sig tape' h
    simp [ecdsa_sign_sig_loop] at h
  | succ f ih =>
    intro attempts tape sig tape' h
    unfold ecdsa_sign_sig_loop at h
    simp only at h
    have key_step : ∀ kinv r t2,
        (supplied = some (kinv, r) ∨
          (supplied = none ∧ ECDSA_sign_setup key tape = (.ok (kinv, r), t2))) →
        (match ecdsa_compute_s e kinv r key.toEC_KEY_DATA t2 with
          | (.error err, tape) => ((.error err : Except ErrorReason ECDSA_SIG), tape)
          | (.ok (some s), tape) => (.ok { r := r, s := s }, tape)
          | (.ok none, tape) =>
            if supplied.isSome then (.error .ECDSA_R_NEED_NEW_SETUP_VALUES, tape)
            else if attempts + 1 > ECDSA_MAX_SIGN_ITERATIONS then
              (.error .EC_R_WRONG_CURVE_PARAMETERS, tape)
            else ecdsa_sign_sig_loop key e supplied f (attempts + 1) tape) = (.ok sig, tape') →
        ∃ kinv t1 t2,
          (supplied = some (kinv, sig.r) ∨
            (supplied = none ∧ ECDSA_sign_setup key t1 = (.ok (kinv, sig.r), t2))) ∧
          ecdsa_compute_s e kinv sig.r key.toEC_KEY_DATA t2 = (.ok (some sig.s), tape') := by
      intro kinv r t2 hsup hm
      cases hc : ecdsa_compute_s e kinv r key.toEC_KEY_DATA t2 with
      | mk res t3 =>
        rw [hc] at hm
        cases res with
        | error err => simp at hm
        | ok os =>
          cases os with
          | some s =>
            simp only [Prod.mk.injEq, Except.ok.injEq] at hm
            obtain ⟨hsig, ht⟩ := hm
            subst hsig
            subst ht
            exact ⟨kinv, tape, t2, hsup, hc⟩
          | none =>
            simp only at hm
            split at hm
            · simp at hm
            · split at hm
              · simp at hm
              · exact ih _ _ _ _ hm
    cases supplied with
    | some kr =>
      obtain ⟨kinv, r⟩ := kr
      simp only at h
      exact key_step kinv r tape (Or.inl rfl) h
    | none =>
      simp only at h
      cases hs : ECDSA_sign_setup key tape with
      | mk res t2 =>
        rw [hs] at h
        cases res with
        | error err => simp at h
        | ok kr =>
          obtain ⟨kinv, r⟩ := kr
          simp only at h
          exact key_step kinv r t2 (Or.inr ⟨rfl, hs⟩) h

/-- C4. Every signature `(r, s)` returned by `ecdsa_sign_sig` satisfies
`1 ≤ r < n` and `1 ≤ s < n`, whatever the key's `sign_setup` method returns when
`(kinv, r)` are generated internally and whatever `(kinv, r)` the caller supplies;
a caller-supplied `r` outside `[1, n - 1]` makes signing fail instead of
producing a signature. -/
theorem ecdsa_sign_sig_range (digest : List (Fin 256)) (in_kinv in_r : Option Int)
    (key : EC_KEY) (tape : Tape) :
    (∀ sig tape', ecdsa_sign_sig digest in_kinv in_r key tape = (.ok sig, tape') →
      ∃ group, key.group = some group ∧ 1 ≤ sig.r ∧ sig.r < group.order ∧
        1 ≤ sig.s ∧ sig.s < group.order) ∧
    (∀ kinv r group, in_kinv = some kinv → in_r = some r → key.group = some group →
      (r < 1 ∨ group.order ≤ r) →
      ∃ err tape', ecdsa_sign_sig digest in_kinv in_r key tape = (.error err, tape')) := by
  have range : ∀ sig tape', ecdsa_sign_sig digest in_kinv in_r key tape = (.ok sig, tape') →
      (∃ group, key.group = some group ∧ 1 ≤ sig.r ∧ sig.r < group.order ∧
        1 ≤ sig.s ∧ sig.s < group.order) ∧
      (∀ kinv r, in_kinv = some kinv → in_r = some r → sig.r = r) := by
    intro sig tape' h
    unfold ecdsa_sign_sig at h
    cases he : ecdsa_prepare_digest digest key.toEC_KEY_DATA with
    | none => rw [he] at h; simp at h
    | some e =>
      rw [he] at h
      simp only at h
      obtain ⟨kinv, t1, t2, hsup, hc⟩ := ecdsa_sign_sig_loop_ok key e _ _ _ _ _ _ h
      obtain ⟨group, x, b, binv, hg, -, hr1, hr2, -, -, -, hs, hs0⟩ :=
        ecdsa_compute_s_ok _ _ _ _ _ _ _ hc
      constructor
      · refine ⟨group, hg, hr1, hr2, ?_⟩
        have hn : 0 < group.order := by omega
        have h1 : 0 ≤ sig.s := by rw [hs]; exact Int.emod_nonneg _ (by omega)
        have h2 : sig.s < group.order := by rw [hs]; exact Int.emod_lt_of_pos _ hn
        exact ⟨by omega, h2⟩
      · intro kinv' r' hk hr
        subst hk
        subst hr
        rcases hsup with hsup | ⟨hsup, -⟩
        · simp only [Option.some.injEq, Prod.mk.injEq] at hsup
          exact hsup.2.symm
        · simp at hsup
  refine ⟨fun sig tape' h => (range sig tape' h).1, ?_⟩
  intro kinv r group hk hr hg hbad
  cases hres : ecdsa_sign_sig digest in_kinv in_r key tape with
  | mk res t =>
    cases res with
    | error err => exact ⟨err, t, rfl⟩
    | ok sig =>
      exfalso
      obtain ⟨⟨group', hg', h1, h2, -, -⟩, hr'⟩ := range sig t hres
      have := hr' kinv r hk hr
      rw [hg] at hg'
      simp only [Option.some.injEq] at hg'
      subst hg'
      omega

/-- C4 on the group of the integers modulo `2^89 - 1`: signing with the internal
setup returns `(5, 371865582113459934139632082)`, signing with the caller's
`(kinv, r) = (3, 4)` returns `(4, 7253554917687775048385196)`, both in range, and
the caller's `r = 0` makes signing fail. -/
theorem ecdsa_sign_sig_range_witness :
    (ecdsa_sign_sig digest32 none none key89 [5, 7] =
        (.ok { r := 5, s := 371865582113459934139632082 }, []) ∧
      ∃ group, key89.group = some group ∧ (1 : Int) ≤ 5 ∧ 5 < group.order ∧
        (1 : Int) ≤ 371865582113459934139632082 ∧
        371865582113459934139632082 < group.order) ∧
    (ecdsa_sign_sig digest32 (some 3) (some 4) key89 [7] =
        (.ok { r := 4, s := 7253554917687775048385196 }, []) ∧
      ∃ group, key89.group = some group ∧ (1 : Int) ≤ 4 ∧ 4 < group.order ∧
        (1 : Int) ≤ 7253554917687775048385196 ∧ 7253554917687775048385196 < group.order) ∧
    (∃ err tape', ecdsa_sign_sig digest32 (some 3) (some 0) key89 [7] = (.error err, tape')) :=
  ⟨⟨rfl, (ecdsa_sign_sig_range digest32 none none key89 [5, 7]).1
      { r := 5, s := 371865582113459934139632082 } [] rfl⟩,
    ⟨rfl, (ecdsa_sign_sig_range digest32 (some 3) (some 4) key89 [7]).1
      { r := 4, s := 7253554917687775048385196 } [] rfl⟩,
    (ecdsa_sign_sig_range digest32 (some 3) (some 0) key89 [7]).2 3 0 (zmod_group 1 q89)
      rfl rfl rfl (Or.inl (by decide))⟩

/-! ### ECDSA verification (`ecdsa_verify_sig`) -/

theorem ecdsa_prepare_digest_some (digest : List (Fin 256)) (key : EC_KEY_DATA)
    (group : EC_GROUP) (hg : key.group = some group) :
    ∃ e, ecdsa_prepare_digest digest key = some e := by
  unfold ecdsa_prepare_digest
  rw [hg]
  simp only
  split
  · exact ⟨_, rfl⟩
  · exact ⟨_, rfl⟩

/-- The value of `ecdsa_verify_sig` once the range checks, the digest and the
inverse of `s` are through. -/
theorem ecdsa_verify_sig_eval (digest : List (Fin 256)) (sig : ECDSA_SIG) (key : EC_KEY)
    (group : EC_GROUP) (Q : EC_POINT) (e sinv : Int) (hg : key.group = some group)
    (hQ : key.pub_key = some Q) (hr1 : 1 ≤ sig.r) (hr2 : sig.r < group.order)
    (hs1 : 1 ≤ sig.s) (hs2 : sig.s < group.order)
    (he : ecdsa_prepare_digest digest key.toEC_KEY_DATA = some e)
    (hi : BN_mod_inverse_ct sig.s group.order = some sinv) :
    ecdsa_verify_sig digest (some sig) (some key) =
      match EC_POINT_mul group (EC_POINT_new group) (some (e * sinv % group.order)) (some Q)
          (some (sig.r * sinv % group.order)) with
      | .error _ => -1
      | .ok point =>
        match EC_POINT_get_affine_coordinates group point with
        | .error _ => -1
        | .ok (x, _) => if x % group.order = sig.r then 1 else 0 := by
  have hn0 : group.order ≠ 0 := by omega
  have c1 : ¬ (BN_cmp sig.r BN_value_one < 0 ∨ BN_cmp sig.r group.order ≥ 0) := by
    rw [BN_cmp_lt_zero_iff, BN_cmp_ge_zero_iff, BN_value_one]; omega
  have c2 : ¬ (BN_cmp sig.s BN_value_one < 0 ∨ BN_cmp sig.s group.order ≥ 0) := by
    rw [BN_cmp_lt_zero_iff, BN_cmp_ge_zero_iff, BN_value_one]; omega
  unfold ecdsa_verify_sig
  simp only [hg, hQ, EC_GROUP_get0_order, c1, c2, if_false, he, hi, BN_mod_mul, BN_nnmod, hn0,
    BN_cmp_eq_zero_iff]

/-- The range checks of `ecdsa_verify_sig`. -/
theorem ecdsa_verify_sig_out_of_range (digest : List (Fin 256)) (sig : ECDSA_SIG) (key : EC_KEY)
    (group : EC_GROUP) (Q : EC_POINT) (hg : key.group = some group)
    (hQ : key.pub_key = some Q)
    (h : sig.r < 1 ∨ group.order ≤ sig.r ∨ sig.s < 1 ∨ group.order ≤ sig.s) :
    ecdsa_verify_sig digest (some sig) (some key) = 0 := by
  unfold ecdsa_verify_sig
  simp only [hg, hQ, EC_GROUP_get0_order, BN_cmp_lt_zero_iff, BN_cmp_ge_zero_iff, BN_value_one]
  by_cases c1 : sig.r < 1 ∨ group.order ≤ sig.r
  · rw [if_pos c1]
  · rw [if_neg c1]
    have c2 : sig.s < 1 ∨ group.order ≤ sig.s := by omega
    rw [if_pos c2]

theorem EC_POINT_get_affine_coordinates_ok (group : EC_GROUP) (R : EC_POINT) (x y : Int)
    (h : EC_POINT_get_affine_coordinates group R = .ok (x, y)) :
    EC_POINT_is_at_infinity group R = 0 := by
  unfold EC_POINT_get_affine_coordinates at h
  split at h
  · simp at h
  · rename_i hinf
    unfold EC_POINT_is_at_infinity at hinf ⊢
    split_ifs at hinf ⊢ <;> simp_all

theorem EC_POINT_get_affine_coordinates_infinity (group : EC_GROUP) (R : EC_POINT)
    (h : EC_POINT_is_at_infinity group R = 1) :
    EC_POINT_get_affine_coordinates group R = .error .EC_R_POINT_AT_INFINITY := by
  unfold EC_POINT_get_affine_coordinates
  rw [h, if_pos (by decide)]

/-- When `ecdsa_verify_sig` accepts. -/
theorem ecdsa_verify_sig_accept_iff (digest : List (Fin 256)) (sig : ECDSA_SIG) (key : EC_KEY)
    (group : EC_GROUP) (Q : EC_POINT) (hg : key.group = some group)
    (hQ : key.pub_key = some Q) :
    ecdsa_verify_sig digest (some sig) (some key) = 1 ↔
      1 ≤ sig.r ∧ sig.r < group.order ∧ 1 ≤ sig.s ∧ sig.s < group.order ∧
      ∃ e sinv R x y, ecdsa_prepare_digest digest key.toEC_KEY_DATA = some e ∧
        BN_mod_inverse_ct sig.s group.order = some sinv ∧
        EC_POINT_mul group (EC_POINT_new group) (some (e * sinv % group.order)) (some Q)
          (some (sig.r * sinv % group.order)) = .ok R ∧
        EC_POINT_is_at_infinity group R = 0 ∧
        EC_POINT_get_affine_coordinates group R = .ok (x, y) ∧
        x % group.order = sig.r := by
  constructor
  · intro h
    by_cases hrange : sig.r < 1 ∨ group.order ≤ sig.r ∨ sig.s < 1 ∨ group.order ≤ sig.s
    · rw [ecdsa_verify_sig_out_of_range digest sig key group Q hg hQ hrange] at h
      exact absurd h (by decide)
    · have hr1 : 1 ≤ sig.r := by omega
      have hr2 : sig.r < group.order := by omega
      have hs1 : 1 ≤ sig.s := by omega
      have hs2 : sig.s < group.order := by omega
      refine ⟨hr1, hr2, hs1, hs2, ?_⟩
      obtain ⟨e, he⟩ := ecdsa_prepare_digest_some digest key.toEC_KEY_DATA group hg
      cases hi : BN_mod_inverse_ct sig.s group.order with
      | none =>
        unfold ecdsa_verify_sig at h
        have c1 : ¬ (BN_cmp sig.r BN_value_one < 0 ∨ BN_cmp sig.r group.order ≥ 0) := by
          rw [BN_cmp_lt_zero_iff, BN_cmp_ge_zero_iff, BN_value_one]; omega
        have c2 : ¬ (BN_cmp sig.s BN_value_one < 0 ∨ BN_cmp sig.s group.order ≥ 0) := by
          rw [BN_cmp_lt_zero_iff, BN_cmp_ge_zero_iff, BN_value_one]; omega
        simp only [hg, hQ, EC_GROUP_get0_order, c1, c2, if_false, he, hi] at h
        exact absurd h (by decide)
      | some sinv =>
        rw [ecdsa_verify_sig_eval digest sig key group Q e sinv hg hQ hr1 hr2 hs1 hs2 he hi] at h
        cases hm : EC_POINT_mul group (EC_POINT_new group) (some (e * sinv % group.order))
            (some Q) (some (sig.r * sinv % group.order)) with
        | error err => rw [hm] at h; simp at h
        | ok R =>
          rw [hm] at h
          simp only at h
          cases ha : EC_POINT_get_affine_coordinates group R with
          | error err => rw [ha] at h; simp at h
          | ok xy =>
            obtain ⟨x, y⟩ := xy
            rw [ha] at h
            simp only at h
            by_cases hx : x % group.order = sig.r
            · exact ⟨e, sinv, R, x, y, he, rfl, hm,
                EC_POINT_get_affine_coordinates_ok group R x y ha, ha, hx⟩
            · rw [if_neg hx] at h
              exact absurd h (by decide)
  · rintro ⟨hr1, hr2, hs1, hs2, e, sinv, R, x, y, he, hi, hm, -, ha, hx⟩
    rw [ecdsa_verify_sig_eval digest sig key group Q e sinv hg hQ hr1 hr2 hs1 hs2 he hi, hm]
    simp only [ha, hx, if_true]

/-- C3. `ecdsa_verify_sig` accepts (returns 1) if and only if `1 ≤ r < n`,
`1 ≤ s < n`, the inverse `s⁻¹ mod n` exists, the point `R = u G + v Q` with
`u = e s⁻¹ mod n` and `v = r s⁻¹ mod n` is computed and is not the point at
infinity, and `x(R) mod n = r`; it returns 0 when `r` or `s` is outside
`[1, n - 1]` or when `x(R) mod n` differs from `r`, and it does not return 1
(it returns -1) when `R` is the point at infinity. -/
theorem ecdsa_verify_sig_spec (digest : List (Fin 256)) (sig : ECDSA_SIG) (key : EC_KEY)
    (group : EC_GROUP) (Q : EC_POINT) (hg : key.group = some group)
    (hQ : key.pub_key = some Q) :
    (ecdsa_verify_sig digest (some sig) (some key) = 1 ↔
      1 ≤ sig.r ∧ sig.r < group.order ∧ 1 ≤ sig.s ∧ sig.s < group.order ∧
      ∃ e sinv R x y, ecdsa_prepare_digest digest key.toEC_KEY_DATA = some e ∧
        BN_mod_inverse_ct sig.s group.order = some sinv ∧
        EC_POINT_mul group (EC_POINT_new group) (some (e * sinv % group.order)) (some Q)
          (some (sig.r * sinv % group.order)) = .ok R ∧
        EC_POINT_is_at_infinity group R = 0 ∧
        EC_POINT_get_affine_coordinates group R = .ok (x, y) ∧
        x % group.order = sig.r) ∧
    ((sig.r < 1 ∨ group.order ≤ sig.r ∨ sig.s < 1 ∨ group.order ≤ sig.s) →
      ecdsa_verify_sig digest (some sig) (some key) = 0) ∧
    (∀ e sinv R, 1 ≤ sig.r → sig.r < group.order → 1 ≤ sig.s → sig.s < group.order →
      ecdsa_prepare_digest digest key.toEC_KEY_DATA = some e →
      BN_mod_inverse_ct sig.s group.order = some sinv →
      EC_POINT_mul group (EC_POINT_new group) (some (e * sinv % group.order)) (some Q)
        (some (sig.r * sinv % group.order)) = .ok R →
      (∀ x y, EC_POINT_get_affine_coordinates group R = .ok (x, y) →
        x % group.order ≠ sig.r → ecdsa_verify_sig digest (some sig) (some key) = 0) ∧
      (EC_POINT_is_at_infinity group R = 1 →
        ecdsa_verify_sig digest (some sig) (some key) = -1)) := by
  refine ⟨ecdsa_verify_sig_accept_iff digest sig key group Q hg hQ,
    ecdsa_verify_sig_out_of_range digest sig key group Q hg hQ, ?_⟩
  intro e sinv R hr1 hr2 hs1 hs2 he hi hm
  rw [ecdsa_verify_sig_eval digest sig key group Q e sinv hg hQ hr1 hr2 hs1 hs2 he hi, hm]
  constructor
  · intro x y ha hx
    simp only [ha, hx, if_false]
  · intro hinf
    simp only [EC_POINT_get_affine_coordinates_infinity group R hinf]

/-- C3 on the group of the integers modulo `2^89 - 1`: the signature
`(5, 371865582113459934139632082)` on `digest32` is accepted, so the conditions
hold for it, and a signature with `r = 0` is rejected with 0. -/
theorem ecdsa_verify_sig_spec_witness :
    key89.group = some (zmod_group 1 q89) ∧
    key89.pub_key = some (zmod_point q89 (zmod_generator 1) 12345) ∧
    ecdsa_verify_sig digest32 (some { r := 5, s := 371865582113459934139632082 })
      (some key89) = 1 ∧
    ((1 : Int) ≤ 5 ∧ (5 : Int) < (zmod_group 1 q89).order ∧
      (1 : Int) ≤ 371865582113459934139632082 ∧
      (371865582113459934139632082 : Int) < (zmod_group 1 q89).order ∧
      ∃ e sinv R x y, ecdsa_prepare_digest digest32 key89.toEC_KEY_DATA = some e ∧
        BN_mod_inverse_ct 371865582113459934139632082 (zmod_group 1 q89).order = some sinv ∧
        EC_POINT_mul (zmod_group 1 q89) (EC_POINT_new (zmod_group 1 q89))
          (some (e * sinv % (zmod_group 1 q89).order))
          (some (zmod_point q89 (zmod_generator 1) 12345))
          (some (5 * sinv % (zmod_group 1 q89).order)) = .ok R ∧
        EC_POINT_is_at_infinity (zmod_group 1 q89) R = 0 ∧
        EC_POINT_get_affine_coordinates (zmod_group 1 q89) R = .ok (x, y) ∧
        x % (zmod_group 1 q89).order = 5) ∧
    ecdsa_verify_sig digest32 (some { r := 0, s := 371865582113459934139632082 })
      (some key89) = 0 :=
  ⟨rfl, rfl, rfl,
    (ecdsa_verify_sig_spec digest32 { r := 5, s := 371865582113459934139632082 } key89
      (zmod_group 1 q89) (zmod_point q89 (zmod_generator 1) 12345) rfl rfl).1.1 rfl,
    (ecdsa_verify_sig_spec digest32 { r := 0, s := 371865582113459934139632082 } key89
      (zmod_group 1 q89) (zmod_point q89 (zmod_generator 1) 12345) rfl rfl).2.1
      (Or.inl (by decide))⟩

/-! ### Sign then verify -/

section SignVerify

variable {A : Type} [AddCommGroup A] {group : EC_GROUP} {G : EC_POINT} {V : EC_POINT → Prop}
  {φ : EC_POINT → A} {xof : A → Int}

theorem EC_POINT_mul_generator_law (law : ScalarMulLaw group G V φ xof) (r : EC_POINT)
    (hr : r.meth = group.meth.id) (k : Int) :
    ∃ r', EC_POINT_mul group r (some k) none none = .ok r' ∧ r'.meth = group.meth.id ∧
      V r' ∧ φ r' = k • φ G := by
  obtain ⟨f1, hf1, h1⟩ := law.mul_generator_law
  obtain ⟨f3, hf3, -⟩ := law.mul_double_law
  obtain ⟨f2, hf2⟩ := Option.ne_none_iff_exists'.1 law.mul_single_present
  unfold EC_POINT_mul EC_POINT_mul_traced
  rw [hf1, hf2, hf3]
  exact h1 r k hr

theorem EC_POINT_mul_double_law (law : ScalarMulLaw group G V φ xof) (r P : EC_POINT)
    (hr : r.meth = group.meth.id) (hP : P.meth = group.meth.id) (hPV : V P) (u v : Int) :
    ∃ r', EC_POINT_mul group r (some u) (some P) (some v) = .ok r' ∧
      r'.meth = group.meth.id ∧ V r' ∧ φ r' = u • φ G + v • φ P := by
  obtain ⟨f1, hf1, -⟩ := law.mul_generator_law
  obtain ⟨f3, hf3, h3⟩ := law.mul_double_law
  obtain ⟨f2, hf2⟩ := Option.ne_none_iff_exists'.1 law.mul_single_present
  unfold EC_POINT_mul EC_POINT_mul_traced
  rw [hf1, hf2, hf3]
  exact h3 r u v P hr hP hPV

theorem EC_POINT_get_affine_coordinates_law (law : ScalarMulLaw group G V φ xof)
    (P : EC_POINT) (hP : P.meth = group.meth.id) (hPV : V P) :
    (∀ x y, EC_POINT_get_affine_coordinates group P = .ok (x, y) →
      φ P ≠ 0 ∧ x = xof (φ P)) ∧
    (φ P ≠ 0 → ∃ y, EC_POINT_get_affine_coordinates group P = .ok (xof (φ P), y)) := by
  obtain ⟨f, hf, h⟩ := law.affine_law
  have hinf := law.infinity_law P hP hPV
  have hiff : EC_POINT_is_at_infinity group P > 0 ↔ P.Z = 0 := by
    unfold EC_POINT_is_at_infinity BN_is_zero
    simp only [hP, ne_eq, not_true_eq_false, if_false, decide_eq_true_eq]
    by_cases hz : P.Z = 0
    · simp [hz]
    · simp [hz]
  unfold EC_POINT_get_affine_coordinates
  constructor
  · intro x y hxy
    by_cases hz : P.Z = 0
    · rw [if_pos (hiff.2 hz)] at hxy
      simp at hxy
    · rw [if_neg (fun hc => hz (hiff.1 hc)), hf] at hxy
      simp only [hP, ne_eq, not_true_eq_false, if_false] at hxy
      obtain ⟨y', hy'⟩ := h P hP hPV hz
      rw [hy'] at hxy
      simp only [Except.ok.injEq, Prod.mk.injEq] at hxy
      exact ⟨fun hc => hz (hinf.2 hc), hxy.1.symm⟩
  · intro hne
    have hz : P.Z ≠ 0 := fun hc => hne (hinf.1 hc)
    rw [if_neg (fun hc => hz (hiff.1 hc)), hf]
    simp only [hP, ne_eq, not_true_eq_false, if_false]
    exact h P hP hPV hz

/-- What a successful round of the setup loop has computed. -/
theorem ecdsa_sign_setup_loop_ok (law : ScalarMulLaw group G V φ xof) (order : Int)
    (order_bits : Nat) :
    ∀ (tape : Tape) (point : EC_POINT) (k r : Int) (tape' : Tape),
      point.meth = group.meth.id →
      ecdsa_sign_setup_loop group order order_bits point tape = (.ok (k, r), tape') →
      ∃ P, P.meth = group.meth.id ∧ V P ∧ φ P = k • φ G ∧ φ P ≠ 0 ∧
        r = xof (φ P) % order ∧ r ≠ 0 := by
  intro tape
  induction tape with
  | nil =>
    intro point k r tape' _ h
    simp [ecdsa_sign_setup_loop] at h
  | cons v rest ih =>
    intro point k r tape' hpm h
    unfold ecdsa_sign_setup_loop at h
    cases hb : (bn_rand_interval BN_value_one order (v :: rest)).1 with
    | none => rw [hb] at h; simp at h
    | some k0 =>
      rw [hb] at h
      simp only at h
      obtain ⟨P, hmul, hPm, hPV, hPφ⟩ := EC_POINT_mul_generator_law law point hpm
        (if BN_num_bits (BN_add k0 order) > order_bits then BN_add k0 order
          else BN_add (BN_add k0 order) order)
      rw [hmul] at h
      simp only at h
      cases ha : EC_POINT_get_affine_coordinates group P with
      | error err => rw [ha] at h; simp at h
      | ok xy =>
        obtain ⟨x, y⟩ := xy
        rw [ha] at h
        simp only at h
        obtain ⟨hne, hx⟩ := (EC_POINT_get_affine_coordinates_law law P hPm hPV).1 x y ha
        unfold BN_nnmod at h
        by_cases hn0 : order = 0
        · rw [if_pos hn0] at h
          simp at h
        · rw [if_neg hn0] at h
          simp only at h
          by_cases hz : x % order = 0
          · rw [if_pos (by simp [BN_is_zero, hz])] at h
            exact ih P k r tape' hPm h
          · rw [if_neg (by simp [BN_is_zero, hz])] at h
            simp only [Prod.mk.injEq, Except.ok.injEq] at h
            obtain ⟨⟨hk, hr⟩, -⟩ := h
            refine ⟨P, hPm, hPV, ?_, hne, ?_, ?_⟩
            · rw [hPφ, hk]
            · rw [← hr, hx]
            · rw [← hr]; exact hz

/-- What a successful `ecdsa_sign_setup` has computed. -/
theorem ecdsa_sign_setup_ok (law : ScalarMulLaw group G V φ xof) (key : EC_KEY_DATA)
    (hg : key.group = some group) (tape tape' : Tape) (kinv r : Int)
    (h : ecdsa_sign_setup key tape = (.ok (kinv, r), tape')) :
    ∃ k P, 1 < group.order ∧ BN_mod_inverse_ct k group.order = some kinv ∧
      P.meth = group.meth.id ∧ V P ∧ φ P = k • φ G ∧ φ P ≠ 0 ∧
      r = xof (φ P) % group.order ∧ r ≠ 0 := by
  unfold ecdsa_sign_setup at h
  rw [hg] at h
  simp only [EC_GROUP_get0_order] at h
  split at h
  · simp at h
  · rename_i hcmp
    have hn : 1 < group.order := by
      have := (BN_cmp_ge_zero_iff group.order BN_value_one).not
      unfold BN_value_one at this hcmp
      unfold BN_cmp at hcmp
      by_contra hcon
      by_cases h1 : group.order < 1
      · simp [h1] at hcmp
      · have : group.order = 1 := by omega
        simp [this] at hcmp
    split at h
    · simp at h
    · cases hl : ecdsa_sign_setup_loop group group.order (BN_num_bits group.order)
          (EC_POINT_new group) tape with
      | mk res t =>
        rw [hl] at h
        cases res with
        | error err => simp at h
        | ok kr =>
          obtain ⟨k, r0⟩ := kr
          simp only at h
          cases hi : BN_mod_inverse_ct k group.order with
          | none => rw [hi] at h; simp at h
          | some ki =>
            rw [hi] at h
            simp only [Prod.mk.injEq, Except.ok.injEq] at h
            obtain ⟨⟨hk, hr⟩, -⟩ := h
            obtain ⟨P, hPm, hPV, hPφ, hne, hr', hr0⟩ :=
              ecdsa_sign_setup_loop_ok law _ _ tape (EC_POINT_new group) k r0 t rfl hl
            subst hk
            subst hr
            exact ⟨k, P, hn, hi, hPm, hPV, hPφ, hne, hr', hr0⟩

end SignVerify

/-- The congruence behind sign-then-verify: `u + v x ≡ k (mod n)`. -/
theorem ecdsa_congruence (n e x r k kinv b binv s sinv : Int) (hn : 1 < n)
    (hk : k * kinv % n = 1) (hb : b * binv % n = 1) (hsi : s * sinv % n = 1)
    (hs : s = ((b * e % n + b * x % n * r % n) % n * kinv % n) * binv % n) :
    n ∣ (e * sinv % n + r * sinv % n * x) - k := by
  obtain ⟨N, hN⟩ : ∃ N : Nat, (N : Int) = n := ⟨n.toNat, Int.toNat_of_nonneg (by omega)⟩
  subst hN
  have cast_mod : ∀ a : Int, (((a % (N : Int) : Int)) : ZMod N) = (a : ZMod N) :=
    fun a => ZMod.intCast_mod a N
  have hk' : (k : ZMod N) * (kinv : ZMod N) = 1 := by
    have := congrArg (fun z : Int => (z : ZMod N)) hk
    simpa [cast_mod] using this
  have hb' : (b : ZMod N) * (binv : ZMod N) = 1 := by
    have := congrArg (fun z : Int => (z : ZMod N)) hb
    simpa [cast_mod] using this
  have hsi' : (s : ZMod N) * (sinv : ZMod N) = 1 := by
    have := congrArg (fun z : Int => (z : ZMod N)) hsi
    simpa [cast_mod] using this
  have hs' : (s : ZMod N) =
      ((b : ZMod N) * e + b * x * r) * kinv * binv := by
    have := congrArg (fun z : Int => (z : ZMod N)) hs
    simpa [cast_mod] using this
  have goal : (((e * sinv % (N : Int) + r * sinv % (N : Int) * x) - k : Int) : ZMod N) = 0 := by
    push_cast
    linear_combination
      (-(((e : ZMod N) + x * r) * sinv * b * binv)) * hk' - ((e : ZMod N) + x * r) * sinv * hb' -
        (k : ZMod N) * sinv * hs' + (k : ZMod N) * hsi'
  exact (ZMod.intCast_zmod_eq_zero_iff_dvd _ N).1 goal

theorem zsmul_eq_of_dvd_sub {A : Type} [AddCommGroup A] (g : A) (n a b : Int)
    (hn : n • g = 0) (h : n ∣ a - b) : a • g = b • g := by
  obtain ⟨c, hc⟩ := h
  have : a = b + c * n := by rw [mul_comm, ← hc]; ring
  rw [this, add_smul, mul_smul, hn, smul_zero, add_zero]

/-- C1. Sign-then-verify: for every group whose generator `G` has prime order `n`
with `n G = O`, every private key `x` with public key `Q = x G` and every digest,
any signature `(r, s)` returned by `ecdsa_sign_sig` with the default
`ecdsa_sign_setup` — for every random tape, that is every choice of the nonces
`k` and of the blinding value `b` — makes `ecdsa_verify_sig` return 1, assuming
the scalar multiplications compute the group-law results (`ScalarMulLaw`).
(A signature is only returned when `n` has at least 80 bits.) -/
theorem ecdsa_sign_then_verify {A : Type} [AddCommGroup A] (key : EC_KEY) (group : EC_GROUP)
    (G : EC_POINT) (V : EC_POINT → Prop) (φ : EC_POINT → A) (xof : A → Int)
    (law : ScalarMulLaw group G V φ xof) (hg : key.group = some group)
    (hprime : Nat.Prime group.order.natAbs) (hord : group.order • φ G = 0)
    (x : Int) (hx : key.priv_key = some x) (Q : EC_POINT) (hQ : key.pub_key = some Q)
    (hQm : Q.meth = group.meth.id) (hQV : V Q) (hQφ : φ Q = x • φ G)
    (hsetup : key.meth.sign_setup = some ecdsa_sign_setup)
    (digest : List (Fin 256)) (tape tape' : Tape) (sig : ECDSA_SIG)
    (hsign : ecdsa_sign_sig digest none none key tape = (.ok sig, tape')) :
    80 ≤ BN_num_bits group.order ∧ ecdsa_verify_sig digest (some sig) (some key) = 1 := by
  unfold ecdsa_sign_sig at hsign
  cases he : ecdsa_prepare_digest digest key.toEC_KEY_DATA with
  | none => rw [he] at hsign; simp at hsign
  | some e =>
    rw [he] at hsign
    simp only at hsign
    obtain ⟨kinv, t1, t2, hsup, hc⟩ := ecdsa_sign_sig_loop_ok key e _ _ _ _ _ _ hsign
    rcases hsup with hsup | ⟨-, hset⟩
    · simp at hsup
    unfold ECDSA_sign_setup at hset
    rw [hsetup] at hset
    simp only at hset
    have hbits : 80 ≤ BN_num_bits group.order := by
      unfold ecdsa_sign_setup at hset
      rw [hg] at hset
      simp only [EC_GROUP_get0_order] at hset
      split at hset
      · simp at hset
      · split at hset
        · simp at hset
        · omega
    obtain ⟨k, P, hn, hki, hPm, hPV, hPφ, hPne, hr, hr0⟩ :=
      ecdsa_sign_setup_ok law key.toEC_KEY_DATA hg t1 t2 kinv sig.r hset
    obtain ⟨group', x', b, binv, hg', hx', hr1, hr2, hb1, hb2, hbi, hs, hs0⟩ :=
      ecdsa_compute_s_ok _ _ _ _ _ _ _ hc
    have hgg : group' = group := by
      rw [hg] at hg'
      exact (Option.some.inj hg').symm
    subst hgg
    have hxx : x' = x := by
      have h1 : key.priv_key = some x' := hx'
      rw [hx] at h1
      exact (Option.some.inj h1).symm
    subst hxx
    have hnpos : 0 < group'.order := by omega
    have hs1 : 1 ≤ sig.s := by
      have : 0 ≤ sig.s := by rw [hs]; exact Int.emod_nonneg _ (by omega)
      omega
    have hs2 : sig.s < group'.order := by rw [hs]; exact Int.emod_lt_of_pos _ hnpos
    obtain ⟨sinv, hsi⟩ := BN_mod_inverse_ct_prime sig.s group'.order hprime hnpos hs1 hs2
    have hkspec := ((BN_mod_inverse_ct_spec k group'.order hn).1 kinv hki).2.2
    have hbspec := ((BN_mod_inverse_ct_spec b group'.order hn).1 binv hbi).2.2
    have hsspec := ((BN_mod_inverse_ct_spec sig.s group'.order hn).1 sinv hsi).2.2
    have hcong := ecdsa_congruence group'.order e x' sig.r k kinv b binv sig.s sinv hn hkspec
      hbspec hsspec hs
    obtain ⟨R, hmul, hRm, hRV, hRφ⟩ := EC_POINT_mul_double_law law (EC_POINT_new group') Q rfl
      hQm hQV (e * sinv % group'.order) (sig.r * sinv % group'.order)
    have hRP : φ R = φ P := by
      rw [hRφ, hQφ, hPφ, ← mul_smul, ← add_smul]
      exact zsmul_eq_of_dvd_sub (φ G) group'.order _ _ hord hcong
    obtain ⟨y, haff⟩ := (EC_POINT_get_affine_coordinates_law law R hRm hRV).2
      (by rw [hRP]; exact hPne)
    refine ⟨hbits, ?_⟩
    rw [ecdsa_verify_sig_accept_iff digest sig key group' Q hg hQ]
    refine ⟨hr1, hr2, hs1, hs2, e, sinv, R, xof (φ R), y, he, hsi, hmul,
      EC_POINT_get_affine_coordinates_ok group' R _ _ haff, haff, ?_⟩
    rw [hRP, ← hr]

/-! ### The modular method computes the group-law results -/

theorem zmod_scalar_law (id q : Nat) (hq : 1 < q) :
    ScalarMulLaw (zmod_group id q) (zmod_generator id) (zmod_valid q) (zmod_repr q)
      (fun a => (a.val : Int)) := by
  have hne : NeZero q := ⟨by omega⟩
  have hvalid : ∀ r x, zmod_valid q (zmod_point q r x) := by
    intro r x
    unfold zmod_valid zmod_point
    simp only
    intro hz
    by_cases h : x % (q : Int) = 0
    · simp [h] at hz
    · rw [Int.emod_emod_of_dvd _ (dvd_refl _)]
      exact h
  have hG : zmod_repr q (zmod_generator id) = 1 := by
    simp [zmod_repr, zmod_value, zmod_generator]
  refine ⟨rfl, ⟨_, rfl, ?_⟩, by simp [zmod_group, zmod_method], ⟨_, rfl, ?_⟩, ?_, ⟨_, rfl, ?_⟩⟩
  · intro r k hr
    refine ⟨_, rfl, hr, hvalid _ _, ?_⟩
    rw [zmod_repr_point, hG]
    simp [zmod_value, zmod_generator]
  · intro r u v P hr _ _
    refine ⟨_, rfl, hr, hvalid _ _, ?_⟩
    rw [zmod_repr_point, hG]
    simp [zmod_value, zmod_generator, zmod_repr]
  · intro p _ hV
    unfold zmod_repr zmod_value
    by_cases hz : p.Z = 0
    · simp [hz]
    · simp only [hz, if_false, false_iff]
      rw [ZMod.intCast_zmod_eq_zero_iff_dvd]
      intro hdvd
      exact hV hz (Int.emod_eq_zero_of_dvd hdvd)
  · intro p _ _ hz
    refine ⟨0, ?_⟩
    simp only [zmod_repr, zmod_value, hz, if_false]
    rw [ZMod.val_intCast]

theorem q89_prime : Nat.Prime q89 := by
  have h : (mersenne 89).Prime := lucas_lehmer_sufficiency _ (by norm_num) (by norm_num)
  have e : mersenne 89 = q89 := by norm_num [mersenne, q89]
  rwa [e] at h

/-- C1 on the group of the integers modulo the prime `2^89 - 1`: signing
`digest32` with private key `12345` on the tape `[5, 7]` returns the signature
`(5, 371865582113459934139632082)`, and that signature verifies. -/
theorem ecdsa_sign_then_verify_witness :
    ecdsa_sign_sig digest32 none none key89 [5, 7] =
      (.ok { r := 5, s := 371865582113459934139632082 }, []) ∧
    80 ≤ BN_num_bits (zmod_group 1 q89).order ∧
    ecdsa_verify_sig digest32 (some { r := 5, s := 371865582113459934139632082 })
      (some key89) = 1 :=
  ⟨rfl, ecdsa_sign_then_verify key89 (zmod_group 1 q89) (zmod_generator 1) (zmod_valid q89)
    (zmod_repr q89) (fun a => (a.val : Int)) (zmod_scalar_law 1 q89 (by decide)) rfl
    q89_prime
    (by
      show ((q89 : Nat) : Int) • zmod_repr q89 (zmod_generator 1) = 0
      rw [natCast_zsmul]
      simp)
    12345 rfl (zmod_point q89 (zmod_generator 1) 12345) rfl rfl
    (by
      unfold zmod_valid zmod_point
      decide)
    (by
      rw [zmod_repr_point]
      simp [zmod_repr, zmod_value, zmod_generator])
    rfl digest32 [5, 7] [] { r := 5, s := 371865582113459934139632082 } rfl⟩

/-! ### Comparing groups (`EC_GROUP_cmp`) -/

/-- C12 fails as stated: the groups of the integers modulo 11 and modulo 13 are
different curves that share one method table, and a point created for the first
is accepted together with the second group and its points by `EC_POINT_add`,
`EC_POINT_dbl`, `EC_POINT_cmp` and `EC_POINT_copy`: none reports incompatible
objects. -/
theorem EC_POINT_ops_across_curves :
    field_group_11.field ≠ field_group_13.field ∧
    point_of_11.meth = (EC_POINT_new field_group_11).meth ∧
    point_of_13.meth = (EC_POINT_new field_group_13).meth ∧
    EC_POINT_add field_group_13 point_of_13 point_of_11 point_of_13 =
      .ok (zmod_point 13 point_of_13 12) ∧
    EC_POINT_dbl field_group_13 point_of_13 point_of_11 = .ok (zmod_point 13 point_of_13 10) ∧
    EC_POINT_cmp field_group_13 point_of_11 point_of_13 = 1 ∧
    EC_POINT_cmp_error field_group_13 point_of_11 point_of_13 = none ∧
    EC_POINT_copy point_of_13 point_of_11 = .ok { point_of_13 with X := 5 } :=
  ⟨by decide, rfl, rfl, rfl, rfl, by decide, by decide, rfl⟩

/-- C12, amended: the wrappers compare method tables, not curves.  When the
slot is present and one of the compared method addresses differs,
`EC_POINT_add`, `EC_POINT_dbl` and `EC_POINT_cmp` fail with
`EC_R_INCOMPATIBLE_OBJECTS` (`EC_POINT_cmp` returning `-1`); `EC_POINT_copy`
fails so when the two points differ in method; when the slot is `NULL` the
reason is `ERR_R_SHOULD_NOT_HAVE_BEEN_CALLED` instead; and when all compared
method addresses agree the slot is entered (the copy is made), whatever curves
the objects belong to. -/
theorem EC_POINT_method_mismatch (group : EC_GROUP) (r a b : EC_POINT) :
    (group.meth.add ≠ none →
      (group.meth.id ≠ r.meth ∨ group.meth.id ≠ a.meth ∨ group.meth.id ≠ b.meth) →
      EC_POINT_add group r a b = .error .EC_R_INCOMPATIBLE_OBJECTS) ∧
    (group.meth.dbl ≠ none → (group.meth.id ≠ r.meth ∨ r.meth ≠ a.meth) →
      EC_POINT_dbl group r a = .error .EC_R_INCOMPATIBLE_OBJECTS) ∧
    (group.meth.point_cmp ≠ none → (group.meth.id ≠ a.meth ∨ a.meth ≠ b.meth) →
      EC_POINT_cmp group a b = -1 ∧
        EC_POINT_cmp_error group a b = some .EC_R_INCOMPATIBLE_OBJECTS) ∧
    (r.meth ≠ a.meth → EC_POINT_copy r a = .error .EC_R_INCOMPATIBLE_OBJECTS) ∧
    (group.meth.add = none →
      EC_POINT_add group r a b = .error .ERR_R_SHOULD_NOT_HAVE_BEEN_CALLED) ∧
    (group.meth.dbl = none →
      EC_POINT_dbl group r a = .error .ERR_R_SHOULD_NOT_HAVE_BEEN_CALLED) ∧
    (group.meth.point_cmp = none → EC_POINT_cmp group a b = -1 ∧
      EC_POINT_cmp_error group a b = some .ERR_R_SHOULD_NOT_HAVE_BEEN_CALLED) ∧
    (∀ f, group.meth.add = some f → group.meth.id = r.meth → group.meth.id = a.meth →
      group.meth.id = b.meth → EC_POINT_add group r a b = f group.toEC_GROUP_DATA r a b) ∧
    (∀ f, group.meth.dbl = some f → group.meth.id = r.meth → r.meth = a.meth →
      EC_POINT_dbl group r a = f group.toEC_GROUP_DATA r a) ∧
    (∀ f, group.meth.point_cmp = some f → group.meth.id = a.meth → a.meth = b.meth →
      EC_POINT_cmp group a b = f group.toEC_GROUP_DATA a b ∧
        EC_POINT_cmp_error group a b = none) ∧
    (r.meth = a.meth →
      EC_POINT_copy r a = .ok { r with X := a.X, Y := a.Y, Z := a.Z, Z_is_one := a.Z_is_one }) := by
  refine ⟨?_, ?_, ?_, ?_, ?_, ?_, ?_, ?_, ?_, ?_, ?_⟩
  · intro hs hm
    unfold EC_POINT_add
    cases h : group.meth.add with
    | none => exact absurd h hs
    | some f => simp only [ne_eq] at hm ⊢; rw [if_pos hm]
  · intro hs hm
    unfold EC_POINT_dbl
    cases h : group.meth.dbl with
    | none => exact absurd h hs
    | some f => simp only [ne_eq] at hm ⊢; rw [if_pos hm]
  · intro hs hm
    unfold EC_POINT_cmp EC_POINT_cmp_error
    cases h : group.meth.point_cmp with
    | none => exact absurd h hs
    | some f => simp only [ne_eq] at hm ⊢; rw [if_pos hm, if_pos hm]; exact ⟨rfl, rfl⟩
  · intro hm
    unfold EC_POINT_copy
    rw [if_pos hm]
  · intro hs
    unfold EC_POINT_add
    rw [hs]
  · intro hs
    unfold EC_POINT_dbl
    rw [hs]
  · intro hs
    unfold EC_POINT_cmp EC_POINT_cmp_error
    rw [hs]
    exact ⟨rfl, rfl⟩
  · intro f hs h1 h2 h3
    unfold EC_POINT_add
    rw [hs]
    have hn : ¬ (group.meth.id ≠ r.meth ∨ group.meth.id ≠ a.meth ∨ group.meth.id ≠ b.meth) := by
      rintro (h | h | h)
      · exact h h1
      · exact h h2
      · exact h h3
    simp only [if_neg hn]
  · intro f hs h1 h2
    unfold EC_POINT_dbl
    rw [hs]
    have hn : ¬ (group.meth.id ≠ r.meth ∨ r.meth ≠ a.meth) := by
      rintro (h | h)
      · exact h h1
      · exact h h2
    simp only [if_neg hn]
  · intro f hs h1 h2
    unfold EC_POINT_cmp EC_POINT_cmp_error
    rw [hs]
    have hn : ¬ (group.meth.id ≠ a.meth ∨ a.meth ≠ b.meth) := by
      rintro (h | h)
      · exact h h1
      · exact h h2
    simp only [if_neg hn, and_self]
  · intro hm
    unfold EC_POINT_copy
    simp only [ne_eq, hm, not_true_eq_false, if_false]

/-- C12, amended, on concrete objects: a point of method 2 is rejected by the
group of method 1 and by its points. -/
theorem EC_POINT_method_mismatch_witness :
    EC_POINT_add field_group_13 point_of_13 { point_of_11 with meth := 2 } point_of_13 =
      .error .EC_R_INCOMPATIBLE_OBJECTS ∧
    EC_POINT_dbl field_group_13 point_of_13 { point_of_11 with meth := 2 } =
      .error .EC_R_INCOMPATIBLE_OBJECTS ∧
    EC_POINT_cmp field_group_13 { point_of_11 with meth := 2 } point_of_13 = -1 ∧
    EC_POINT_copy point_of_13 { point_of_11 with meth := 2 } =
      .error .EC_R_INCOMPATIBLE_OBJECTS :=
  ⟨(EC_POINT_method_mismatch field_group_13 point_of_13 { point_of_11 with meth := 2 }
      point_of_13).1 (by simp [field_group_13, field_method, bare_method]) (by decide),
    (EC_POINT_method_mismatch field_group_13 point_of_13 { point_of_11 with meth := 2 }
      point_of_13).2.1 (by simp [field_group_13, field_method, bare_method]) (by decide),
    ((EC_POINT_method_mismatch field_group_13 point_of_13 { point_of_11 with meth := 2 }
      point_of_13).2.2.1 (by simp [field_group_13, field_method, bare_method])
      (by decide)).1,
    (EC_POINT_method_mismatch field_group_13 point_of_13 { point_of_11 with meth := 2 }
      point_of_13).2.2.2.1 (by decide)⟩

/-! ### Failure of `EC_GROUP_set_generator` -/

/-- C13 fails as stated: on the group of the integers modulo 11 (generator `1`,
order 11, cofactor 1) a call with the generator `5`, the order 7 and the
negative cofactor `-1` fails with `EC_R_UNKNOWN_COFACTOR`, and afterwards the
group holds the new generator, the new order and the cofactor 0. -/
theorem EC_GROUP_set_generator_not_atomic :
    (EC_GROUP_set_generator field_group_11 (some point_of_11) (some 7) (some (-1))).1 =
      .error .EC_R_UNKNOWN_COFACTOR ∧
    field_group_11.generator = some (zmod_generator 1) ∧ field_group_11.order = 11 ∧
    field_group_11.cofactor = 1 ∧
    (EC_GROUP_set_generator field_group_11 (some point_of_11) (some 7)
      (some (-1))).2.generator = some point_of_11 ∧
    (EC_GROUP_set_generator field_group_11 (some point_of_11) (some 7) (some (-1))).2.order = 7 ∧
    (EC_GROUP_set_generator field_group_11 (some point_of_11) (some 7)
      (some (-1))).2.cofactor = 0 :=
  ⟨rfl, rfl, rfl, rfl, rfl, rfl, rfl⟩

/-- Every failure of `EC_GROUP_set_generator` leaves the group unchanged, or
unchanged but for a fresh zeroed generator, or with the new generator and order
stored and the cofactor zeroed. -/
theorem EC_GROUP_set_generator_failure_cases (group group' : EC_GROUP)
    (generator : Option EC_POINT) (order cofactor : Option Int) (e : ErrorReason)
    (h : EC_GROUP_set_generator group generator order cofactor = (.error e, group')) :
    group' = group ∨
    (e = .EC_R_INCOMPATIBLE_OBJECTS ∧ group.generator = none ∧
      group' = { group with generator := some (EC_POINT_new group) }) ∨
    (∃ G n c, generator = some G ∧ order = some n ∧ cofactor = some c ∧
      group' = { group with generator := some G, order := n, cofactor := 0 } ∧
      ((c < 0 ∧ e = .EC_R_UNKNOWN_COFACTOR) ∨
        (0 < c ∧ BN_num_bits c > BN_num_bits group.field + 1 ∧
          e = .EC_R_INVALID_GROUP_ORDER))) := by
  cases generator with
  | none =>
    simp only [EC_GROUP_set_generator, Prod.mk.injEq] at h
    exact Or.inl h.2.symm
  | some G =>
    by_cases hp : 1 ≤ group.field
    swap
    · have h1 : BN_is_zero group.field = true ∨ BN_is_negative group.field = true := by
        simp only [BN_is_zero, BN_is_negative, decide_eq_true_eq]; omega
      simp only [EC_GROUP_set_generator, h1, if_true, Prod.mk.injEq] at h
      exact Or.inl h.2.symm
    have h1 : ¬ (BN_is_zero group.field = true ∨ BN_is_negative group.field = true) := by
      simp only [BN_is_zero, BN_is_negative, decide_eq_true_eq]; omega
    cases order with
    | none =>
      simp only [EC_GROUP_set_generator, h1, if_false, Prod.mk.injEq] at h
      exact Or.inl h.2.symm
    | some n =>
      by_cases hv : BN_cmp n BN_value_one ≤ 0 ∨ BN_num_bits n > BN_num_bits group.field + 1
      · simp only [EC_GROUP_set_generator, h1, hv, if_false, if_true, Prod.mk.injEq] at h
        exact Or.inl h.2.symm
      have hn : 1 < n := by
        by_contra hn
        apply hv
        left
        unfold BN_cmp BN_value_one
        split_ifs <;> omega
      have hb : BN_num_bits n ≤ BN_num_bits group.field + 1 := by
        by_contra hb
        exact hv (Or.inr (by omega))
      by_cases hG : G.meth = generator_slot_meth group
      · rw [EC_GROUP_set_generator_valid group G n cofactor hG hp hn hb] at h
        by_cases hc : cofactor = none ∨ cofactor = some 0
        · rw [ec_set_cofactor_infer { group with generator := some G, order := n } cofactor
            hc hp hn hb] at h
          simp at h
        · cases cofactor with
          | none => exact absurd (Or.inl rfl) hc
          | some c =>
            have hc0 : c ≠ 0 := fun h0 => hc (Or.inr (by rw [h0]))
            rw [ec_set_cofactor_supplied _ c hc0] at h
            refine Or.inr (Or.inr ⟨G, n, c, rfl, rfl, rfl, ?_⟩)
            by_cases hneg : c < 0
            · rw [if_pos hneg] at h
              simp only [Prod.mk.injEq, Except.error.injEq] at h
              exact ⟨h.2.symm, Or.inl ⟨hneg, h.1.symm⟩⟩
            · rw [if_neg hneg] at h
              by_cases hbig : BN_num_bits c > BN_num_bits group.field + 1
              · have hbig' : BN_num_bits c >
                    BN_num_bits ({ group with generator := some G, order := n } : EC_GROUP).field
                      + 1 := hbig
                rw [if_pos hbig'] at h
                simp only [Prod.mk.injEq, Except.error.injEq] at h
                exact ⟨h.2.symm, Or.inr ⟨by omega, hbig, h.1.symm⟩⟩
              · have hbig' : ¬ BN_num_bits c >
                    BN_num_bits ({ group with generator := some G, order := n } : EC_GROUP).field
                      + 1 := hbig
                rw [if_neg hbig'] at h
                simp at h
      · unfold generator_slot_meth at hG
        unfold EC_GROUP_set_generator at h
        simp only [h1, hv, if_false] at h
        cases hg : group.generator with
        | none =>
          rw [hg] at hG h
          simp only at hG
          have hne : ¬ (EC_POINT_new group).meth = G.meth := fun h' => hG h'.symm
          simp only [EC_POINT_copy, ne_eq, hne, not_false_eq_true, if_true, Prod.mk.injEq,
            Except.error.injEq] at h
          exact Or.inr (Or.inl ⟨h.1.symm, rfl, h.2.symm⟩)
        | some d =>
          rw [hg] at hG h
          simp only at hG
          have hne : ¬ d.meth = G.meth := fun h' => hG h'.symm
          simp only [hg, EC_POINT_copy, ne_eq, hne, not_false_eq_true, if_true, Prod.mk.injEq,
            Except.error.injEq] at h
          exact Or.inl h.2.symm

/-- C13, amended: which failure of `EC_GROUP_set_generator` leaves which state.
A failure of an argument check leaves the group unchanged: a null generator
(`ERR_R_PASSED_NULL_PARAMETER`), a field `p ≤ 0` (`EC_R_INVALID_FIELD`), a null
order, an order `n ≤ 1` or an order of more than `bits p + 1` bits
(`EC_R_INVALID_GROUP_ORDER`), and, with field and order valid, a generator
incompatible with the stored generator (`EC_R_INCOMPATIBLE_OBJECTS`).  With
field and order valid, a generator incompatible with a group that has none
leaves the order and the cofactor unchanged and a fresh zeroed point in the
generator slot.  With field, order and generator valid, a supplied cofactor that
is negative (`EC_R_UNKNOWN_COFACTOR`) or positive with more than `bits p + 1`
bits (`EC_R_INVALID_GROUP_ORDER`) fails after the new generator and order are
stored and the cofactor is zeroed, and the group keeps the new generator, the
new order and the cofactor 0; every other cofactor succeeds.  Every failure is
one of these. -/
theorem EC_GROUP_set_generator_failure_state (group : EC_GROUP) (G : EC_POINT)
    (order cofactor : Option Int) :
    EC_GROUP_set_generator group none order cofactor =
      (.error .ERR_R_PASSED_NULL_PARAMETER, group) ∧
    (group.field ≤ 0 → EC_GROUP_set_generator group (some G) order cofactor =
      (.error .EC_R_INVALID_FIELD, group)) ∧
    (1 ≤ group.field →
      (order = none ∨
        ∃ n, order = some n ∧ (n ≤ 1 ∨ BN_num_bits n > BN_num_bits group.field + 1)) →
      EC_GROUP_set_generator group (some G) order cofactor =
        (.error .EC_R_INVALID_GROUP_ORDER, group)) ∧
    (∀ n, 1 ≤ group.field → order = some n → 1 < n →
      BN_num_bits n ≤ BN_num_bits group.field + 1 →
      (∀ d, group.generator = some d → d.meth ≠ G.meth →
        EC_GROUP_set_generator group (some G) order cofactor =
          (.error .EC_R_INCOMPATIBLE_OBJECTS, group)) ∧
      (group.generator = none → G.meth ≠ group.meth.id →
        EC_GROUP_set_generator group (some G) order cofactor =
          (.error .EC_R_INCOMPATIBLE_OBJECTS,
            { group with generator := some (EC_POINT_new group) })) ∧
      (G.meth = generator_slot_meth group → ∀ c, cofactor = some c →
        (c < 0 → EC_GROUP_set_generator group (some G) order cofactor =
          (.error .EC_R_UNKNOWN_COFACTOR,
            { group with generator := some G, order := n, cofactor := 0 })) ∧
        (0 < c → BN_num_bits c > BN_num_bits group.field + 1 →
          EC_GROUP_set_generator group (some G) order cofactor =
            (.error .EC_R_INVALID_GROUP_ORDER,
              { group with generator := some G, order := n, cofactor := 0 })) ∧
        (0 < c → BN_num_bits c ≤ BN_num_bits group.field + 1 →
          EC_GROUP_set_generator group (some G) order cofactor =
            (.ok (), { group with generator := some G, order := n, cofactor := c }))) ∧
      (G.meth = generator_slot_meth group → (cofactor = none ∨ cofactor = some 0) →
        EC_GROUP_set_generator group (some G) order cofactor =
          (.ok (), { group with generator := some G, order := n,
                                cofactor := spec_inferred_cofactor group.field n }))) ∧
    (∀ (generator : Option EC_POINT) (e : ErrorReason) (group' : EC_GROUP),
      EC_GROUP_set_generator group generator order cofactor = (.error e, group') →
      group' = group ∨
      (e = .EC_R_INCOMPATIBLE_OBJECTS ∧ group.generator = none ∧
        group' = { group with generator := some (EC_POINT_new group) }) ∨
      (∃ G n c, generator = some G ∧ order = some n ∧ cofactor = some c ∧
        group' = { group with generator := some G, order := n, cofactor := 0 } ∧
        ((c < 0 ∧ e = .EC_R_UNKNOWN_COFACTOR) ∨
          (0 < c ∧ BN_num_bits c > BN_num_bits group.field + 1 ∧
            e = .EC_R_INVALID_GROUP_ORDER)))) := by
  refine ⟨rfl, ?_, ?_, ?_, ?_⟩
  · intro hp
    have h1 : BN_is_zero group.field = true ∨ BN_is_negative group.field = true := by
      simp only [BN_is_zero, BN_is_negative, decide_eq_true_eq]; omega
    simp only [EC_GROUP_set_generator, h1, if_true]
  · intro hp hord
    have h1 : ¬ (BN_is_zero group.field = true ∨ BN_is_negative group.field = true) := by
      simp only [BN_is_zero, BN_is_negative, decide_eq_true_eq]; omega
    rcases hord with hnone | ⟨n, hn, hbad⟩
    · subst hnone
      simp only [EC_GROUP_set_generator, h1, if_false]
    · subst hn
      have hv : BN_cmp n BN_value_one ≤ 0 ∨ BN_num_bits n > BN_num_bits group.field + 1 := by
        rcases hbad with h | h
        · left
          unfold BN_cmp BN_value_one
          split_ifs <;> omega
        · exact Or.inr h
      simp only [EC_GROUP_set_generator, h1, hv, if_false, if_true]
  · intro n hp hord hn hb
    subst hord
    have h1 : ¬ (BN_is_zero group.field = true ∨ BN_is_negative group.field = true) := by
      simp only [BN_is_zero, BN_is_negative, decide_eq_true_eq]; omega
    have hv : ¬ (BN_cmp n BN_value_one ≤ 0 ∨
        BN_num_bits n > BN_num_bits group.field + 1) := by
      unfold BN_cmp BN_value_one
      rw [if_neg (by omega), if_neg (by omega)]
      omega
    refine ⟨?_, ?_, ?_, ?_⟩
    · intro d hg hne
      unfold EC_GROUP_set_generator
      simp only [h1, hv, if_false, hg, EC_POINT_copy, ne_eq, hne, not_false_eq_true, if_true]
    · intro hg hne
      have hne' : ¬ (EC_POINT_new group).meth = G.meth := fun h' => hne h'.symm
      unfold EC_GROUP_set_generator
      simp only [h1, hv, if_false, hg, EC_POINT_copy, ne_eq, hne', not_false_eq_true, if_true]
    · intro hG c hc
      subst hc
      rw [EC_GROUP_set_generator_valid group G n (some c) hG hp hn hb]
      refine ⟨?_, ?_, ?_⟩
      · intro hneg
        rw [ec_set_cofactor_supplied _ c (by omega), if_pos hneg]
      · intro hpos hbig
        have hbig' : BN_num_bits c >
            BN_num_bits ({ group with generator := some G, order := n } : EC_GROUP).field
              + 1 := hbig
        rw [ec_set_cofactor_supplied _ c (by omega), if_neg (by omega), if_pos hbig']
      · intro hpos hsmall
        have hsmall' : ¬ BN_num_bits c >
            BN_num_bits ({ group with generator := some G, order := n } : EC_GROUP).field
              + 1 := by
          show ¬ BN_num_bits c > BN_num_bits group.field + 1
          omega
        rw [ec_set_cofactor_supplied _ c (by omega), if_neg (by omega), if_neg hsmall']
    · intro hG hc
      rw [EC_GROUP_set_generator_valid group G n cofactor hG hp hn hb]
      exact ec_set_cofactor_infer { group with generator := some G, order := n } cofactor
        hc hp hn hb
  · intro generator e group' h
    exact EC_GROUP_set_generator_failure_cases group group' generator order cofactor e h

/-- C13, amended, on the group of the integers modulo 11 (generator `1`, order
11, cofactor 1).  The negative cofactor `-1` and the cofactor `2^200` with the
valid order 7 both fail with the new generator `5`, the order 7 and the cofactor
0 stored; the same cofactor `2^200` with the invalid order 1 fails with the same
reason and leaves the group unchanged; a generator of another method leaves the
group unchanged, and leaves a fresh zeroed point when the group had no
generator. -/
theorem EC_GROUP_set_generator_failure_state_witness :
    EC_GROUP_set_generator field_group_11 (some point_of_11) (some 7) (some (-1)) =
      (.error .EC_R_UNKNOWN_COFACTOR,
        { field_group_11 with generator := some point_of_11, order := 7, cofactor := 0 }) ∧
    EC_GROUP_set_generator field_group_11 (some point_of_11) (some 7)
        (some 1606938044258990275541962092341162602522202993782792835301376) =
      (.error .EC_R_INVALID_GROUP_ORDER,
        { field_group_11 with generator := some point_of_11, order := 7, cofactor := 0 }) ∧
    EC_GROUP_set_generator field_group_11 (some point_of_11) (some 1)
        (some 1606938044258990275541962092341162602522202993782792835301376) =
      (.error .EC_R_INVALID_GROUP_ORDER, field_group_11) ∧
    EC_GROUP_set_generator field_group_11 (some { point_of_11 with meth := 2 }) (some 7)
        (some 1) =
      (.error .EC_R_INCOMPATIBLE_OBJECTS, field_group_11) ∧
    EC_GROUP_set_generator { field_group_11 with generator := none }
        (some { point_of_11 with meth := 2 }) (some 7) (some 1) =
      (.error .EC_R_INCOMPATIBLE_OBJECTS,
        { field_group_11 with generator := some (EC_POINT_new field_group_11) }) :=
  ⟨((EC_GROUP_set_generator_failure_state field_group_11 point_of_11 (some 7)
      (some (-1))).2.2.2.1 7 (by decide) rfl (by decide) (by decide)).2.2.1 rfl (-1) rfl |>.1
      (by decide),
    ((EC_GROUP_set_generator_failure_state field_group_11 point_of_11 (some 7)
      (some 1606938044258990275541962092341162602522202993782792835301376)).2.2.2.1 7
      (by decide) rfl (by decide) (by decide)).2.2.1 rfl
      1606938044258990275541962092341162602522202993782792835301376 rfl |>.2.1 (by decide)
      (by decide),
    (EC_GROUP_set_generator_failure_state field_group_11 point_of_11 (some 1)
      (some 1606938044258990275541962092341162602522202993782792835301376)).2.2.1
      (by decide) (Or.inr ⟨1, rfl, Or.inl (by decide)⟩),
    ((EC_GROUP_set_generator_failure_state field_group_11 { point_of_11 with meth := 2 }
      (some 7) (some 1)).2.2.2.1 7 (by decide) rfl (by decide) (by decide)).1
      (zmod_generator 1) rfl (by decide),
    ((EC_GROUP_set_generator_failure_state { field_group_11 with generator := none }
      { point_of_11 with meth := 2 } (some 7) (some 1)).2.2.2.1 7 (by decide) rfl (by decide)
      (by decide)).2.1 rfl (by decide)⟩

/-! ### The signing loop, instrumented -/

theorem ecdsa_sign_sig_loop_traced_fst (key : EC_KEY) (e : Int)
    (supplied : Option (Int × Int)) :
    ∀ (fuel attempts : Nat) (tape : Tape) (tr : SignTrace),
      (ecdsa_sign_sig_loop_traced key e supplied fuel attempts tape tr).1 =
        ecdsa_sign_sig_loop key e supplied fuel attempts tape := by
  intro fuel
  induction fuel with
  | zero => intro attempts tape tr; rfl
  | succ f ih =>
    intro attempts tape tr
    unfold ecdsa_sign_sig_loop_traced ecdsa_sign_sig_loop
    cases supplied with
    | some kr =>
      obtain ⟨kinv, r⟩ := kr
      simp only
      rcases hs : ecdsa_compute_s e kinv r key.toEC_KEY_DATA tape with ⟨res, tape'⟩
      rcases res with err | (_ | s)
      · rfl
      · simp
      · rfl
    | none =>
      simp only
      rcases hsu : ECDSA_sign_setup key tape with ⟨res, tape1⟩
      rcases res with err | ⟨kinv, r⟩
      · rfl
      · simp only
        rcases hs : ecdsa_compute_s e kinv r key.toEC_KEY_DATA tape1 with ⟨res, tape'⟩
        rcases res with err | (_ | s)
        · rfl
        · simp only [Option.isSome_none, Bool.false_eq_true, if_false]
          split_ifs
          · rfl
          · exact ih _ _ _
        · rfl

theorem ecdsa_sign_sig_traced_fst (digest : List (Fin 256)) (in_kinv in_r : Option Int)
    (key : EC_KEY) (tape : Tape) :
    (ecdsa_sign_sig_traced digest in_kinv in_r key tape).1 =
      ecdsa_sign_sig digest in_kinv in_r key tape := by
  unfold ecdsa_sign_sig_traced ecdsa_sign_sig
  cases ecdsa_prepare_digest digest key.toEC_KEY_DATA with
  | none => rfl
  | some e => exact ecdsa_sign_sig_loop_traced_fst _ _ _ _ _ _ _

/-! ### The byte-exact DER check (`ecdsa_verify`) -/

/-- C16: for every input, `ecdsa_verify` returns `-1` without calling
`ECDSA_do_verify` when the input does not parse, when re-encoding the parsed
signature fails, or when the re-encoding differs from the input in length or
in any octet; when the re-encoding equals the input, its result is that of
`ECDSA_do_verify` on the parsed signature.  The encoder is taken to return a
negative length on failure and otherwise the number of octets it wrote. -/
theorem ecdsa_verify_der_check (d2i : List (Fin 256) → Option ECDSA_SIG)
    (i2d : ECDSA_SIG → Int × List (Fin 256)) (digest sigbuf : List (Fin 256)) (key : EC_KEY)
    (hlen : ∀ s, (i2d s).1 < 0 ∨ (i2d s).1 = ((i2d s).2.length : Int)) :
    (d2i sigbuf = none → ecdsa_verify_traced d2i i2d digest sigbuf key = (-1, none)) ∧
    (∀ s, d2i sigbuf = some s → ((i2d s).1 < 0 ∨ (i2d s).2 ≠ sigbuf) →
      ecdsa_verify_traced d2i i2d digest sigbuf key = (-1, none)) ∧
    (∀ s, d2i sigbuf = some s → 0 ≤ (i2d s).1 → (i2d s).2 = sigbuf →
      ecdsa_verify_traced d2i i2d digest sigbuf key =
        (ECDSA_do_verify digest (some s) key, some s)) ∧
    ecdsa_verify d2i i2d digest sigbuf key =
      (ecdsa_verify_traced d2i i2d digest sigbuf key).1 := by
  refine ⟨?_, ?_, ?_, rfl⟩
  · intro h
    unfold ecdsa_verify_traced
    rw [h]
  · intro s h hne
    unfold ecdsa_verify_traced
    rw [h]
    simp only
    by_cases hl : (i2d s).1 = (sigbuf.length : Int)
    · rw [if_neg (by simpa using hl)]
      have hne' : (i2d s).2 ≠ sigbuf := by
        rcases hne with hneg | hne
        · omega
        · exact hne
      have hl2 : (i2d s).2.length = sigbuf.length := by
        rcases hlen s with h1 | h1
        · omega
        · omega
      have : timingsafe_memcmp sigbuf (i2d s).2 (i2d s).1.toNat ≠ 0 := by
        unfold timingsafe_memcmp
        rw [hl, Int.toNat_natCast, List.take_length, ← hl2, List.take_length,
          if_neg (fun h' => hne' h'.symm)]
        decide
      rw [if_pos this]
    · rw [if_pos (by simpa using hl)]
  · intro s h hpos he
    unfold ecdsa_verify_traced
    rw [h]
    simp only
    have hl : (i2d s).1 = (sigbuf.length : Int) := by
      rcases hlen s with h1 | h1
      · omega
      · rw [h1, he]
    rw [if_neg (by simpa using hl)]
    have : ¬ timingsafe_memcmp sigbuf (i2d s).2 (i2d s).1.toNat ≠ 0 := by
      unfold timingsafe_memcmp
      rw [he]
      simp
    rw [if_neg this]

/-- C16 on a codec in the manner of DER and the key on the integers modulo 11:
the canonical encoding of the valid signature `(1, 8)` is verified (result `1`),
the same octets followed by one more octet are rejected without a check, and so
is an input that does not parse. -/
theorem ecdsa_verify_der_check_witness :
    ecdsa_verify_traced toy_d2i toy_i2d [80] [0x30, 2, 1, 8] key11 =
      (1, some { r := 1, s := 8 }) ∧
    ecdsa_verify_traced toy_d2i toy_i2d [80] [0x30, 2, 1, 8, 0] key11 = (-1, none) ∧
    ecdsa_verify_traced toy_d2i toy_i2d [80] [0x31, 2, 1, 8] key11 = (-1, none) :=
  ⟨((ecdsa_verify_der_check toy_d2i toy_i2d [80] [0x30, 2, 1, 8] key11
      (fun _ => Or.inr rfl)).2.2.1 { r := 1, s := 8 } rfl (by decide) rfl).trans rfl,
    (ecdsa_verify_der_check toy_d2i toy_i2d [80] [0x30, 2, 1, 8, 0] key11
      (fun _ => Or.inr rfl)).2.1 { r := 1, s := 8 } rfl (Or.inr (by decide)),
    (ecdsa_verify_der_check toy_d2i toy_i2d [80] [0x31, 2, 1, 8] key11
      (fun _ => Or.inr rfl)).1 rfl⟩

/-! ### Caller-supplied setup values -/

/-- C17: when the caller supplies both `kinv` and `r` and `ecdsa_compute_s`
comes back with `s = 0`, `ecdsa_sign_sig` fails with
`ECDSA_R_NEED_NEW_SETUP_VALUES` and returns no signature, having called
`ecdsa_compute_s` once and `ECDSA_sign_setup` never; the random tape is the one
that single computation left. -/
theorem ecdsa_sign_sig_need_new_setup_values (digest : List (Fin 256)) (kinv r e : Int)
    (key : EC_KEY) (tape tape' : Tape)
    (he : ecdsa_prepare_digest digest key.toEC_KEY_DATA = some e)
    (hs : ecdsa_compute_s e kinv r key.toEC_KEY_DATA tape = (.ok none, tape')) :
    ecdsa_sign_sig_traced digest (some kinv) (some r) key tape =
      ((.error .ECDSA_R_NEED_NEW_SETUP_VALUES, tape'),
        { setups := 0, computes := 1, zeros := 1 }) ∧
    ecdsa_sign_sig digest (some kinv) (some r) key tape =
      (.error .ECDSA_R_NEED_NEW_SETUP_VALUES, tape') := by
  have h : ecdsa_sign_sig_traced digest (some kinv) (some r) key tape =
      ((.error .ECDSA_R_NEED_NEW_SETUP_VALUES, tape'),
        { setups := 0, computes := 1, zeros := 1 }) := by
    unfold ecdsa_sign_sig_traced
    rw [he]
    simp only [ECDSA_MAX_SIGN_ITERATIONS]
    unfold ecdsa_sign_sig_loop_traced
    simp only [hs, Option.isSome_some, if_true]
  refine ⟨h, ?_⟩
  rw [← ecdsa_sign_sig_traced_fst, h]

/-- C17 on the key on the integers modulo 11: with `e = 5`, private key `3` and
the caller's `(kinv, r) = (1, 2)` the value `s = 1 · (5 + 3 · 2) mod 11` is 0. -/
theorem ecdsa_sign_sig_need_new_setup_values_witness :
    ecdsa_sign_sig_traced [80] (some 1) (some 2) key11 [1] =
      ((.error .ECDSA_R_NEED_NEW_SETUP_VALUES, []),
        { setups := 0, computes := 1, zeros := 1 }) ∧
    ecdsa_sign_sig [80] (some 1) (some 2) key11 [1] =
      (.error .ECDSA_R_NEED_NEW_SETUP_VALUES, []) :=
  ecdsa_sign_sig_need_new_setup_values [80] 1 2 5 key11 [1] [] rfl rfl

/-! ### The cap on signing rounds -/

/-- C19 fails as stated: on the group of the integers modulo 11, whose order
has 4 bits, `ecdsa_sign_sig` with the caller's `(kinv, r) = (1, 1)` returns the
signature `(1, 8)`. -/
theorem ecdsa_sign_sig_short_order_supplied :
    BN_num_bits (zmod_group 1 11).order = 4 ∧ key11.group = some (zmod_group 1 11) ∧
    ecdsa_sign_sig [80] (some 1) (some 1) key11 [1] = (.ok { r := 1, s := 8 }, []) :=
  ⟨by decide, rfl, rfl⟩

/-- C19, amended: the requirement of 80 bits is that of `ecdsa_sign_setup`.
For every key whose group order has fewer than 80 bits and whose `sign_setup` is
`ecdsa_sign_setup`, `ecdsa_sign_sig` without both caller values returns no
signature, whatever the digest: it fails with `ERR_R_ECDSA_LIB` at the first
call of `ECDSA_sign_setup`, before any random value is drawn. -/
theorem ecdsa_sign_sig_short_order (digest : List (Fin 256)) (in_kinv in_r : Option Int)
    (key : EC_KEY) (group : EC_GROUP) (tape : Tape) (hg : key.group = some group)
    (hbits : BN_num_bits group.order < 80)
    (hsetup : key.meth.sign_setup = some ecdsa_sign_setup)
    (hint : in_kinv = none ∨ in_r = none) :
    ecdsa_sign_sig digest in_kinv in_r key tape = (.error .ERR_R_ECDSA_LIB, tape) := by
  obtain ⟨e, he⟩ := ecdsa_prepare_digest_some digest key.toEC_KEY_DATA group hg
  have hs : ECDSA_sign_setup key tape = (.error .EC_R_INVALID_GROUP_ORDER, tape) := by
    unfold ECDSA_sign_setup
    rw [hsetup]
    simp only
    unfold ecdsa_sign_setup
    rw [hg]
    simp only [EC_GROUP_get0_order]
    split_ifs
    · rfl
    · rfl
  have hloop : ecdsa_sign_sig_loop key e none (ECDSA_MAX_SIGN_ITERATIONS + 1) 0 tape =
      (.error .ERR_R_ECDSA_LIB, tape) := by
    simp only [ECDSA_MAX_SIGN_ITERATIONS]
    unfold ecdsa_sign_sig_loop
    simp only [hs]
  unfold ecdsa_sign_sig
  rw [he]
  rcases hint with h | h
  · subst h
    exact hloop
  · subst h
    cases in_kinv <;> exact hloop

/-- C19, amended, on the key on the integers modulo 11. -/
theorem ecdsa_sign_sig_short_order_witness :
    ecdsa_sign_sig [80] none none key11 [1, 1] = (.error .ERR_R_ECDSA_LIB, [1, 1]) :=
  ecdsa_sign_sig_short_order [80] none none key11 (zmod_group 1 11) [1, 1] rfl (by decide) rfl
    (Or.inl rfl)

/-! ### Retries on `r = 0` -/

theorem digits_value_eq_sum (ds : List Int) :
    digits_value ds = Finset.sum (Finset.range ds.length) (fun i => ds.getD i 0 * 2 ^ i) := by
  induction ds with
  | nil => simp [digits_value]
  | cons d ds ih =>
    rw [digits_value, ih, List.length_cons, Finset.sum_range_succ', Finset.mul_sum]
    simp only [List.getD_cons_succ, List.getD_cons_zero, pow_zero, mul_one]
    rw [add_comm]
    congr 1
    apply Finset.sum_congr rfl
    intro i _
    rw [pow_succ]
    ring

theorem BN_num_bits_neg (s : Int) : BN_num_bits (-s) = BN_num_bits s := by
  unfold BN_num_bits
  rw [Int.natAbs_neg]

theorem BN_is_bit_set_neg (s : Int) (j : Nat) : BN_is_bit_set (-s) j = BN_is_bit_set s j := by
  rw [BN_is_bit_set_eq, BN_is_bit_set_eq, Int.natAbs_neg]

theorem ec_window_bits_neg (s : Int) : ec_window_bits (-s) = ec_window_bits s := by
  unfold ec_window_bits
  rw [BN_num_bits_neg]

/-- Negating the sign negates every digit. -/
theorem wNAF_digits_neg (bn bn' : Int) (w : Nat) (hw : 1 ≤ w) (hw6 : w ≤ 6) (sign : Int)
    (hsign : sign = 1 ∨ sign = -1)
    (hbits : ∀ j, BN_is_bit_set bn' j = BN_is_bit_set bn j) :
    ∀ count i window, window ≤ 2 ^ (w + 1) →
      wNAF_digits bn' w (-sign) (2 ^ w) (2 ^ (w + 1)) count i window =
        (wNAF_digits bn w sign (2 ^ w) (2 ^ (w + 1)) count i window).map (fun d => -d) := by
  have h64 : 2 ^ w ≤ 64 := by
    have : (2 : Nat) ^ w ≤ 2 ^ 6 := Nat.pow_le_pow_right (by norm_num) hw6
    simpa using this
  intro count
  induction count with
  | zero => intro i window _; rfl
  | succ c ih =>
    intro i window hwin
    obtain ⟨h1, h2, -, -⟩ := wNAF_step bn w i window hw hwin
    have hslide : wNAF_slide bn' w (2 ^ w) i window (wNAF_digit window (2 ^ w) (2 ^ (w + 1))) =
        wNAF_slide bn w (2 ^ w) i window (wNAF_digit window (2 ^ w) (2 ^ (w + 1))) := by
      unfold wNAF_slide
      rw [hbits]
    have habs : (sign * wNAF_digit window (2 ^ w) (2 ^ (w + 1))).natAbs =
        (wNAF_digit window (2 ^ w) (2 ^ (w + 1))).natAbs := by
      rcases hsign with rfl | rfl <;> simp
    have hsmall : (sign * wNAF_digit window (2 ^ w) (2 ^ (w + 1))).natAbs < 128 := by
      rw [habs]
      rcases h2 with h2 | ⟨-, h2⟩
      · rw [h2]; simp
      · omega
    have hsmall' : (-sign * wNAF_digit window (2 ^ w) (2 ^ (w + 1))).natAbs < 128 := by
      rw [neg_mul, Int.natAbs_neg]
      exact hsmall
    simp only [wNAF_digits, List.map_cons]
    rw [hslide, ih (i + 1) _ h1, to_signed_char_eq _ hsmall, to_signed_char_eq _ hsmall']
    congr 1
    ring

/-- How the window slides: after a non-zero digit it is a multiple of `2 ^ w`,
and an even window gives the digit zero and loses one factor two. -/
theorem wNAF_slide_dvd (bn : Int) (w i window : Nat) (hwin : window ≤ 2 ^ (w + 1)) :
    (wNAF_digit window (2 ^ w) (2 ^ (w + 1)) ≠ 0 →
      2 ^ w ∣ wNAF_slide bn w (2 ^ w) i window (wNAF_digit window (2 ^ w) (2 ^ (w + 1)))) ∧
    (∀ k, k ≤ w → 2 ^ (k + 1) ∣ window →
      wNAF_digit window (2 ^ w) (2 ^ (w + 1)) = 0 ∧
      2 ^ k ∣ wNAF_slide bn w (2 ^ w) i window (wNAF_digit window (2 ^ w) (2 ^ (w + 1)))) := by
  have hodd : ∀ k, 2 ^ (k + 1) ∣ window → window % 2 = 0 := by
    intro k hk
    have : 2 ∣ window := Dvd.dvd.trans (Dvd.intro_left (2 ^ k) (by rw [pow_succ])) hk
    omega
  rcases wNAF_digit_cases w window hwin with ⟨h0, hd⟩ | ⟨h1, hlt, hd⟩ | ⟨h1, hge, hlt, hd⟩
  · refine ⟨fun h => absurd hd h, fun k hk hdvd => ⟨hd, ?_⟩⟩
    rw [hd]
    unfold wNAF_slide
    simp only [sub_zero, Int.toNat_ofNat, Nat.shiftRight_eq_div_pow, pow_one]
    apply Dvd.dvd.add
    · obtain ⟨c, hc⟩ := hdvd
      refine ⟨c, ?_⟩
      rw [hc, pow_succ, mul_assoc, mul_comm 2 c, ← mul_assoc, Nat.mul_div_cancel _ (by norm_num)]
    · exact Dvd.dvd.mul_right (pow_dvd_pow 2 hk) _
  · refine ⟨fun _ => ?_, fun k _ hdvd => by have := hodd k hdvd; omega⟩
    rw [hd]
    unfold wNAF_slide
    simp
  · refine ⟨fun _ => ?_, fun k _ hdvd => by have := hodd k hdvd; omega⟩
    rw [hd]
    unfold wNAF_slide
    have e : ((window : Int) - ((window : Int) - ((2 ^ (w + 1) : Nat) : Int))).toNat =
        2 ^ (w + 1) := by
      rw [sub_sub_cancel, Int.toNat_ofNat]
    rw [e, Nat.shiftRight_eq_div_pow, pow_one, pow_succ, Nat.mul_div_cancel _ (by norm_num)]
    exact Dvd.dvd.add (dvd_refl _) (Dvd.intro _ rfl)

/-- A window that is a multiple of `2 ^ k` starts with `k` zero digits, and a
non-zero digit is followed by `w` zero digits. -/
theorem wNAF_digits_non_adjacent (bn : Int) (w : Nat) (hw : 1 ≤ w) (sign : Int) :
    ∀ count i window, window ≤ 2 ^ (w + 1) →
      (∀ k, k ≤ w + 1 → 2 ^ k ∣ window → ∀ j, j < k →
        (wNAF_digits bn w sign (2 ^ w) (2 ^ (w + 1)) count i window).getD j 0 = 0) ∧
      (∀ a b, a < b → b ≤ a + w →
        (wNAF_digits bn w sign (2 ^ w) (2 ^ (w + 1)) count i window).getD a 0 ≠ 0 →
        (wNAF_digits bn w sign (2 ^ w) (2 ^ (w + 1)) count i window).getD b 0 = 0) := by
  intro count
  induction count with
  | zero =>
    intro i window _
    simp [wNAF_digits]
  | succ c ih =>
    intro i window hwin
    obtain ⟨h1, -, -, -⟩ := wNAF_step bn w i window hw hwin
    obtain ⟨hs1, hs2⟩ := wNAF_slide_dvd bn w i window hwin
    obtain ⟨ih1, ih2⟩ := ih (i + 1) _ h1
    simp only [wNAF_digits]
    refine ⟨?_, ?_⟩
    · intro k hk hdvd j hj
      obtain ⟨k', rfl⟩ : ∃ k', k = k' + 1 := ⟨k - 1, by omega⟩
      obtain ⟨hd0, hdvd'⟩ := hs2 k' (by omega) hdvd
      cases j with
      | zero =>
        rw [List.getD_cons_zero, hd0]
        simp [to_signed_char]
      | succ j' =>
        rw [List.getD_cons_succ]
        exact ih1 k' (by omega) hdvd' j' (by omega)
    · intro a b hab hb hne
      obtain ⟨b', rfl⟩ : ∃ b', b = b' + 1 := ⟨b - 1, by omega⟩
      rw [List.getD_cons_succ]
      cases a with
      | zero =>
        rw [List.getD_cons_zero] at hne
        have hd : wNAF_digit window (2 ^ w) (2 ^ (w + 1)) ≠ 0 := by
          intro h0
          apply hne
          rw [h0]
          simp [to_signed_char]
        exact ih1 w (by omega) (hs1 hd) b' (by omega)
      | succ a' =>
        rw [List.getD_cons_succ] at hne
        exact ih2 a' b' (by omega) (by omega) hne

theorem ec_compute_wNAF_digits_eq (bn : Int) :
    (ec_compute_wNAF bn).1 =
      wNAF_digits bn (ec_window_bits bn) (if BN_is_negative bn = true then -1 else 1)
        (2 ^ ec_window_bits bn) (2 ^ (ec_window_bits bn + 1)) (BN_num_bits bn + 1) 0
        (bn.natAbs % 2 ^ (ec_window_bits bn + 1)) := by
  have hbit : (1 : Nat) <<< ec_window_bits bn = 2 ^ ec_window_bits bn := Nat.one_shiftLeft _
  have hnext : ((2 : Nat) ^ ec_window_bits bn) <<< 1 = 2 ^ (ec_window_bits bn + 1) := by
    rw [Nat.shiftLeft_eq]; ring
  unfold ec_compute_wNAF
  simp only [hbit, hnext, wNAF_window_init_eq]

/-- C20: for every integer `s`, zero and negative values included,
`ec_compute_wNAF` returns exactly `bits + 1` digits, `bits` being the bit length
of `|s|` (the least `k` with `|s| < 2 ^ k`), the digits reconstruct the scalar,
`Σ dᵢ 2ⁱ = s`, and the digits of `-s` are the negated digits of `s`. -/
theorem ec_compute_wNAF_reconstructs (s : Int) :
    (ec_compute_wNAF s).1.length = BN_num_bits s + 1 ∧
    (ec_compute_wNAF s).2.1 = BN_num_bits s + 1 ∧
    s.natAbs < 2 ^ BN_num_bits s ∧ (∀ k, s.natAbs < 2 ^ k → BN_num_bits s ≤ k) ∧
    Finset.sum (Finset.range (BN_num_bits s + 1))
      (fun i => (ec_compute_wNAF s).1.getD i 0 * 2 ^ i) = s ∧
    (ec_compute_wNAF (-s)).1 = (ec_compute_wNAF s).1.map (fun d => -d) := by
  obtain ⟨hl, hl2, -, -, -, hv, -⟩ := ec_compute_wNAF_spec s
  refine ⟨by rw [hl, hl2], hl2, lt_two_pow_BN_num_bits s,
    fun k hk => (BN_num_bits_le_iff s k).2 hk, ?_, ?_⟩
  · have := digits_value_eq_sum (ec_compute_wNAF s).1
    rw [hv, hl, hl2] at this
    exact this.symm
  · by_cases h0 : s = 0
    · subst h0
      decide
    · obtain ⟨hw1, hw6⟩ := ec_window_bits_range s
      have hsign : (if BN_is_negative s = true then (-1 : Int) else 1) = 1 ∨
          (if BN_is_negative s = true then (-1 : Int) else 1) = -1 := by
        split_ifs
        · right; rfl
        · left; rfl
      have hneg : (if BN_is_negative (-s) = true then (-1 : Int) else 1) =
          -(if BN_is_negative s = true then (-1 : Int) else 1) := by
        unfold BN_is_negative
        by_cases h : s < 0
        · have h' : ¬ (-s < 0) := by omega
          simp [h, h']
        · have h' : -s < 0 := by omega
          simp [h, h']
      rw [ec_compute_wNAF_digits_eq, ec_compute_wNAF_digits_eq, ec_window_bits_neg,
        BN_num_bits_neg, Int.natAbs_neg, hneg]
      exact wNAF_digits_neg s (-s) _ hw1 hw6 _ hsign (BN_is_bit_set_neg s) _ 0 _
        (le_of_lt (Nat.mod_lt _ (by positivity)))

/-- C21: with `w` the width `ec_window_bits` selects for `s` (6 from 2000 bits,
5 from 800, 4 from 300, 3 from 70, 2 from 20, else 1), the digits of
`ec_compute_wNAF` are non-adjacent: two positions less than `w + 1` apart never
both hold a non-zero digit. -/
theorem ec_compute_wNAF_non_adjacent (s : Int) :
    ec_window_bits s =
      (if BN_num_bits s ≥ 2000 then 6 else if BN_num_bits s ≥ 800 then 5
        else if BN_num_bits s ≥ 300 then 4 else if BN_num_bits s ≥ 70 then 3
        else if BN_num_bits s ≥ 20 then 2 else 1) ∧
    ∀ i j, i < j → j ≤ i + ec_window_bits s → (ec_compute_wNAF s).1.getD i 0 ≠ 0 →
      (ec_compute_wNAF s).1.getD j 0 = 0 := by
  refine ⟨rfl, ?_⟩
  obtain ⟨hw1, -⟩ := ec_window_bits_range s
  rw [ec_compute_wNAF_digits_eq]
  exact (wNAF_digits_non_adjacent s _ hw1 _ _ 0 _ (le_of_lt (Nat.mod_lt _ (by positivity)))).2

/-- C21 on the scalar `1234567` (21 bits, width 2): digit 0 is non-zero, so
digits 1 and 2 are zero. -/
theorem ec_compute_wNAF_non_adjacent_witness :
    ec_window_bits 1234567 = 2 ∧ (ec_compute_wNAF 1234567).1.getD 0 0 = -1 ∧
    (ec_compute_wNAF 1234567).1.getD 1 0 = 0 ∧ (ec_compute_wNAF 1234567).1.getD 2 0 = 0 :=
  ⟨by decide, by decide,
    (ec_compute_wNAF_non_adjacent 1234567).2 0 1 (by decide) (by decide) (by decide),
    (ec_compute_wNAF_non_adjacent 1234567).2 0 2 (by decide) (by decide) (by decide)⟩

/-- C22: with `w` the width `ec_window_bits` selects for `s`, every digit of
`ec_compute_wNAF` is zero or an odd integer of absolute value at most
`2 ^ w - 1`; as `w ≤ 6` it lies within `-63 .. 63` and fits a `signed char`. -/
theorem ec_compute_wNAF_digit_set (s : Int) :
    ec_window_bits s ≤ 6 ∧
    ∀ d ∈ (ec_compute_wNAF s).1,
      (d = 0 ∨ (d % 2 = 1 ∧ d.natAbs ≤ 2 ^ ec_window_bits s - 1)) ∧ -128 ≤ d ∧ d ≤ 127 ∧
        to_signed_char d = d := by
  obtain ⟨hw1, hw6⟩ := ec_window_bits_range s
  refine ⟨hw6, ?_⟩
  intro d hd
  have h64 : 2 ^ ec_window_bits s ≤ 64 := by
    have : (2 : Nat) ^ ec_window_bits s ≤ 2 ^ 6 := Nat.pow_le_pow_right (by norm_num) hw6
    simpa using this
  have hsign : (if BN_is_negative s = true then (-1 : Int) else 1) = 1 ∨
      (if BN_is_negative s = true then (-1 : Int) else 1) = -1 := by
    split_ifs
    · right; rfl
    · left; rfl
  rw [ec_compute_wNAF_digits_eq] at hd
  rcases wNAF_digits_small s _ hw1 hw6 _ hsign _ 0 _
    (le_of_lt (Nat.mod_lt _ (by positivity))) d hd with h | ⟨h1, h2⟩
  · subst h
    exact ⟨Or.inl rfl, by norm_num, by norm_num, by decide⟩
  · refine ⟨Or.inr ⟨by omega, by omega⟩, by omega, by omega, to_signed_char_eq d (by omega)⟩

/-- C22 on the scalar `-1234567` (width 2): its digit 11 is `-3`, an odd integer
of absolute value `2 ^ 2 - 1`. -/
theorem ec_compute_wNAF_digit_set_witness :
    (-3 : Int) ∈ (ec_compute_wNAF (-1234567)).1 ∧
    (((-3 : Int) = 0 ∨ ((-3 : Int) % 2 = 1 ∧
        (-3 : Int).natAbs ≤ 2 ^ ec_window_bits (-1234567) - 1)) ∧
      (-128 : Int) ≤ -3 ∧ (-3 : Int) ≤ 127 ∧ to_signed_char (-3) = -3) :=
  ⟨by decide, (ec_compute_wNAF_digit_set (-1234567)).2 (-3) (by decide)⟩

/-! ### The table of odd multiples and its lookups -/

/-- C23: assuming `EC_POINT_add` and `EC_POINT_dbl` implement the group law
(`GroupLaw`), for every valid point `B` of the group and every length `L ≥ 1`
`ec_compute_odd_multiples` returns a table of exactly `L` points with entry `i`
standing for `(2 i + 1) B`: entry 0 is `B` and entry `i + 1` is entry `i` plus
`2 B`; for `L = 0` it fails. -/
theorem ec_compute_odd_multiples_table {A : Type} [AddCommGroup A] (group : EC_GROUP)
    (V : EC_POINT → Prop) (φ : EC_POINT → A) (law : GroupLaw group V φ) (point : EC_POINT)
    (hpm : point.meth = group.meth.id) (hpV : V point) :
    (∀ row_len, 1 ≤ row_len →
      ∃ row, ec_compute_odd_multiples group point row_len = .ok row ∧ row.length = row_len ∧
        (∀ i, i < row_len → ∃ p, row[i]? = some p ∧ φ p = (2 * i + 1) • φ point) ∧
        (∃ p, row[0]? = some p ∧ φ p = φ point) ∧
        (∀ i p q, row[i]? = some p → row[i + 1]? = some q → φ q = φ p + 2 • φ point)) ∧
    ec_compute_odd_multiples group point 0 = .error .NO_REASON_PUSHED := by
  refine ⟨?_, rfl⟩
  intro row_len hlen
  obtain ⟨row, hrow, hl, hok⟩ := ec_compute_odd_multiples_law law point hpm hpV row_len hlen
  have hget : ∀ i, i < row_len → ∃ p, row[i]? = some p ∧ φ p = (2 * i + 1) • φ point := by
    intro i hi
    have hi' : i < row.length := by omega
    exact ⟨row[i], List.getElem?_eq_getElem hi', (hok i _ (List.getElem?_eq_getElem hi')).2.2⟩
  refine ⟨row, hrow, hl, hget, ?_, ?_⟩
  · obtain ⟨p, hp, hφ⟩ := hget 0 (by omega)
    exact ⟨p, hp, by simpa using hφ⟩
  · intro i p q hp hq
    rw [(hok i p hp).2.2, (hok (i + 1) q hq).2.2, show 2 * (i + 1) + 1 = (2 * i + 1) + 2 by ring,
      add_nsmul]

/-- C23 on the group of the integers modulo 11 and the point standing for `3`:
the table of length 4 stands for `3, 9, 15, 21` modulo 11. -/
theorem ec_compute_odd_multiples_table_witness :
    ec_compute_odd_multiples (zmod_group 1 11) (zmod_point 11 (zmod_generator 1) 3) 4 =
      .ok [zmod_point 11 (zmod_generator 1) 3, zmod_point 11 (zmod_generator 1) 9,
        zmod_point 11 (zmod_generator 1) 4, zmod_point 11 (zmod_generator 1) 10] ∧
    (∃ row, ec_compute_odd_multiples (zmod_group 1 11) (zmod_point 11 (zmod_generator 1) 3) 4 =
        .ok row ∧ row.length = 4 ∧
      (∀ i, i < 4 → ∃ p, row[i]? = some p ∧
        zmod_repr 11 p = (2 * i + 1) • zmod_repr 11 (zmod_point 11 (zmod_generator 1) 3)) ∧
      (∃ p, row[0]? = some p ∧
        zmod_repr 11 p = zmod_repr 11 (zmod_point 11 (zmod_generator 1) 3)) ∧
      (∀ i p q, row[i]? = some p → row[i + 1]? = some q →
        zmod_repr 11 q = zmod_repr 11 p + 2 • zmod_repr 11 (zmod_point 11 (zmod_generator 1) 3))) ∧
    ec_compute_odd_multiples (zmod_group 1 11) (zmod_point 11 (zmod_generator 1) 3) 0 =
      .error .NO_REASON_PUSHED :=
  ⟨rfl,
    (ec_compute_odd_multiples_table (zmod_group 1 11) (fun _ => True) (zmod_repr 11)
      (zmod_law 1 11) (zmod_point 11 (zmod_generator 1) 3) rfl trivial).1 4 (by decide),
    rfl⟩

/-- C28: table lookups of `ec_wNAF_mul` stay in bounds.  Under `GroupLaw`, for
every scalar `s` and valid base point, `ec_compute_row` returns `wNAF_len`
digits and a table of `row_len = 2 ^ (w - 1)` points; the loop body reads no
digit at a position `k ≥ wNAF_len`; at every position `k < wNAF_len` a digit is
stored, and a non-zero digit `d` has `|d| >> 1 < row_len`, the entry it selects
standing for `|d|` times the base; and `ec_wNAF_mul` itself succeeds for all
scalars `m` and `n`, so that it never reads outside an array. -/
theorem ec_wNAF_mul_lookups_in_bounds {A : Type} [AddCommGroup A] (group : EC_GROUP)
    (V : EC_POINT → Prop) (φ : EC_POINT → A) (law : GroupLaw group V φ) (G : EC_POINT)
    (hG : group.generator = some G) (hGm : G.meth = group.meth.id) (hGV : V G)
    (point : EC_POINT) (hpm : point.meth = group.meth.id) (hpV : V point) :
    (∀ (s : Int) (base : EC_POINT), base.meth = group.meth.id → V base →
      ∃ row, ec_compute_row group s base =
          .ok ((ec_compute_wNAF s).1, (ec_compute_wNAF s).2.1, row, (ec_compute_wNAF s).2.2) ∧
        (ec_compute_wNAF s).1.length = (ec_compute_wNAF s).2.1 ∧
        row.length = (ec_compute_wNAF s).2.2 ∧
        (ec_compute_wNAF s).2.2 = 2 ^ (ec_window_bits s - 1) ∧
        (∀ k r inv, (ec_compute_wNAF s).2.1 ≤ k →
          ec_wNAF_mul_digit group (ec_compute_wNAF s).1 (ec_compute_wNAF s).2.1 row k r inv =
            .ok (r, inv)) ∧
        (∀ k, k < (ec_compute_wNAF s).2.1 → ∃ d, (ec_compute_wNAF s).1[k]? = some d ∧
          (d ≠ 0 → d.natAbs >>> 1 < row.length ∧
            ∃ p, row[d.natAbs >>> 1]? = some p ∧ p.meth = group.meth.id ∧ V p ∧
              φ p = d.natAbs • φ base))) ∧
    (∀ (r : EC_POINT) (m n : Int), r.meth = group.meth.id →
      ∃ r', ec_wNAF_mul group r (some m) point (some n) = .ok r') := by
  refine ⟨?_, ?_⟩
  · intro s base hbm hbV
    obtain ⟨hl, -, hrl, -, -, -, hsmall⟩ := ec_compute_wNAF_spec s
    obtain ⟨row, hrow, hlen, hok⟩ := ec_compute_row_law law s base hbm hbV
    refine ⟨row, hrow, hl, hlen, hrl, ?_, ?_⟩
    · intro k r inv hk
      unfold ec_wNAF_mul_digit
      rw [if_pos hk]
    · intro k hk
      have hk' : k < (ec_compute_wNAF s).1.length := by omega
      refine ⟨(ec_compute_wNAF s).1[k], List.getElem?_eq_getElem hk', ?_⟩
      intro hne
      rcases hsmall _ (List.getElem_mem hk') with h0 | ⟨hodd, hlt⟩
      · exact absurd h0 hne
      · have hidx : (ec_compute_wNAF s).1[k].natAbs >>> 1 < row.length := by
          rw [Nat.shiftRight_eq_div_pow, pow_one, hlen]
          exact hlt
        refine ⟨hidx, row[(ec_compute_wNAF s).1[k].natAbs >>> 1],
          List.getElem?_eq_getElem hidx, ?_⟩
        obtain ⟨h1, h2, h3⟩ := hok _ _ (List.getElem?_eq_getElem hidx)
        refine ⟨h1, h2, ?_⟩
        rw [h3]
        congr 1
        rw [Nat.shiftRight_eq_div_pow, pow_one]
        omega
  · intro r m n hr
    obtain ⟨r', h, -⟩ := ec_wNAF_mul_law law G hG hGm hGV r point hr hpm hpV m n
    exact ⟨r', h⟩

/-- C28 on the group of the integers modulo 11: the scalar `-1234567` has 22
digits and a table of 2 odd multiples, its digit `-3` at position 11 selects
entry 1, and the multiplication by `(-1234567, 1234567)` succeeds. -/
theorem ec_wNAF_mul_lookups_in_bounds_witness :
    (ec_compute_wNAF (-1234567)).2.1 = 22 ∧ (ec_compute_wNAF (-1234567)).2.2 = 2 ∧
    (ec_compute_wNAF (-1234567)).1[11]? = some (-3) ∧ (-3 : Int).natAbs >>> 1 = 1 ∧
    (∃ r', ec_wNAF_mul (zmod_group 1 11) (zmod_generator 1) (some (-1234567))
      (zmod_point 11 (zmod_generator 1) 3) (some 1234567) = .ok r') :=
  ⟨by decide, by decide, by decide, by decide,
    (ec_wNAF_mul_lookups_in_bounds (zmod_group 1 11) (fun _ => True) (zmod_repr 11)
      (zmod_law 1 11) (zmod_generator 1) rfl rfl trivial (zmod_point 11 (zmod_generator 1) 3)
      rfl trivial).2 (zmod_generator 1) (-1234567) 1234567 rfl⟩

/-! ### The digest as an integer (`ecdsa_prepare_digest`) -/

theorem BN_bin2bn_foldl (s : List (Fin 256)) (acc : Nat) :
    s.foldl (fun acc b => acc * 256 + b.val) acc =
      acc * 256 ^ s.length + s.foldl (fun acc b => acc * 256 + b.val) 0 := by
  induction s generalizing acc with
  | nil => simp
  | cons b s ih =>
    simp only [List.foldl_cons, List.length_cons]
    rw [ih (acc * 256 + b.val), ih (0 * 256 + b.val), pow_succ]
    ring

/-- `BN_bin2bn` reads big-endian: the first octet is the most significant. -/
theorem BN_bin2bn_cons (b : Fin 256) (s : List (Fin 256)) :
    BN_bin2bn (b :: s) = b.val * 256 ^ s.length + BN_bin2bn s := by
  unfold BN_bin2bn
  rw [List.foldl_cons, BN_bin2bn_foldl]
  push_cast
  ring

theorem BN_bin2bn_nonneg (s : List (Fin 256)) : 0 ≤ BN_bin2bn s := by
  unfold BN_bin2bn
  exact Int.natCast_nonneg _

theorem BN_bin2bn_lt (s : List (Fin 256)) : BN_bin2bn s < 256 ^ s.length := by
  induction s with
  | nil => simp [BN_bin2bn]
  | cons b s ih =>
    rw [BN_bin2bn_cons, List.length_cons, pow_succ]
    have hb : (b.val : Int) ≤ 255 := by
      have := b.isLt
      omega
    have hpos : (0 : Int) < 256 ^ s.length := by positivity
    nlinarith

/-- C24: for every digest `H` of `d` octets and every key with a group of order
`n`, `ecdsa_prepare_digest` succeeds with
`e = bin2bn(H) / 2 ^ max(0, 8 d - bits n)` rounded down, `bin2bn` reading `H`
big-endian; so `e = bin2bn(H)` when `8 d ≤ bits n`, and always `0 ≤ e < 2 ^ bits n`,
that is `e` has at most `bits n` bits. -/
theorem ecdsa_prepare_digest_value (digest : List (Fin 256)) (key : EC_KEY_DATA)
    (group : EC_GROUP) (hg : key.group = some group) :
    ∃ e, ecdsa_prepare_digest digest key = some e ∧
      e = BN_bin2bn digest / 2 ^ (8 * digest.length - BN_num_bits group.order) ∧
      (8 * digest.length ≤ BN_num_bits group.order → e = BN_bin2bn digest) ∧
      0 ≤ e ∧ e < 2 ^ BN_num_bits group.order ∧ BN_num_bits e ≤ BN_num_bits group.order ∧
      (∀ (b : Fin 256) (s : List (Fin 256)),
        BN_bin2bn (b :: s) = b.val * 256 ^ s.length + BN_bin2bn s) := by
  have h0 := BN_bin2bn_nonneg digest
  have hlt := BN_bin2bn_lt digest
  have h256 : (256 : Int) ^ digest.length = 2 ^ (8 * digest.length) := by
    rw [pow_mul]; norm_num
  rw [h256] at hlt
  have hval : ∀ e : Int, e = BN_bin2bn digest / 2 ^ (8 * digest.length - BN_num_bits group.order) →
      0 ≤ e ∧ e < 2 ^ BN_num_bits group.order := by
    intro e he
    subst he
    refine ⟨Int.ediv_nonneg h0 (by positivity), ?_⟩
    apply Int.ediv_lt_of_lt_mul (by positivity)
    calc BN_bin2bn digest < 2 ^ (8 * digest.length) := hlt
      _ ≤ 2 ^ (BN_num_bits group.order + (8 * digest.length - BN_num_bits group.order)) :=
          pow_le_pow_right₀ (by norm_num) (by omega)
      _ = 2 ^ BN_num_bits group.order *
            2 ^ (8 * digest.length - BN_num_bits group.order) := by rw [pow_add]
  have hbits : ∀ e : Int, 0 ≤ e → e < 2 ^ BN_num_bits group.order →
      BN_num_bits e ≤ BN_num_bits group.order := by
    intro e he0 he
    rw [BN_num_bits_le_iff]
    zify
    rw [abs_of_nonneg he0]
    exact he
  unfold ecdsa_prepare_digest
  rw [hg]
  simp only [EC_GROUP_order_bits, ec_group_simple_order_bits]
  by_cases hle : 8 * digest.length ≤ BN_num_bits group.order
  · rw [if_pos hle]
    have he : BN_bin2bn digest =
        BN_bin2bn digest / 2 ^ (8 * digest.length - BN_num_bits group.order) := by
      rw [show 8 * digest.length - BN_num_bits group.order = 0 by omega]
      simp
    obtain ⟨h1, h2⟩ := hval _ he
    exact ⟨_, rfl, he, fun _ => rfl, h1, h2, hbits _ h1 h2, BN_bin2bn_cons⟩
  · rw [if_neg hle]
    have he : BN_rshift (BN_bin2bn digest) (8 * digest.length - BN_num_bits group.order) =
        BN_bin2bn digest / 2 ^ (8 * digest.length - BN_num_bits group.order) := by
      unfold BN_rshift
      rw [Nat.shiftRight_eq_div_pow]
      rcases eq_or_lt_of_le h0 with hz | hpos
      · rw [← hz]
        simp
      · rw [Int.sign_eq_one_of_pos hpos, one_mul]
        push_cast
        rw [abs_of_nonneg h0]
    obtain ⟨h1, h2⟩ := hval _ he
    exact ⟨_, rfl, he, fun h => absurd h hle, h1, h2, hbits _ h1 h2, BN_bin2bn_cons⟩

/-- C24 on the key of order `2^89 - 1`: the 256-bit digest `01 00 … 00` is
`2^248`, shifted right by `256 - 89 = 167` bits to `e = 2^81`. -/
theorem ecdsa_prepare_digest_value_witness :
    ecdsa_prepare_digest digest32 key89.toEC_KEY_DATA = some (2 ^ 81) ∧
    ∃ e, ecdsa_prepare_digest digest32 key89.toEC_KEY_DATA = some e ∧
      e = BN_bin2bn digest32 / 2 ^ (8 * digest32.length - BN_num_bits (zmod_group 1 q89).order) ∧
      (8 * digest32.length ≤ BN_num_bits (zmod_group 1 q89).order → e = BN_bin2bn digest32) ∧
      0 ≤ e ∧ e < 2 ^ BN_num_bits (zmod_group 1 q89).order ∧
      BN_num_bits e ≤ BN_num_bits (zmod_group 1 q89).order ∧
      (∀ (b : Fin 256) (s : List (Fin 256)),
        BN_bin2bn (b :: s) = b.val * 256 ^ s.length + BN_bin2bn s) :=
  ⟨rfl, ecdsa_prepare_digest_value digest32 key89.toEC_KEY_DATA (zmod_group 1 q89) rfl⟩

/-! ### Masking the nonce length (`ecdsa_sign_setup`) -/

/-- C26: for every key with a group of prime order `n` and private key `x`,
every `r` in `[1, n - 1]`, every `e` and `kinv`, and every blinding value `b` in
`[1, n - 1]` drawn from the random source, the value `ecdsa_compute_s` computes,
`binv ((b e + b x r) kinv) mod n`, equals `kinv (e + x r) mod n`, whatever `b`
is; the call succeeds, with that value as `s` when it is not zero and with no
`s` when it is zero. -/
theorem ecdsa_compute_s_blinding (e kinv r x b : Int) (key : EC_KEY_DATA) (group : EC_GROUP)
    (rest : Tape) (hg : key.group = some group) (hx : key.priv_key = some x)
    (hp : Nat.Prime group.order.natAbs) (hn : 0 < group.order) (hr1 : 1 ≤ r)
    (hr : r < group.order) (hb1 : 1 ≤ b) (hb : b < group.order) :
    (∃ binv, BN_mod_inverse_ct b group.order = some binv ∧
      ((b * e % group.order + b * x % group.order * r % group.order) % group.order * kinv %
        group.order) * binv % group.order = kinv * (e + x * r) % group.order) ∧
    ecdsa_compute_s e kinv r key (b :: rest) =
      (.ok (if kinv * (e + x * r) % group.order = 0 then none
        else some (kinv * (e + x * r) % group.order)), rest) := by
  have hn1 : 1 < group.order := by
    have := hp.two_le
    omega
  obtain ⟨binv, hbinv⟩ := BN_mod_inverse_ct_prime b group.order hp hn hb1 hb
  have hinv := ((BN_mod_inverse_ct_spec b group.order hn1).1 binv hbinv).2.2
  have hval : ((b * e % group.order + b * x % group.order * r % group.order) % group.order *
      kinv % group.order) * binv % group.order = kinv * (e + x * r) % group.order := by
    obtain ⟨N, hN⟩ : ∃ N : Nat, (N : Int) = group.order :=
      ⟨group.order.toNat, Int.toNat_of_nonneg (by omega)⟩
    rw [← hN] at hinv ⊢
    have cast_mod : ∀ a : Int, (((a % (N : Int) : Int)) : ZMod N) = (a : ZMod N) :=
      fun a => ZMod.intCast_mod a N
    have hb' : (b : ZMod N) * (binv : ZMod N) = 1 := by
      have := congrArg (fun z : Int => (z : ZMod N)) hinv
      simpa [cast_mod] using this
    have hz : ((((b * e % (N : Int) + b * x % (N : Int) * r % (N : Int)) % (N : Int) * kinv %
        (N : Int)) * binv : Int) : ZMod N) = ((kinv * (e + x * r) : Int) : ZMod N) := by
      push_cast
      linear_combination ((kinv : ZMod N) * (e + x * r)) * hb'
    have := (ZMod.intCast_eq_intCast_iff _ _ N).1 hz
    exact this
  refine ⟨⟨binv, hbinv, hval⟩, ?_⟩
  unfold ecdsa_compute_s
  rw [hg, hx]
  simp only [EC_GROUP_get0_order]
  have hrange : ¬ (BN_cmp r BN_value_one < 0 ∨ BN_cmp r group.order ≥ 0) := by
    rw [not_or, BN_cmp_lt_zero_iff, BN_cmp_ge_zero_iff]
    unfold BN_value_one
    omega
  rw [if_neg hrange]
  have hrand : bn_rand_interval BN_value_one group.order (b :: rest) = (some b, rest) := by
    unfold bn_rand_interval BN_value_one
    simp only
    rw [if_pos ⟨hb1, hb⟩]
  rw [hrand]
  simp only [hbinv]
  have hn0 : group.order ≠ 0 := by omega
  simp only [BN_mod_mul, BN_mod_add, BN_nnmod, hn0, if_false, Option.bind_eq_bind,
    Option.some_bind, bind, Option.bind, hval, BN_is_zero, decide_eq_true_eq]
  split_ifs <;> rfl

/-- C26 on the key on the integers modulo 11 (`e = 5`, `x = 3`): with
`(kinv, r) = (1, 1)` the blinding values 1 and 7 both give `s = 8`, and with
`(kinv, r) = (1, 2)` both give no `s`. -/
theorem ecdsa_compute_s_blinding_witness :
    ecdsa_compute_s 5 1 1 key11.toEC_KEY_DATA [1] = (.ok (some 8), []) ∧
    ecdsa_compute_s 5 1 1 key11.toEC_KEY_DATA [7] = (.ok (some 8), []) ∧
    ecdsa_compute_s 5 1 2 key11.toEC_KEY_DATA [7] = (.ok none, []) :=
  ⟨rfl, ((ecdsa_compute_s_blinding 5 1 1 3 7 key11.toEC_KEY_DATA (zmod_group 1 11) [] rfl rfl
      (by decide) (by decide) (by decide) (by decide) (by decide) (by decide)).2).trans rfl,
    ((ecdsa_compute_s_blinding 5 1 2 3 7 key11.toEC_KEY_DATA (zmod_group 1 11) [] rfl rfl
      (by decide) (by decide) (by decide) (by decide) (by decide) (by decide)).2).trans rfl⟩

/-! ### The computed cofactor (`ec_set_cofactor`) -/

/-- The rounded quotient never exceeds `p + 1`, so it has at most `bits p + 1`
bits. -/
theorem inferred_cofactor_bits_of_pos (p n : Int) (hp : 0 ≤ p) (hn : 1 < n) :
    BN_num_bits ((p + 1 + n / 2) / n) ≤ BN_num_bits p + 1 := by
  rw [BN_num_bits_le_iff]
  have h1 := lt_two_pow_BN_num_bits p
  have hh := inferred_cofactor_nonneg p n hp (by omega)
  set h := (p + 1 + n / 2) / n with hdef
  have h3 : h * n ≤ p + 1 + n / 2 := Int.ediv_mul_le _ (by omega)
  have h4 : h ≤ p + 1 := by
    by_contra hcon
    have h5 : p + 2 ≤ h := by omega
    have h6 : (p + 2) * n ≤ h * n := Int.mul_le_mul_of_nonneg_right h5 (by omega)
    have h7 : 2 * (p + 2) ≤ (p + 2) * n := by nlinarith
    have h8 : n ≤ (p + 2) * n := by nlinarith
    omega
  rw [pow_succ]
  zify at h1 ⊢
  rw [abs_of_nonneg hp] at h1
  rw [abs_of_nonneg hh]
  omega

/-- C29: whenever `ec_set_cofactor` computes the cofactor, that is no cofactor
is supplied and `bits n > (bits p + 1) / 2 + 3` (with `p ≥ 1` and `n > 1`, as
`EC_GROUP_set_generator` has checked), `n > 4 sqrt p` holds (`n² > 16 p`), every
integer `h'` with `|h' n - (p + 1)| ≤ 2 sqrt p` equals the computed value
`(p + 1 + n / 2) / n`, that value has at most `bits p + 1` bits, and the call
stores it and succeeds: the `EC_R_INVALID_GROUP_ORDER` rejection is not
reached. -/
theorem ec_set_cofactor_computed (group : EC_GROUP) (c : Option Int)
    (hc : c = none ∨ c = some 0) (hp : 1 ≤ group.field) (hn : 1 < group.order)
    (hs : BN_num_bits group.order > (BN_num_bits group.field + 1) / 2 + 3) :
    group.order ^ 2 > 16 * group.field ∧
    (∀ h : Int, (h * group.order - (group.field + 1)) ^ 2 ≤ 4 * group.field →
      h = (group.field + 1 + group.order / 2) / group.order) ∧
    BN_num_bits ((group.field + 1 + group.order / 2) / group.order) ≤
      BN_num_bits group.field + 1 ∧
    ec_set_cofactor group c =
      (.ok (), { group with
        cofactor := (group.field + 1 + group.order / 2) / group.order }) ∧
    (ec_set_cofactor group c).1 ≠ .error .EC_R_INVALID_GROUP_ORDER := by
  have hsq := sq_gt_of_num_bits_gt group.field group.order (by omega) (by omega) hs
  have hbits := inferred_cofactor_bits_of_pos group.field group.order (by omega) hn
  have key : ec_set_cofactor group c =
      (.ok (), { group with
        cofactor := (group.field + 1 + group.order / 2) / group.order }) := by
    have hinfer : (if BN_num_bits group.order ≤ (BN_num_bits group.field + 1) / 2 + 3 then
          ec_set_cofactor_done { group with cofactor := 0 } 0
        else
          match BN_div_ct (BN_add (BN_add_word (BN_rshift1 group.order) 1) group.field)
            group.order with
          | none => (.error .ERR_R_BN_LIB, { group with cofactor := 0 })
          | some cofactor => ec_set_cofactor_done { group with cofactor := 0 } cofactor) =
        (.ok (), { group with
          cofactor := (group.field + 1 + group.order / 2) / group.order }) := by
      rw [if_neg (by omega), inferred_cofactor_eq group.field group.order (by omega) (by omega)]
      simp only
      unfold ec_set_cofactor_done
      rw [if_neg (by simpa using hbits)]
    unfold ec_set_cofactor
    rcases hc with hc | hc
    · subst hc
      exact hinfer
    · subst hc
      simp only [BN_is_zero, decide_True, not_true_eq_false, if_false]
      exact hinfer
  refine ⟨hsq, fun h hh => hasse_unique group.field group.order h (by omega) hsq hh, hbits,
    key, ?_⟩
  rw [key]
  simp

/-- C29 over the field of size `2^89 - 1` with an order of 88 bits: the computed
cofactor is 3. -/
theorem ec_set_cofactor_computed_witness :
    ec_set_cofactor group_88 none = (.ok (), { group_88 with cofactor := 3 }) :=
  ((ec_set_cofactor_computed group_88 none (Or.inl rfl) (by decide) (by decide)
    (by decide)).2.2.2.1).trans rfl

/-! ### Copying groups (`EC_GROUP_copy`, `EC_GROUP_dup`) -/

theorem BN_bin2bn_append_single (l : List (Fin 256)) (b : Fin 256) :
    BN_bin2bn (l ++ [b]) = BN_bin2bn l * 256 + b.val := by
  unfold BN_bin2bn
  rw [List.foldl_append]
  simp

theorem spec_bn2binpad_length (len x : Nat) : (spec_bn2binpad x len).length = len := by
  induction len generalizing x with
  | zero => rfl
  | succ n ih => simp [spec_bn2binpad, ih]

theorem BN_bin2bn_bn2binpad (len x : Nat) :
    BN_bin2bn (spec_bn2binpad x len) = ((x % 256 ^ len : Nat) : Int) := by
  induction len generalizing x with
  | zero => simp [spec_bn2binpad, BN_bin2bn, Nat.mod_one]
  | succ n ih =>
    rw [spec_bn2binpad, BN_bin2bn_append_single, ih]
    have : x % 256 ^ (n + 1) = x / 256 % 256 ^ n * 256 + x % 256 := by
      rw [pow_succ, mul_comm (256 ^ n) 256, Nat.mod_mul]
      ring
    rw [this]
    push_cast
    ring

theorem BN_mod_inverse_ct_one (p : Int) (hp : 1 < p) : BN_mod_inverse_ct 1 p = some 1 := by
  obtain ⟨hs, he⟩ := BN_mod_inverse_ct_spec 1 p hp
  have h1 : (1 : Int) % p = 1 := Int.emod_eq_of_lt (by omega) hp
  obtain ⟨i, hi⟩ := he (by rw [h1]; simp)
  obtain ⟨h0, hlt, hm⟩ := hs i hi
  rw [one_mul, Int.emod_eq_of_lt h0 hlt] at hm
  rw [hi, hm]

theorem lt_pow_spec_field_len (p x : Int) (hx0 : 0 ≤ x) (hx : x < p) :
    x.toNat < 256 ^ spec_field_len p := by
  have h1 := lt_two_pow_BN_num_bits p
  have h2 : (2 : Nat) ^ BN_num_bits p ≤ 2 ^ (8 * spec_field_len p) :=
    Nat.pow_le_pow_right (by norm_num) (by unfold spec_field_len; omega)
  have h3 : (256 : Nat) ^ spec_field_len p = 2 ^ (8 * spec_field_len p) := by
    rw [pow_mul]
    norm_num
  omega

theorem BN_bin2bn_pad_eq (p x : Int) (hx0 : 0 ≤ x) (hx : x < p) :
    BN_bin2bn (spec_bn2binpad x.toNat (spec_field_len p)) = x := by
  rw [BN_bin2bn_bn2binpad, Nat.mod_eq_of_lt (lt_pow_spec_field_len p x hx0 hx)]
  omega

/-- Modulo an odd prime a square has at most one root of a given parity in
`[0, p)`. -/
theorem sqrt_unique_parity (p y y' : Int) (hp : Nat.Prime p.natAbs) (hpos : 0 < p)
    (hodd : p % 2 = 1) (hy0 : 0 ≤ y) (hy : y < p) (hy0' : 0 ≤ y') (hy' : y' < p)
    (hsq : p ∣ y' * y' - y * y) (hpar : y' % 2 = y % 2) : y' = y := by
  have hprime : Prime p := by
    have := Nat.prime_iff_prime_int.1 hp
    rwa [Int.natAbs_of_nonneg (by omega)] at this
  have hfac : y' * y' - y * y = (y' - y) * (y' + y) := by ring
  rw [hfac] at hsq
  rcases hprime.dvd_or_dvd hsq with h | h
  · obtain ⟨c, hc⟩ := h
    have hc0 : c = 0 := by
      by_contra hne
      rcases lt_or_gt_of_ne hne with hlt | hgt
      · have : p * c ≤ p * (-1) := Int.mul_le_mul_of_nonneg_left (by omega) (by omega)
        omega
      · have : p * 1 ≤ p * c := Int.mul_le_mul_of_nonneg_left (by omega) (by omega)
        omega
    rw [hc0, mul_zero] at hc
    omega
  · obtain ⟨c, hc⟩ := h
    have hc1 : c = 0 ∨ c = 1 := by
      by_contra hne
      rw [not_or] at hne
      rcases lt_or_gt_of_ne hne.1 with hlt | hgt
      · have : p * c ≤ p * (-1) := Int.mul_le_mul_of_nonneg_left (by omega) (by omega)
        omega
      · have : p * 2 ≤ p * c := Int.mul_le_mul_of_nonneg_left (by omega) (by omega)
        omega
    rcases hc1 with h0 | h1
    · rw [h0, mul_zero] at hc
      omega
    · rw [h1, mul_one] at hc
      omega

theorem spec_get_affine_range (g : EC_GROUP_DATA) (P : EC_POINT) (x y : Int)
    (hpos : 0 < g.field) (h : spec_get_affine g P = .ok (x, y)) :
    P.Z ≠ 0 ∧ 0 ≤ x ∧ x < g.field ∧ 0 ≤ y ∧ y < g.field := by
  unfold spec_get_affine at h
  by_cases hz : P.Z = 0
  · rw [if_pos hz] at h
    simp at h
  · rw [if_neg hz] at h
    cases hi : BN_mod_inverse_ct P.Z g.field with
    | none => rw [hi] at h; simp at h
    | some zi =>
      rw [hi] at h
      simp only [Except.ok.injEq, Prod.mk.injEq] at h
      obtain ⟨hx, hy⟩ := h
      subst hx hy
      exact ⟨hz, Int.emod_nonneg _ (by omega), Int.emod_lt_of_pos _ hpos,
        Int.emod_nonneg _ (by omega), Int.emod_lt_of_pos _ hpos⟩

theorem spec_get_affine_of_affine (g : EC_GROUP_DATA) (P : EC_POINT) (x y : Int)
    (hp : 1 < g.field) (hx0 : 0 ≤ x) (hx : x < g.field) (hy0 : 0 ≤ y) (hy : y < g.field) :
    spec_get_affine g { P with X := x, Y := y, Z := 1, Z_is_one := 1 } = .ok (x, y) := by
  unfold spec_get_affine
  simp only [one_ne_zero, if_false, BN_mod_inverse_ct_one g.field hp, mul_one]
  rw [Int.emod_eq_of_lt hx0 hx, Int.emod_eq_of_lt hy0 hy]

theorem spec_set_compressed_root (g : EC_GROUP_DATA) (P : EC_POINT) (x y : Int)
    (hprime : Nat.Prime g.field.natAbs) (hpos : 0 < g.field) (hodd : g.field % 2 = 1)
    (hy0 : 0 ≤ y) (hy : y < g.field) (hon : spec_on_curve g x y = true) :
    spec_set_compressed g P x (y % 2).toNat =
      .ok { P with X := x, Y := y, Z := 1, Z_is_one := 1 } := by
  unfold spec_set_compressed
  have hpred : (fun y' : Nat => spec_on_curve g x y' && decide (y' % 2 = (y % 2).toNat))
      y.toNat = true := by
    simp only [Bool.and_eq_true, decide_eq_true_eq]
    rw [Int.toNat_of_nonneg hy0]
    exact ⟨hon, by omega⟩
  have hmem : y.toNat ∈ List.range g.field.toNat := by
    rw [List.mem_range]
    omega
  cases hf : (List.range g.field.toNat).find?
      (fun y' : Nat => spec_on_curve g x y' && decide (y' % 2 = (y % 2).toNat)) with
  | none =>
    rw [List.find?_eq_none] at hf
    exact absurd hpred (hf _ hmem)
  | some y' =>
    have hp' := List.find?_some hf
    have hm' := List.mem_of_find?_eq_some hf
    rw [List.mem_range] at hm'
    simp only [Bool.and_eq_true, decide_eq_true_eq] at hp'
    obtain ⟨hon', hpar⟩ := hp'
    unfold spec_on_curve at hon hon'
    simp only [decide_eq_true_eq] at hon hon'
    have hd : g.field ∣ (y' : Int) * y' - y * y := by
      have h1 := Int.dvd_of_emod_eq_zero hon
      have h2 := Int.dvd_of_emod_eq_zero hon'
      have := Int.dvd_sub h2 h1
      have e : ((y' : Int) * y' - (x * x * x + g.a * x + g.b)) -
          (y * y - (x * x * x + g.a * x + g.b)) = (y' : Int) * y' - y * y := by ring
      rwa [e] at this
    have heq : (y' : Int) = y :=
      sqrt_unique_parity g.field y y' hprime hpos hodd hy0 hy (by omega) (by omega) hd
        (by omega)
    simp only [heq]

theorem EC_POINT_get_affine_coordinates_spec (group : EC_GROUP) (P : EC_POINT) (x y : Int)
    (haff : group.meth.point_get_affine_coordinates = some spec_get_affine)
    (hxy : EC_POINT_get_affine_coordinates group P = .ok (x, y)) :
    group.meth.id = P.meth ∧ spec_get_affine group.toEC_GROUP_DATA P = .ok (x, y) := by
  unfold EC_POINT_get_affine_coordinates at hxy
  rw [haff] at hxy
  split at hxy
  · simp at hxy
  · simp only at hxy
    split at hxy
    · simp at hxy
    · rename_i hm
      exact ⟨by simpa using hm, hxy⟩

theorem EC_POINT_get_affine_coordinates_affine (group : EC_GROUP) (P : EC_POINT) (x y : Int)
    (haff : group.meth.point_get_affine_coordinates = some spec_get_affine)
    (hm : group.meth.id = P.meth) (hp : 1 < group.field) (hx0 : 0 ≤ x) (hx : x < group.field)
    (hy0 : 0 ≤ y) (hy : y < group.field) :
    EC_POINT_get_affine_coordinates group { P with X := x, Y := y, Z := 1, Z_is_one := 1 } =
      .ok (x, y) := by
  unfold EC_POINT_get_affine_coordinates EC_POINT_is_at_infinity
  rw [haff]
  simp only [hm, ne_eq, not_true_eq_false, if_false, BN_is_zero, one_ne_zero, decide_False,
    Bool.false_eq_true, gt_iff_lt, lt_self_iff_false]
  exact spec_get_affine_of_affine group.toEC_GROUP_DATA P x y hp hx0 hx hy0 hy

/-- The decoder inverts the encoder on a point of the curve. -/
theorem spec_oct2point_point2oct (g : EC_GROUP_DATA) (P : EC_POINT) (x y : Int) (form : Int)
    (hprime : Nat.Prime g.field.natAbs) (hpos : 0 < g.field) (hodd : g.field % 2 = 1)
    (haff : spec_get_affine g P = .ok (x, y)) (hon : spec_on_curve g x y = true)
    (hform : form = 2 ∨ form = 4 ∨ form = 6) :
    ∃ buf, spec_point2oct g P form
        (some (if form = 2 then 1 + spec_field_len g.field else 1 + 2 * spec_field_len g.field)) =
        (if form = 2 then 1 + spec_field_len g.field else 1 + 2 * spec_field_len g.field, buf) ∧
      buf.length =
        (if form = 2 then 1 + spec_field_len g.field else 1 + 2 * spec_field_len g.field) ∧
      spec_oct2point g P buf = .ok { P with X := x, Y := y, Z := 1, Z_is_one := 1 } := by
  obtain ⟨hz, hx0, hx, hy0, hy⟩ := spec_get_affine_range g P x y hpos haff
  have hbx := BN_bin2bn_pad_eq g.field x hx0 hx
  have hby := BN_bin2bn_pad_eq g.field y hy0 hy
  have hlx := spec_bn2binpad_length (spec_field_len g.field) x.toNat
  have hly := spec_bn2binpad_length (spec_field_len g.field) y.toNat
  have hybit : (y % 2).toNat = 0 ∨ (y % 2).toNat = 1 := by omega
  have hroot := spec_set_compressed_root g P x y hprime hpos hodd hy0 hy hon
  rcases hform with hf | hf | hf
  · subst hf
    refine ⟨⟨((2 : Int).toNat + (y % 2).toNat) % 256, Nat.mod_lt _ (by decide)⟩ ::
      spec_bn2binpad x.toNat (spec_field_len g.field), ?_, ?_, ?_⟩
    · unfold spec_point2oct
      simp [hz, haff]
    · simp [hlx]; omega
    · unfold spec_oct2point
      have hlead : ((2 : Int).toNat + (y % 2).toNat) % 256 = 2 ∨
          ((2 : Int).toNat + (y % 2).toNat) % 256 = 3 := by
        rcases hybit with h | h <;> rw [h] <;> decide
      have hpar : ((2 : Int).toNat + (y % 2).toNat) % 256 % 2 = (y % 2).toNat := by
        rcases hybit with h | h <;> rw [h] <;> decide
      have hne0 : ¬ ((2 : Int).toNat + (y % 2).toNat) % 256 = 0 := by omega
      simp only [hne0, if_false, hlead, if_true, hlx, ne_eq, not_true_eq_false, hbx, hpar]
      exact hroot
  · subst hf
    refine ⟨⟨((4 : Int).toNat + 0) % 256, Nat.mod_lt _ (by decide)⟩ ::
      (spec_bn2binpad x.toNat (spec_field_len g.field) ++
        spec_bn2binpad y.toNat (spec_field_len g.field)), ?_, ?_, ?_⟩
    · unfold spec_point2oct
      simp [hz, haff]
    · simp [hlx, hly]; omega
    · unfold spec_oct2point
      have htake : (spec_bn2binpad x.toNat (spec_field_len g.field) ++
          spec_bn2binpad y.toNat (spec_field_len g.field)).take (spec_field_len g.field) =
          spec_bn2binpad x.toNat (spec_field_len g.field) := by
        rw [List.take_append_of_le_length (by omega), List.take_of_length_le (by omega)]
      have hdrop : (spec_bn2binpad x.toNat (spec_field_len g.field) ++
          spec_bn2binpad y.toNat (spec_field_len g.field)).drop (spec_field_len g.field) =
          spec_bn2binpad y.toNat (spec_field_len g.field) := by
        rw [List.drop_append_of_le_length (by omega), List.drop_of_length_le (by omega),
          List.nil_append]
      have hlen : (spec_bn2binpad x.toNat (spec_field_len g.field) ++
          spec_bn2binpad y.toNat (spec_field_len g.field)).length =
          2 * spec_field_len g.field := by
        rw [List.length_append, hlx, hly]; omega
      have hv : ((4 : Int).toNat + 0) % 256 = 4 := by decide
      simp only [hv, htake, hdrop, hlen, hbx, hby]
      simp [spec_set_affine, hon]
  · subst hf
    refine ⟨⟨((6 : Int).toNat + (y % 2).toNat) % 256, Nat.mod_lt _ (by decide)⟩ ::
      (spec_bn2binpad x.toNat (spec_field_len g.field) ++
        spec_bn2binpad y.toNat (spec_field_len g.field)), ?_, ?_, ?_⟩
    · unfold spec_point2oct
      simp [hz, haff]
    · simp [hlx, hly]; omega
    · unfold spec_oct2point
      have htake : (spec_bn2binpad x.toNat (spec_field_len g.field) ++
          spec_bn2binpad y.toNat (spec_field_len g.field)).take (spec_field_len g.field) =
          spec_bn2binpad x.toNat (spec_field_len g.field) := by
        rw [List.take_append_of_le_length (by omega), List.take_of_length_le (by omega)]
      have hdrop : (spec_bn2binpad x.toNat (spec_field_len g.field) ++
          spec_bn2binpad y.toNat (spec_field_len g.field)).drop (spec_field_len g.field) =
          spec_bn2binpad y.toNat (spec_field_len g.field) := by
        rw [List.drop_append_of_le_length (by omega), List.drop_of_length_le (by omega),
          List.nil_append]
      have hlen : (spec_bn2binpad x.toNat (spec_field_len g.field) ++
          spec_bn2binpad y.toNat (spec_field_len g.field)).length =
          2 * spec_field_len g.field := by
        rw [List.length_append, hlx, hly]; omega
      have hlead : ((6 : Int).toNat + (y % 2).toNat) % 256 = 6 ∨
          ((6 : Int).toNat + (y % 2).toNat) % 256 = 7 := by
        rcases hybit with h | h <;> rw [h] <;> decide
      have hpar : ((6 : Int).toNat + (y % 2).toNat) % 256 % 2 = (y % 2).toNat := by
        rcases hybit with h | h <;> rw [h] <;> decide
      have hne0 : ¬ ((6 : Int).toNat + (y % 2).toNat) % 256 = 0 := by omega
      have hne23 : ¬ (((6 : Int).toNat + (y % 2).toNat) % 256 = 2 ∨
          ((6 : Int).toNat + (y % 2).toNat) % 256 = 3) := by omega
      have h467 : ((6 : Int).toNat + (y % 2).toNat) % 256 = 4 ∨
          ((6 : Int).toNat + (y % 2).toNat) % 256 = 6 ∨
          ((6 : Int).toNat + (y % 2).toNat) % 256 = 7 := Or.inr hlead
      simp only [hne0, hne23, h467, if_false, if_true, htake, hdrop, hlen, hbx, hby, hpar,
        ne_eq, not_true_eq_false, and_false]
      simp [spec_set_affine, hon]

/-- C14 (on the encoder and decoder modelled from the spec): for every group over
an odd prime field whose method carries them, every point `P` other than the
point at infinity whose affine coordinates `(x, y)` satisfy the curve equation,
and every form among compressed (2), uncompressed (4) and hybrid (6),
`EC_POINT_point2oct` with a null buffer returns the needed length `len > 0`,
with a buffer of that length it writes exactly `len` octets, and
`EC_POINT_oct2point` on those octets succeeds and yields a point whose affine
coordinates are `(x, y)`. -/
theorem sec1_round_trip (group : EC_GROUP) (P : EC_POINT) (x y : Int) (form : Int)
    (hp2o : group.meth.point2oct = some spec_point2oct)
    (ho2p : group.meth.oct2point = some spec_oct2point)
    (haff : group.meth.point_get_affine_coordinates = some spec_get_affine)
    (hprime : Nat.Prime group.field.natAbs) (hpos : 0 < group.field)
    (hodd : group.field % 2 = 1)
    (hxy : EC_POINT_get_affine_coordinates group P = .ok (x, y))
    (hon : spec_on_curve group.toEC_GROUP_DATA x y = true)
    (hform : form = 2 ∨ form = 4 ∨ form = 6) :
    ∃ len buf P', 0 < len ∧ EC_POINT_point2oct group P form none = (len, []) ∧
      EC_POINT_point2oct group P form (some len) = (len, buf) ∧ buf.length = len ∧
      EC_POINT_oct2point group P buf = .ok P' ∧
      EC_POINT_get_affine_coordinates group P' = .ok (x, y) := by
  obtain ⟨hm, hsa⟩ := EC_POINT_get_affine_coordinates_spec group P x y haff hxy
  obtain ⟨hz, hx0, hx, hy0, hy⟩ := spec_get_affine_range group.toEC_GROUP_DATA P x y hpos hsa
  obtain ⟨buf, henc, hlen, hdec⟩ :=
    spec_oct2point_point2oct group.toEC_GROUP_DATA P x y form hprime hpos hodd hsa hon hform
  have hp1 : 1 < group.field := by
    have := hprime.two_le
    omega
  refine ⟨_, buf, { P with X := x, Y := y, Z := 1, Z_is_one := 1 }, ?_, ?_, ?_, hlen, ?_, ?_⟩
  · split_ifs <;> omega
  · unfold EC_POINT_point2oct
    rw [hp2o]
    simp only [hm, ne_eq, not_true_eq_false, if_false]
    unfold spec_point2oct
    have hf : ¬ (form ≠ 2 ∧ form ≠ 4 ∧ form ≠ 6) := by
      rcases hform with h | h | h <;> subst h <;> decide
    simp only [hf, if_false, hz]
  · unfold EC_POINT_point2oct
    rw [hp2o]
    simp only [hm, ne_eq, not_true_eq_false, if_false]
    exact henc
  · unfold EC_POINT_oct2point
    rw [ho2p]
    simp only [hm, ne_eq, not_true_eq_false, if_false]
    exact hdec
  · exact EC_POINT_get_affine_coordinates_affine group P x y haff hm hp1 hx0 hx hy0 hy

/-- C14 on the curve `y² = x³ + x + 6` over `GF(7)` and its point `(1, 1)`: the
compressed, uncompressed and hybrid encodings are `03 01`, `04 01 01` and
`07 01 01`, and each decodes to `(1, 1)`. -/
theorem sec1_round_trip_witness :
    EC_POINT_point2oct curve_p7_oct point_p7 2 (some 2) = (2, [3, 1]) ∧
    EC_POINT_point2oct curve_p7_oct point_p7 4 (some 3) = (3, [4, 1, 1]) ∧
    EC_POINT_point2oct curve_p7_oct point_p7 6 (some 3) = (3, [7, 1, 1]) ∧
    EC_POINT_oct2point curve_p7_oct point_p7 [3, 1] = .ok point_p7 ∧
    (∃ len buf P', 0 < len ∧ EC_POINT_point2oct curve_p7_oct point_p7 2 none = (len, []) ∧
      EC_POINT_point2oct curve_p7_oct point_p7 2 (some len) = (len, buf) ∧ buf.length = len ∧
      EC_POINT_oct2point curve_p7_oct point_p7 buf = .ok P' ∧
      EC_POINT_get_affine_coordinates curve_p7_oct P' = .ok (1, 1)) :=
  ⟨by decide, by decide, by decide, rfl,
    sec1_round_trip curve_p7_oct point_p7 1 1 2 rfl rfl rfl (by norm_num [curve_p7_oct, curve_p7])
      (by decide) (by decide) rfl (by decide) (Or.inl rfl)⟩

end LibCrypto
